import Mathlib

/-!
Timeline server (`index.js`): the upload endpoint and its JSON file

A shallow embedding of `POST /api/entries` of `index.js`.

* JavaScript strings are sequences of UTF-16 code units (`JSString`).
* `JSON.parse` and `JSON.stringify(·, null, 2)` follow ECMA-262 (`JSON.parse`, `QuoteJSONString`,
  `SerializeJSONArray`, `SerializeJSONObject`, the enumeration order of own properties). The
  conversion between number tokens and IEEE doubles is the one thing left abstract: a number
  value carries its source token and `JSON.stringify` takes the rendering of numbers as a
  parameter `numberToString`. The theorems about reading a file back are stated for values that
  hold no number.
* `path.extname` follows `path.posix.extname` of Node, loop variable by loop variable.
* The file system is the timeline file (absent, or its text) and the image directory. Writes
  succeed; the text is stored as UTF-8, so a lone surrogate would come back as U+FFFD.
* The request handler (lines 62-82) is the function `postEntries` from the request and the file
  system to a response and the new file system; `post` puts the upload middleware of lines 35-43
  and 58-61 in front of it. A text field of `req.body` is what multer built from the parts of
  the request: a string, or an array or object for repeated and bracketed field names.
* The handler body is synchronous. `Step` is the event loop of the server process: a handler
  goes through its steps (`advance`) and another handler starts only when none is running.
-/

namespace Timeline

/-! ## JavaScript strings -/

/-- A JavaScript string: its UTF-16 code units. -/
abbrev JSString := List Nat

/-- UTF-16 code units of a string literal. -/
def utf16 (s : String) : JSString :=
  s.toList.flatMap fun c =>
    if c.toNat < 0x10000 then [c.toNat]
    else [0xD800 + (c.toNat - 0x10000) / 0x400, 0xDC00 + (c.toNat - 0x10000) % 0x400]

/-- Leading (high) surrogate code unit. -/
def isLeadingSurrogate (c : Nat) : Bool := decide (0xD800 ≤ c) && decide (c ≤ 0xDBFF)

/-- Trailing (low) surrogate code unit. -/
def isTrailingSurrogate (c : Nat) : Bool := decide (0xDC00 ≤ c) && decide (c ≤ 0xDFFF)

/-! ## JSON values -/

/-- The values `JSON.parse` can return. A number keeps its source token (see the file header).
An object lists its own properties in property-enumeration order. -/
inductive JSON where
  | null
  | bool (b : Bool)
  | num (tok : JSString)
  | str (s : JSString)
  | arr (xs : List JSON)
  | obj (kvs : List (JSString × JSON))

mutual
/-- Decidable equality of JSON values. -/
def JSON.decEq : (a b : JSON) → Decidable (a = b)
  | .null, .null => isTrue rfl
  | .bool a, .bool b =>
    if h : a = b then isTrue (h ▸ rfl) else isFalse (fun e => h (JSON.bool.inj e))
  | .num a, .num b =>
    if h : a = b then isTrue (h ▸ rfl) else isFalse (fun e => h (JSON.num.inj e))
  | .str a, .str b =>
    if h : a = b then isTrue (h ▸ rfl) else isFalse (fun e => h (JSON.str.inj e))
  | .arr a, .arr b =>
    match JSON.decEqList a b with
    | isTrue h => isTrue (h ▸ rfl)
    | isFalse h => isFalse (fun e => h (JSON.arr.inj e))
  | .obj a, .obj b =>
    match JSON.decEqMembers a b with
    | isTrue h => isTrue (h ▸ rfl)
    | isFalse h => isFalse (fun e => h (JSON.obj.inj e))
  | .null, .bool _ => isFalse (fun e => JSON.noConfusion e)
  | .null, .num _ => isFalse (fun e => JSON.noConfusion e)
  | .null, .str _ => isFalse (fun e => JSON.noConfusion e)
  | .null, .arr _ => isFalse (fun e => JSON.noConfusion e)
  | .null, .obj _ => isFalse (fun e => JSON.noConfusion e)
  | .bool _, .null => isFalse (fun e => JSON.noConfusion e)
  | .bool _, .num _ => isFalse (fun e => JSON.noConfusion e)
  | .bool _, .str _ => isFalse (fun e => JSON.noConfusion e)
  | .bool _, .arr _ => isFalse (fun e => JSON.noConfusion e)
  | .bool _, .obj _ => isFalse (fun e => JSON.noConfusion e)
  | .num _, .null => isFalse (fun e => JSON.noConfusion e)
  | .num _, .bool _ => isFalse (fun e => JSON.noConfusion e)
  | .num _, .str _ => isFalse (fun e => JSON.noConfusion e)
  | .num _, .arr _ => isFalse (fun e => JSON.noConfusion e)
  | .num _, .obj _ => isFalse (fun e => JSON.noConfusion e)
  | .str _, .null => isFalse (fun e => JSON.noConfusion e)
  | .str _, .bool _ => isFalse (fun e => JSON.noConfusion e)
  | .str _, .num _ => isFalse (fun e => JSON.noConfusion e)
  | .str _, .arr _ => isFalse (fun e => JSON.noConfusion e)
  | .str _, .obj _ => isFalse (fun e => JSON.noConfusion e)
  | .arr _, .null => isFalse (fun e => JSON.noConfusion e)
  | .arr _, .bool _ => isFalse (fun e => JSON.noConfusion e)
  | .arr _, .num _ => isFalse (fun e => JSON.noConfusion e)
  | .arr _, .str _ => isFalse (fun e => JSON.noConfusion e)
  | .arr _, .obj _ => isFalse (fun e => JSON.noConfusion e)
  | .obj _, .null => isFalse (fun e => JSON.noConfusion e)
  | .obj _, .bool _ => isFalse (fun e => JSON.noConfusion e)
  | .obj _, .num _ => isFalse (fun e => JSON.noConfusion e)
  | .obj _, .str _ => isFalse (fun e => JSON.noConfusion e)
  | .obj _, .arr _ => isFalse (fun e => JSON.noConfusion e)
/-- Decidable equality of lists of JSON values. -/
def JSON.decEqList : (a b : List JSON) → Decidable (a = b)
  | [], [] => isTrue rfl
  | [], _ :: _ => isFalse (fun e => List.noConfusion e)
  | _ :: _, [] => isFalse (fun e => List.noConfusion e)
  | x :: xs, y :: ys =>
    match JSON.decEq x y, JSON.decEqList xs ys with
    | isTrue h, isTrue hs => isTrue (h ▸ hs ▸ rfl)
    | isFalse h, _ => isFalse (fun e => h (List.cons.inj e).1)
    | _, isFalse hs => isFalse (fun e => hs (List.cons.inj e).2)
/-- Decidable equality of property lists. -/
def JSON.decEqMembers : (a b : List (JSString × JSON)) → Decidable (a = b)
  | [], [] => isTrue rfl
  | [], _ :: _ => isFalse (fun e => List.noConfusion e)
  | _ :: _, [] => isFalse (fun e => List.noConfusion e)
  | (k, x) :: xs, (l, y) :: ys =>
    if hk : k = l then
      match JSON.decEq x y, JSON.decEqMembers xs ys with
      | isTrue h, isTrue hs => isTrue (hk ▸ h ▸ hs ▸ rfl)
      | isFalse h, _ => isFalse (fun e => h (Prod.mk.inj (List.cons.inj e).1).2)
      | _, isFalse hs => isFalse (fun e => hs (List.cons.inj e).2)
    else isFalse (fun e => hk (Prod.mk.inj (List.cons.inj e).1).1)
end

instance : DecidableEq JSON := JSON.decEq

/-! ## `JSON.stringify(value, null, 2)` -/

/-- Lower-case hexadecimal digit of a value below 16. -/
def hexDigit (n : Nat) : Nat := if n < 10 then 48 + n else 87 + n

/-- The four lower-case hexadecimal digits of `UnicodeEscape`, without the leading backslash
and `u`. -/
def hex4 (c : Nat) : JSString :=
  [hexDigit (c / 4096 % 16), hexDigit (c / 256 % 16), hexDigit (c / 16 % 16), hexDigit (c % 16)]

/-- How `QuoteJSONString` writes one code point that is not part of a surrogate pair. -/
def escapeUnit (c : Nat) : JSString :=
  if c = 8 then [92, 98]            -- \b
  else if c = 9 then [92, 116]      -- \t
  else if c = 10 then [92, 110]     -- \n
  else if c = 12 then [92, 102]     -- \f
  else if c = 13 then [92, 114]     -- \r
  else if c = 34 then [92, 34]      -- quotation mark
  else if c = 92 then [92, 92]      -- backslash
  else if c < 32 ∨ isLeadingSurrogate c ∨ isTrailingSurrogate c then 92 :: 117 :: hex4 c
  else [c]

/-- Whether the next code unit is a trailing surrogate. -/
def startsWithTrailing : JSString → Bool
  | [] => false
  | l :: _ => isTrailingSurrogate l

/-- The string with each lone surrogate replaced by U+FFFD, as `String.prototype.toWellFormed`
gives it; `paired` says that the code unit before was a leading surrogate and this one is its
trailing surrogate. This is what writing a string to a file as UTF-8 and reading it back
does. -/
def wellFormedFrom (paired : Bool) : JSString → JSString
  | [] => []
  | c :: t =>
    if paired then c :: wellFormedFrom false t
    else if isLeadingSurrogate c && startsWithTrailing t then c :: wellFormedFrom true t
    else if isLeadingSurrogate c || isTrailingSurrogate c then 65533 :: wellFormedFrom false t
    else c :: wellFormedFrom false t

/-- The text a file holds after `writeFileSync(path, s)`, as `readFileSync(path, encoding)`
returns it for the encoding `utf8`. -/
def toWellFormed (s : JSString) : JSString := wellFormedFrom false s

/-- The characters `QuoteJSONString` puts between the two quotes: a surrogate pair is copied,
any other code unit goes through `escapeUnit`. `paired` says that the code unit before was a
leading surrogate and this one is its trailing surrogate. -/
def quoteBody (paired : Bool) : JSString → JSString
  | [] => []
  | c :: t =>
    if paired then c :: quoteBody false t
    else if isLeadingSurrogate c && startsWithTrailing t then c :: quoteBody true t
    else escapeUnit c ++ quoteBody false t

/-- The operation `QuoteJSONString`. -/
def quote (s : JSString) : JSString := 34 :: (quoteBody false s ++ [34])

/-- The gap of `JSON.stringify(·, null, 2)`: two spaces. -/
def gap : JSString := [32, 32]

mutual
/-- The operation `SerializeJSONProperty` for a value, at the current indentation. -/
def serialize (numberToString : JSString → JSString) (indent : JSString) : JSON → JSString
  | .null => [110, 117, 108, 108]
  | .bool true => [116, 114, 117, 101]
  | .bool false => [102, 97, 108, 115, 101]
  | .num tok => numberToString tok
  | .str s => quote s
  | .arr [] => [91, 93]
  | .arr (x :: xs) =>
    [91, 10] ++ (indent ++ gap) ++ serialize numberToString (indent ++ gap) x
      ++ serializeElements numberToString (indent ++ gap) xs ++ [10] ++ indent ++ [93]
  | .obj [] => [123, 125]
  | .obj ((k, v) :: kvs) =>
    [123, 10] ++ (indent ++ gap) ++ quote k ++ [58, 32] ++ serialize numberToString (indent ++ gap) v
      ++ serializeMembers numberToString (indent ++ gap) kvs ++ [10] ++ indent ++ [125]
/-- The elements of an array after the first, each after `,\n` and the indentation. -/
def serializeElements (numberToString : JSString → JSString) (indent : JSString) :
    List JSON → JSString
  | [] => []
  | x :: xs =>
    [44, 10] ++ indent ++ serialize numberToString indent x
      ++ serializeElements numberToString indent xs
/-- The members of an object after the first, each after `,\n` and the indentation. -/
def serializeMembers (numberToString : JSString → JSString) (indent : JSString) :
    List (JSString × JSON) → JSString
  | [] => []
  | (k, v) :: kvs =>
    [44, 10] ++ indent ++ quote k ++ [58, 32] ++ serialize numberToString indent v
      ++ serializeMembers numberToString indent kvs
end

/-- The call `JSON.stringify(value, null, 2)`. -/
def JSON.stringify (numberToString : JSString → JSString) (value : JSON) : JSString :=
  serialize numberToString [] value

/-! ## `JSON.parse` -/

/-- JSON white space: space, tab, line feed, carriage return. -/
def isWs (c : Nat) : Bool := c = 32 || c = 9 || c = 10 || c = 13

/-- Skip JSON white space. -/
def skipWs : JSString → JSString
  | [] => []
  | c :: s => if isWs c then skipWs s else c :: s

/-- Value of a hexadecimal digit, either case. -/
def hexVal (c : Nat) : Option Nat :=
  if 48 ≤ c ∧ c ≤ 57 then some (c - 48)
  else if 97 ≤ c ∧ c ≤ 102 then some (c - 87)
  else if 65 ≤ c ∧ c ≤ 70 then some (c - 55)
  else none

/-- The code unit a single-character escape stands for. -/
def unescape (e : Nat) : Option Nat :=
  if e = 34 then some 34
  else if e = 92 then some 92
  else if e = 47 then some 47
  else if e = 98 then some 8
  else if e = 102 then some 12
  else if e = 110 then some 10
  else if e = 114 then some 13
  else if e = 116 then some 9
  else none

/-- Where the scanner of a JSON string stands: between characters, after a backslash, or inside
a `\u` escape with `count` hexadecimal digits read, of value `value`. -/
inductive StringState where
  | plain
  | backslash
  | hex (count value : Nat)

/-- The rest of a JSON string, scanned from state `st`: the value of the string and what follows the
closing quote. -/
def scanChars : StringState → JSString → Option (JSString × JSString)
  | _, [] => none
  | .plain, c :: s =>
    if c = 34 then some ([], s)
    else if c = 92 then scanChars .backslash s
    else if c < 32 then none
    else
      match scanChars .plain s with
      | some (str, r) => some (c :: str, r)
      | none => none
  | .backslash, e :: s =>
    if e = 117 then scanChars (.hex 0 0) s
    else
      match unescape e with
      | some u =>
        match scanChars .plain s with
        | some (str, r) => some (u :: str, r)
        | none => none
      | none => none
  | .hex count value, h :: s =>
    match hexVal h with
    | none => none
    | some d =>
      if count = 3 then
        match scanChars .plain s with
        | some (str, r) => some ((value * 16 + d) :: str, r)
        | none => none
      else scanChars (.hex (count + 1) (value * 16 + d)) s

/-- The rest of a JSON string after its opening quote: the value of the string and what follows the
closing quote. -/
def parseChars (s : JSString) : Option (JSString × JSString) := scanChars .plain s

/-- Decimal digit. -/
def isDigit (c : Nat) : Bool := decide (48 ≤ c) && decide (c ≤ 57)

/-- Split off the leading decimal digits. -/
def spanDigits : JSString → JSString × JSString
  | [] => ([], [])
  | c :: s => if isDigit c then ((spanDigits s).1.cons c, (spanDigits s).2) else ([], c :: s)

/-- The integer part of a number token: `0`, or a non-zero digit and further digits. -/
def parseInt : JSString → Option (JSString × JSString)
  | [] => none
  | c :: s =>
    if c = 48 then some ([48], s)
    else if isDigit c then some (c :: (spanDigits s).1, (spanDigits s).2)
    else none

/-- The optional fraction of a number token: `.` and at least one digit. -/
def parseFrac : JSString → Option (JSString × JSString)
  | 46 :: s =>
    match spanDigits s with
    | ([], _) => none
    | (ds, r) => some (46 :: ds, r)
  | s => some ([], s)

/-- The optional exponent of a number token: `e` or `E`, an optional sign, at least one digit. -/
def parseExp : JSString → Option (JSString × JSString)
  | [] => some ([], [])
  | c :: s =>
    if c = 101 ∨ c = 69 then
      match s with
      | [] => none
      | g :: s1 =>
        if g = 43 ∨ g = 45 then
          match spanDigits s1 with
          | ([], _) => none
          | (ds, r) => some (c :: g :: ds, r)
        else
          match spanDigits (g :: s1) with
          | ([], _) => none
          | (ds, r) => some (c :: ds, r)
    else some ([], c :: s)

/-- A number token without its sign. -/
def parseUnsigned (s : JSString) : Option (JSString × JSString) :=
  match parseInt s with
  | none => none
  | some (i, r) =>
    match parseFrac r with
    | none => none
    | some (f, r1) =>
      match parseExp r1 with
      | none => none
      | some (e, r2) => some (i ++ f ++ e, r2)

/-- A JSON number token. -/
def parseNumber : JSString → Option (JSString × JSString)
  | 45 :: s =>
    match parseUnsigned s with
    | some (t, r) => some (45 :: t, r)
    | none => none
  | s => parseUnsigned s

/-- The decimal digits of `n`, least significant first, at most `fuel` of them. -/
def digitsRev : Nat → Nat → JSString
  | 0, _ => []
  | fuel + 1, n => (48 + n % 10) :: (if n / 10 = 0 then [] else digitsRev fuel (n / 10))

/-- The decimal numeral of a natural number below `10^10`. -/
def decimal (n : Nat) : JSString := (digitsRev 10 n).reverse

/-- The array index a property key stands for, if any: the key is the decimal numeral of an
integer below `2^32 - 1`. Such keys are enumerated first, in ascending order. -/
def arrayIndex (k : JSString) : Option Nat :=
  if k.foldl (fun acc d => acc * 10 + (d - 48)) 0 < 4294967295 ∧
      decimal (k.foldl (fun acc d => acc * 10 + (d - 48)) 0) = k then
    some (k.foldl (fun acc d => acc * 10 + (d - 48)) 0)
  else none

/-- Whether the object already has the own property `k`. -/
def hasKey (k : JSString) : List (JSString × JSON) → Bool
  | [] => false
  | (k1, _) :: kvs => k1 = k || hasKey k kvs

/-- Overwrite the value of the existing property `k`, keeping its place. -/
def replaceValue (k : JSString) (v : JSON) : List (JSString × JSON) → List (JSString × JSON)
  | [] => []
  | (k1, v1) :: kvs => if k1 = k then (k1, v) :: kvs else (k1, v1) :: replaceValue k v kvs

/-- Add the new array-index property `k` (of index `n`): after the smaller indices, before the
larger ones and before every other key. -/
def insertIndex (n : Nat) (k : JSString) (v : JSON) :
    List (JSString × JSON) → List (JSString × JSON)
  | [] => [(k, v)]
  | (k1, v1) :: kvs =>
    match arrayIndex k1 with
    | some m => if m < n then (k1, v1) :: insertIndex n k v kvs else (k, v) :: (k1, v1) :: kvs
    | none => (k, v) :: (k1, v1) :: kvs

/-- The operation `CreateDataProperty(object, k, v)` on the enumeration-ordered property
list. -/
def setProperty (kvs : List (JSString × JSON)) (k : JSString) (v : JSON) :
    List (JSString × JSON) :=
  if hasKey k kvs then replaceValue k v kvs
  else
    match arrayIndex k with
    | some n => insertIndex n k v kvs
    | none => kvs ++ [(k, v)]

/-- The object built from the members of an object literal, in source order. -/
def buildObject (members : List (JSString × JSON)) : List (JSString × JSON) :=
  members.foldl (fun o kv => setProperty o kv.1 kv.2) []

/-- The elements of a non-empty array and its closing bracket: `value (, value)* ]`.
`parseValue` is the parser for one value. -/
def parseElements (parseValue : JSString → Option (JSON × JSString)) :
    Nat → JSString → Option (List JSON × JSString)
  | 0, _ => none
  | fuel + 1, s =>
    match parseValue s with
    | none => none
    | some (v, r) =>
      match skipWs r with
      | c :: r1 =>
        if c = 44 then
          match parseElements parseValue fuel (skipWs r1) with
          | some (vs, r2) => some (v :: vs, r2)
          | none => none
        else if c = 93 then some ([v], r1)
        else none
      | [] => none

/-- The members of a non-empty object and its closing brace: `string : value (, string : value)* }`. -/
def parseMembers (parseValue : JSString → Option (JSON × JSString)) :
    Nat → JSString → Option (List (JSString × JSON) × JSString)
  | 0, _ => none
  | fuel + 1, s =>
    match s with
    | [] => none
    | q :: s1 =>
      if q = 34 then
        match parseChars s1 with
        | none => none
        | some (k, r) =>
          match skipWs r with
          | [] => none
          | c :: r1 =>
            if c = 58 then
              match parseValue (skipWs r1) with
              | none => none
              | some (v, r2) =>
                match skipWs r2 with
                | [] => none
                | d :: r3 =>
                  if d = 44 then
                    match parseMembers parseValue fuel (skipWs r3) with
                    | some (kvs, r4) => some ((k, v) :: kvs, r4)
                    | none => none
                  else if d = 125 then some ([(k, v)], r3)
                  else none
            else none
      else none

/-- Whether `s` starts with the characters `p`; the rest if so. -/
def expectChars : JSString → JSString → Option JSString
  | [], s => some s
  | _ :: _, [] => none
  | p :: ps, c :: s => if p = c then expectChars ps s else none

/-- One JSON value at the head of the input (no leading white space): the value and the rest.
The fuel bounds the nesting depth and the number of elements of an array or object; the length of
the input is always enough. -/
def parseValue : Nat → JSString → Option (JSON × JSString)
  | 0, _ => none
  | fuel + 1, s =>
    match s with
    | [] => none
    | c :: r =>
      if c = 34 then
        match parseChars r with
        | some (str, r1) => some (.str str, r1)
        | none => none
      else if c = 91 then
        match skipWs r with
        | [] => none
        | d :: r1 =>
          if d = 93 then some (.arr [], r1)
          else
            match parseElements (parseValue fuel) fuel (d :: r1) with
            | some (vs, r2) => some (.arr vs, r2)
            | none => none
      else if c = 123 then
        match skipWs r with
        | [] => none
        | d :: r1 =>
          if d = 125 then some (.obj [], r1)
          else
            match parseMembers (parseValue fuel) fuel (d :: r1) with
            | some (kvs, r2) => some (.obj (buildObject kvs), r2)
            | none => none
      else if c = 116 then
        match expectChars [114, 117, 101] r with
        | some r1 => some (.bool true, r1)
        | none => none
      else if c = 102 then
        match expectChars [97, 108, 115, 101] r with
        | some r1 => some (.bool false, r1)
        | none => none
      else if c = 110 then
        match expectChars [117, 108, 108] r with
        | some r1 => some (.null, r1)
        | none => none
      else
        match parseNumber (c :: r) with
        | some (tok, r1) => some (.num tok, r1)
        | none => none

/-- The call `JSON.parse(text)`: `none` when it throws a `SyntaxError`. -/
def JSON.parse (text : JSString) : Option JSON :=
  match parseValue (text.length + 1) (skipWs text) with
  | none => none
  | some (v, r) => if skipWs r = [] then some v else none

/-! ## Values that survive a round trip through the file -/

mutual
/-- Number of nodes of a value. -/
def JSON.size : JSON → Nat
  | .arr xs => JSON.sizeList xs + 1
  | .obj kvs => JSON.sizeMembers kvs + 1
  | _ => 1
/-- Number of nodes of a list of values. -/
def JSON.sizeList : List JSON → Nat
  | [] => 0
  | x :: xs => x.size + JSON.sizeList xs
/-- Number of nodes of the values of a property list. -/
def JSON.sizeMembers : List (JSString × JSON) → Nat
  | [] => 0
  | (_, v) :: kvs => v.size + JSON.sizeMembers kvs
end

mutual
/-- A value made of `null`, booleans, strings, arrays and objects (no number), each object
listing its properties as an object holds them: building the object from its own property list
gives that list back (the keys are distinct and array-index keys come first, ascending). -/
def JSON.canonical : JSON → Bool
  | .null => true
  | .bool _ => true
  | .num _ => false
  | .str _ => true
  | .arr xs => JSON.canonicalList xs
  | .obj kvs => JSON.canonicalMembers kvs && decide (buildObject kvs = kvs)
/-- Every value of the list is canonical. -/
def JSON.canonicalList : List JSON → Bool
  | [] => true
  | x :: xs => x.canonical && JSON.canonicalList xs
/-- Every value of the property list is canonical. -/
def JSON.canonicalMembers : List (JSString × JSON) → Bool
  | [] => true
  | (_, v) :: kvs => v.canonical && JSON.canonicalMembers kvs
end

/-- The order in which an object enumerates two of its keys: array indices ascending, and
before every other key. -/
def keyBefore (k1 k2 : JSString) : Prop :=
  match arrayIndex k1, arrayIndex k2 with
  | some a, some b => a < b
  | some _, none => True
  | none, some _ => False
  | none, none => True

/-- A property list as an object holds it: distinct keys, in enumeration order. -/
def Ordered (kvs : List (JSString × JSON)) : Prop :=
  (kvs.map Prod.fst).Nodup ∧ (kvs.map Prod.fst).Pairwise keyBefore

mutual
/-- A value that holds no number. -/
def JSON.numberFree : JSON → Bool
  | .null => true
  | .bool _ => true
  | .num _ => false
  | .str _ => true
  | .arr xs => JSON.numberFreeList xs
  | .obj kvs => JSON.numberFreeMembers kvs
/-- No value of the list holds a number. -/
def JSON.numberFreeList : List JSON → Bool
  | [] => true
  | x :: xs => x.numberFree && JSON.numberFreeList xs
/-- No value of the property list holds a number. -/
def JSON.numberFreeMembers : List (JSString × JSON) → Bool
  | [] => true
  | (_, v) :: kvs => v.numberFree && JSON.numberFreeMembers kvs
end

/-! ## `path.extname` -/

/-- The variables of the scanning loop of `path.posix.extname`; `none` stands for `-1`. -/
structure ExtScan where
  startDot : Option Nat
  startPart : Nat
  endPos : Option Nat
  matchedSlash : Bool
  preDotState : Int

/-- The loop `for (let i = path.length - 1; i >= 0; --i)` of `path.posix.extname`, with `n`
iterations left (the next index is `n - 1`). -/
def extnameScan (path : JSString) : Nat → ExtScan → ExtScan
  | 0, st => st
  | i + 1, st =>
    let code := path.getD i 0
    if code = 47 then
      if !st.matchedSlash then { st with startPart := i + 1 }
      else extnameScan path i st
    else
      let st1 :=
        if st.endPos = none then { st with matchedSlash := false, endPos := some (i + 1) } else st
      let st2 :=
        if code = 46 then
          if st1.startDot = none then { st1 with startDot := some i }
          else if st1.preDotState ≠ 1 then { st1 with preDotState := 1 }
          else st1
        else if st1.startDot ≠ none then { st1 with preDotState := -1 }
        else st1
      extnameScan path i st2

/-- The call `path.extname(path)` (POSIX): from the last `.` of the last path component to its
end; empty when there is no such dot, when the component starts with its only dot, or when it is
`..`. -/
def extname (path : JSString) : JSString :=
  let st := extnameScan path path.length ⟨none, 0, none, true, 0⟩
  match st.startDot, st.endPos with
  | some startDot, some endPos =>
    if st.preDotState = 0 ∨
        (st.preDotState = 1 ∧ startDot = endPos - 1 ∧ startDot = st.startPart + 1) then []
    else (path.drop startDot).take (endPos - startDot)
  | _, _ => []

/-! ## Storage of uploaded files (`multer.diskStorage`, lines 35-43) -/

/-- Lower-case hexadecimal digit character. -/
def isHexChar (c : Nat) : Bool := isDigit c || (decide (97 ≤ c) && decide (c ≤ 102))

/-- The shape of what `crypto.randomUUID()` returns: 36 characters, hyphens at positions 8, 13,
18 and 23, lower-case hexadecimal digits elsewhere. -/
def isUUID (id : JSString) : Bool :=
  decide (id.length = 36) &&
    (List.range 36).all fun i =>
      if i = 8 ∨ i = 13 ∨ i = 18 ∨ i = 23 then id.getD i 0 = 45 else isHexChar (id.getD i 0)

/-- The `filename` callback of `storage`: `uniqueId + path.extname(file.originalname)`. -/
def storageFilename (uniqueId originalname : JSString) : JSString :=
  uniqueId ++ extname originalname

/-- A file part of a multipart request. -/
structure FilePart where
  fieldname : JSString
  originalname : JSString
  data : List Nat
  deriving DecidableEq

/-- A file as multer records it in `req.files`. -/
structure UploadedFile where
  fieldname : JSString
  originalname : JSString
  filename : JSString
  deriving DecidableEq

/-- The file system the server uses: `timeline.json` (`none` when `readFileSync` throws, the file
being absent, otherwise the text it returns, decoded as UTF-8) and the files of `imgsDir` (name
and content). -/
structure FS where
  timeline : Option JSString
  imgs : List (JSString × List Nat)
  deriving DecidableEq

/-- Write a file into `imgsDir`, replacing a file of the same name. -/
def writeImage (imgs : List (JSString × List Nat)) (name : JSString) (data : List Nat) :
    List (JSString × List Nat) :=
  (name, data) :: imgs.filter fun f => f.1 ≠ name

/-- The names of the files in `imgsDir`. -/
def FS.imageNames (fs : FS) : List JSString := fs.imgs.map Prod.fst

/-! ## The request as the handler sees it -/

/-- A value multer puts in `req.body` for a text field name: the text of the part; an array,
for a name that is repeated, ends in `[]` or carries an index such as `username[3]` (an element
is `none` where the index was never set, a hole of the array); an object, for names with a
bracketed key such as `time[a]`, given by its properties in the order in which they were set.
Arrays and objects nest. -/
inductive FieldValue where
  | text (s : JSString)
  | array (xs : List (Option FieldValue))
  | object (kvs : List (JSString × FieldValue))

mutual
/-- Decidable equality of field values. -/
def FieldValue.decEq : (a b : FieldValue) → Decidable (a = b)
  | .text a, .text b =>
    if h : a = b then isTrue (h ▸ rfl) else isFalse (fun e => h (FieldValue.text.inj e))
  | .array a, .array b =>
    match FieldValue.decEqList a b with
    | isTrue h => isTrue (h ▸ rfl)
    | isFalse h => isFalse (fun e => h (FieldValue.array.inj e))
  | .object a, .object b =>
    match FieldValue.decEqMembers a b with
    | isTrue h => isTrue (h ▸ rfl)
    | isFalse h => isFalse (fun e => h (FieldValue.object.inj e))
  | .text _, .array _ => isFalse (fun e => FieldValue.noConfusion e)
  | .text _, .object _ => isFalse (fun e => FieldValue.noConfusion e)
  | .array _, .text _ => isFalse (fun e => FieldValue.noConfusion e)
  | .array _, .object _ => isFalse (fun e => FieldValue.noConfusion e)
  | .object _, .text _ => isFalse (fun e => FieldValue.noConfusion e)
  | .object _, .array _ => isFalse (fun e => FieldValue.noConfusion e)
termination_by structural a => a
/-- Decidable equality of array elements. -/
def FieldValue.decEqElement : (a b : Option FieldValue) → Decidable (a = b)
  | none, none => isTrue rfl
  | none, some _ => isFalse (fun e => Option.noConfusion e)
  | some _, none => isFalse (fun e => Option.noConfusion e)
  | some x, some y =>
    match FieldValue.decEq x y with
    | isTrue h => isTrue (h ▸ rfl)
    | isFalse h => isFalse (fun e => h (Option.some.inj e))
/-- Decidable equality of lists of array elements. -/
def FieldValue.decEqList : (a b : List (Option FieldValue)) → Decidable (a = b)
  | [], [] => isTrue rfl
  | [], _ :: _ => isFalse (fun e => List.noConfusion e)
  | _ :: _, [] => isFalse (fun e => List.noConfusion e)
  | x :: xs, y :: ys =>
    match FieldValue.decEqElement x y, FieldValue.decEqList xs ys with
    | isTrue h, isTrue hs => isTrue (h ▸ hs ▸ rfl)
    | isFalse h, _ => isFalse (fun e => h (List.cons.inj e).1)
    | _, isFalse hs => isFalse (fun e => hs (List.cons.inj e).2)
/-- Decidable equality of property lists of field values. -/
def FieldValue.decEqMembers : (a b : List (JSString × FieldValue)) → Decidable (a = b)
  | [], [] => isTrue rfl
  | [], _ :: _ => isFalse (fun e => List.noConfusion e)
  | _ :: _, [] => isFalse (fun e => List.noConfusion e)
  | (k, x) :: xs, (l, y) :: ys =>
    if hk : k = l then
      match FieldValue.decEq x y, FieldValue.decEqMembers xs ys with
      | isTrue h, isTrue hs => isTrue (hk ▸ h ▸ hs ▸ rfl)
      | isFalse h, _ => isFalse (fun e => h (Prod.mk.inj (List.cons.inj e).1).2)
      | _, isFalse hs => isFalse (fun e => hs (List.cons.inj e).2)
    else isFalse (fun e => hk (Prod.mk.inj (List.cons.inj e).1).1)
end

instance : DecidableEq FieldValue := FieldValue.decEq

mutual
/-- The field value as the JSON value `JSON.stringify` sees: a string, an array, or the object
built from the properties in the order in which they were set. -/
def FieldValue.toJSON : FieldValue → JSON
  | .text s => .str s
  | .array xs => .arr (FieldValue.toJSONList xs)
  | .object kvs => .obj (buildObject (FieldValue.toJSONMembers kvs))
/-- An array element as `JSON.stringify` sees it: a hole reads as `undefined`, which is written
as `null`. -/
def FieldValue.toJSONElement : Option FieldValue → JSON
  | none => .null
  | some v => v.toJSON
/-- The elements of an array of field values as JSON values. -/
def FieldValue.toJSONList : List (Option FieldValue) → List JSON
  | [] => []
  | x :: xs => FieldValue.toJSONElement x :: FieldValue.toJSONList xs
/-- The properties of an object of field values as JSON values. -/
def FieldValue.toJSONMembers : List (JSString × FieldValue) → List (JSString × JSON)
  | [] => []
  | (k, v) :: kvs => (k, v.toJSON) :: FieldValue.toJSONMembers kvs
end

/-- The object `req.body` of a multipart request: the properties the handler reads (`none`: no
such property). -/
structure Body where
  username : Option FieldValue
  time : Option FieldValue
  deriving DecidableEq

/-- The object `req.files` after `upload.fields`: an array of files per field name that
received one. -/
structure Files where
  avatar : Option (List UploadedFile)
  image : Option (List UploadedFile)
  deriving DecidableEq

/-- The request the handler receives. `body` and `files` are `none` (`undefined`) when multer did
not parse the request, which is the case for every request that is not multipart. -/
structure Request where
  body : Option Body
  files : Option Files
  deriving DecidableEq

/-- What the client gets back. -/
inductive Response where
  /-- the answer `res.status(status).json(body)` -/
  | json (status : Nat) (body : JSON)
  /-- an exception left the handler or the middleware: Express answers 500 -/
  | uncaught
  deriving DecidableEq

/-- The body of the 400 answer: the object whose `error` is the text `Missing fields`. -/
def missingFields : JSON := .obj [(utf16 "error", .str (utf16 "Missing fields"))]

/-- The body of the success answer: the object whose `success` is `true`. -/
def successBody : JSON := .obj [(utf16 "success", .bool true)]

/-- A property of `req.body` that passes `!x` as false: any value but `undefined` and the empty
string (an array and an object are truthy, whatever they hold). -/
def truthy : Option FieldValue → Option FieldValue
  | none => none
  | some (.text []) => none
  | some v => some v

/-- The first file of `req.files?.<field>`, when `req.files?.<field>?.length` is truthy. -/
def firstFile (files : Option Files) (field : Files → Option (List UploadedFile)) :
    Option UploadedFile :=
  match files with
  | none => none
  | some fs =>
    match field fs with
    | some (f :: _) => some f
    | _ => none

/-- The entry the handler pushes (line 78), `username` and `time` as `req.body` holds them. -/
def entry (username time : JSON) (avatarPath imagePath : JSString) : JSON :=
  .obj [(utf16 "username", username), (utf16 "time", time),
    (utf16 "avatar", .str avatarPath), (utf16 "image", .str imagePath)]

/-- Lines 68-69: the relative path of a stored file. -/
def assetPath (file : UploadedFile) : JSString := utf16 "assets/imgs/" ++ file.filename

/-- Lines 71-76: `timeline = []`, replaced by the parsed file unless reading or parsing throws. -/
def readTimeline (fs : FS) : JSON :=
  match fs.timeline with
  | none => .arr []
  | some text =>
    match JSON.parse text with
    | some v => v
    | none => .arr []

/-- The handler of `POST /api/entries` (lines 62-82).

* line 63: destructuring `req.body` throws when it is `undefined`;
* line 64: the four checks, each of which sends the request to the 400 answer;
* lines 71-76: `readTimeline`;
* line 78: `timeline.push` is a call of a method only arrays have, on anything else it throws;
* line 80: the file is overwritten with `JSON.stringify(timeline, null, 2)`, written as UTF-8. -/
def postEntries (numberToString : JSString → JSString) (req : Request) (fs : FS) :
    Response × FS :=
  match req.body with
  | none => (.uncaught, fs)
  | some body =>
    match truthy body.username, truthy body.time,
      firstFile req.files Files.avatar, firstFile req.files Files.image with
    | some username, some time, some avatar, some image =>
      match readTimeline fs with
      | .arr timeline =>
        let timeline :=
          timeline ++ [entry username.toJSON time.toJSON (assetPath avatar) (assetPath image)]
        (.json 200 successBody,
          { fs with
            timeline := some (toWellFormed (JSON.stringify numberToString (.arr timeline))) })
      | _ => (.uncaught, fs)
    | _, _, _, _ => (.json 400 missingFields, fs)

/-! ## The upload middleware (`upload.fields`, lines 58-61) and the whole route -/

/-- A request to `POST /api/entries` as it arrives. A multipart request is given by what multer
makes of its text parts for the names `username` and `time` (`none` without such a part) and by
its file parts, in order. Any other request is passed on by multer untouched: `req.body` and
`req.files` stay `undefined`. -/
inductive HttpRequest where
  | other
  | multipart (username time : Option FieldValue) (parts : List FilePart)
  deriving DecidableEq

/-- The server between two requests: the file system and the number of identifiers
`crypto.randomUUID()` has handed out. -/
structure Server where
  fs : FS
  issued : Nat
  deriving DecidableEq

/-- What `upload.fields` has done so far with the file parts of one request. -/
structure Upload where
  files : Files
  imgs : List (JSString × List Nat)
  issued : Nat
  stored : List JSString
  deriving DecidableEq

/-- One file part through `upload.fields` for the fields `avatar` and `image`, each with
`maxCount` 1, with the disk storage of lines 35-42: a part without a file name is skipped; a
part for another field, or a second one for the same field, is refused (`none`); an accepted part
is written to `imgsDir` under `storageFilename` and recorded in `req.files`. -/
def uploadPart (randomUUID : Nat → JSString) (u : Upload) (p : FilePart) : Option Upload :=
  if p.originalname = [] then some u
  else
    let filename := storageFilename (randomUUID u.issued) p.originalname
    let file : UploadedFile := ⟨p.fieldname, p.originalname, filename⟩
    if p.fieldname = utf16 "avatar" ∧ u.files.avatar = none then
      some ⟨{ u.files with avatar := some [file] }, writeImage u.imgs filename p.data,
        u.issued + 1, filename :: u.stored⟩
    else if p.fieldname = utf16 "image" ∧ u.files.image = none then
      some ⟨{ u.files with image := some [file] }, writeImage u.imgs filename p.data,
        u.issued + 1, filename :: u.stored⟩
    else none

/-- All file parts of a request through `uploadPart`. When a part is refused, multer removes the
files this request has stored and reports the error (`Sum.inl`, with the image directory and the
identifier count left behind). -/
def uploadFields (randomUUID : Nat → JSString) :
    List FilePart → Upload → Sum (List (JSString × List Nat) × Nat) Upload
  | [], u => .inr u
  | p :: ps, u =>
    match uploadPart randomUUID u p with
    | some u1 => uploadFields randomUUID ps u1
    | none => .inl (u.imgs.filter fun f => f.1 ∉ u.stored, u.issued)

/-- The route `POST /api/entries`: the upload middleware, then the handler. -/
def post (randomUUID : Nat → JSString) (numberToString : JSString → JSString)
    (r : HttpRequest) (sv : Server) : Response × Server :=
  match r with
  | .other =>
    ((postEntries numberToString ⟨none, none⟩ sv.fs).1,
      ⟨(postEntries numberToString ⟨none, none⟩ sv.fs).2, sv.issued⟩)
  | .multipart username time parts =>
    match uploadFields randomUUID parts ⟨⟨none, none⟩, sv.fs.imgs, sv.issued, []⟩ with
    | .inl (imgs, issued) => (.uncaught, ⟨{ sv.fs with imgs := imgs }, issued⟩)
    | .inr u =>
      ((postEntries numberToString ⟨some ⟨username, time⟩, some u.files⟩
          { sv.fs with imgs := u.imgs }).1,
        ⟨(postEntries numberToString ⟨some ⟨username, time⟩, some u.files⟩
          { sv.fs with imgs := u.imgs }).2, u.issued⟩)

/-! ## Sequences of requests -/

/-- Handle the requests one after another: the responses, in order, and the file system after
the last. -/
def runAll (numberToString : JSString → JSString) : List Request → FS → List Response × FS
  | [], fs => ([], fs)
  | r :: rs, fs =>
    ((postEntries numberToString r fs).1 ::
        (runAll numberToString rs (postEntries numberToString r fs).2).1,
      (runAll numberToString rs (postEntries numberToString r fs).2).2)

/-- The file systems the server can be in: `timeline.json` is absent at first; the handler runs
on any request; the upload middleware changes the image directory. -/
inductive Reachable (numberToString : JSString → JSString) : FS → Prop where
  | init (imgs : List (JSString × List Nat)) : Reachable numberToString ⟨none, imgs⟩
  | handle (req : Request) (fs : FS) :
    Reachable numberToString fs → Reachable numberToString (postEntries numberToString req fs).2
  | upload (imgs : List (JSString × List Nat)) (fs : FS) :
    Reachable numberToString fs → Reachable numberToString { fs with imgs := imgs }

/-! ## The handler step by step, on the event loop -/

/-- Where a running handler stands. -/
inductive Running where
  /-- before line 63, with the request -/
  | validate (req : Request)
  /-- before `readFileSync` (line 73), with the entry of lines 68-69 and 78 -/
  | read (newEntry : JSON)
  /-- before `timeline.push` (line 78), with the value of `timeline` -/
  | push (timeline newEntry : JSON)
  /-- before `writeFileSync` (line 80), with the array -/
  | write (timeline : List JSON)

/-- The server process: the file system, the handler that is running (if any), the requests
whose handler has not started yet, and the responses sent. -/
structure Loop where
  fs : FS
  running : Option Running
  waiting : List Request
  sent : List Response

/-- One step of the running handler: the new file system, where the handler stands next, and
the response when the handler ends here. -/
def advance (numberToString : JSString → JSString) (fs : FS) :
    Running → FS × Option Running × Option Response
  | .validate req =>
    match req.body with
    | none => (fs, none, some .uncaught)
    | some body =>
      match truthy body.username, truthy body.time,
        firstFile req.files Files.avatar, firstFile req.files Files.image with
      | some username, some time, some avatar, some image =>
        (fs, some (.read (entry username.toJSON time.toJSON (assetPath avatar)
          (assetPath image))), none)
      | _, _, _, _ => (fs, none, some (.json 400 missingFields))
  | .read newEntry => (fs, some (.push (readTimeline fs) newEntry), none)
  | .push timeline newEntry =>
    match timeline with
    | .arr xs => (fs, some (.write (xs ++ [newEntry])), none)
    | _ => (fs, none, some .uncaught)
  | .write timeline =>
    ({ fs with
        timeline := some (toWellFormed (JSON.stringify numberToString (.arr timeline))) },
      none, some (.json 200 successBody))

/-- The steps of the server process. The handler body is synchronous: JavaScript runs it to
completion, so a handler starts (`dispatch`) only when none is running, and a running handler
takes its next step (`step`). The order in which waiting requests are dispatched is free. -/
inductive Step (numberToString : JSString → JSString) : Loop → Loop → Prop where
  | dispatch (fs : FS) (before after : List Request) (req : Request) (sent : List Response) :
    Step numberToString ⟨fs, none, before ++ req :: after, sent⟩
      ⟨fs, some (.validate req), before ++ after, sent⟩
  | step (fs : FS) (k : Running) (waiting : List Request) (sent : List Response) :
    Step numberToString ⟨fs, some k, waiting, sent⟩
      ⟨(advance numberToString fs k).1, (advance numberToString fs k).2.1, waiting,
        sent ++ (advance numberToString fs k).2.2.toList⟩

/-- Executions: any number of steps. -/
def Steps (numberToString : JSString → JSString) : Loop → Loop → Prop :=
  Relation.ReflTransGen (Step numberToString)

/-! ## The words of the claims -/

/-- A required text input is absent: the field is missing or is the empty string. -/
def absentText (x : Option FieldValue) : Prop := x = none ∨ x = some (.text [])

instance (x : Option FieldValue) : Decidable (absentText x) := by
  unfold absentText; infer_instance

/-- Number of files the request carries for a field of `req.files`. -/
def fileCount (req : Request) (field : Files → Option (List UploadedFile)) : Nat :=
  match req.files with
  | none => 0
  | some fs =>
    match field fs with
    | none => 0
    | some l => l.length

/-- At least one of the four required inputs is absent: `username`, `time`, an `avatar` file, an
`image` file. -/
def InputMissing (req : Request) : Prop :=
  absentText (req.body.bind Body.username) ∨ absentText (req.body.bind Body.time) ∨
    fileCount req Files.avatar = 0 ∨ fileCount req Files.image = 0

instance (req : Request) : Decidable (InputMissing req) := by
  unfold InputMissing; infer_instance

/-- A valid request: non-empty `username` and `time`, an `avatar` file and an `image` file. -/
structure ValidPost where
  username : JSString
  time : JSString
  avatar : UploadedFile
  image : UploadedFile
  username_ne : username ≠ []
  time_ne : time ≠ []

/-- The request of a valid post, as the handler receives it. -/
def ValidPost.request (p : ValidPost) : Request :=
  ⟨some ⟨some (.text p.username), some (.text p.time)⟩, some ⟨some [p.avatar], some [p.image]⟩⟩

/-- The timeline entry of a valid post. -/
def ValidPost.entry (p : ValidPost) : JSON :=
  Timeline.entry (.str p.username) (.str p.time) (utf16 "assets/imgs/" ++ p.avatar.filename)
    (utf16 "assets/imgs/" ++ p.image.filename)

/-- A timeline entry with its four fields present and non-empty. -/
def FullEntry (e : JSON) : Prop :=
  ∃ username time avatar image : JSString,
    e = .obj [(utf16 "username", .str username), (utf16 "time", .str time),
      (utf16 "avatar", .str avatar), (utf16 "image", .str image)] ∧
    username ≠ [] ∧ time ≠ [] ∧ avatar ≠ [] ∧ image ≠ []

/-- A timeline entry as the checks of line 64 leave it: the four fields are present, `username`
and `time` are what `req.body` held, neither of them the empty string (each a non-empty string,
or an array or object), and `avatar` and `image` are non-empty strings. -/
def PresentEntry (e : JSON) : Prop :=
  ∃ (username time : FieldValue) (avatar image : JSString),
    e = .obj [(utf16 "username", username.toJSON), (utf16 "time", time.toJSON),
      (utf16 "avatar", .str avatar), (utf16 "image", .str image)] ∧
    username ≠ .text [] ∧ time ≠ .text [] ∧ avatar ≠ [] ∧ image ≠ []

/-- What `parseElements` and `parseMembers` need from the parser `pv` of one value: it reads the
canonical value `v` back from its text at indentation `ind`, whatever follows. -/
def ReadsBack (nts : JSString → JSString) (pv : JSString → Option (JSON × JSString))
    (ind : JSString) (v : JSON) : Prop :=
  v.canonical = true ∧ ∀ r, pv (serialize nts ind v ++ r) = some (v, r)

/-- What holds of the variables of the `path.extname` loop with `n` iterations left: no end
position while only slashes have been seen; the end position lies above the indices still to
come, within the path, with no slash between them and it; the dot position holds a dot, lies
among the indices already seen and below the end position. -/
def ExtInv (path : JSString) (n : Nat) (st : ExtScan) : Prop :=
  (st.matchedSlash = true → st.endPos = none) ∧
  (∀ e, st.endPos = some e →
    n < e ∧ e ≤ path.length ∧ ∀ j, n ≤ j → j < e → path.getD j 0 ≠ 47) ∧
  (∀ sd, st.startDot = some sd →
    n ≤ sd ∧ path.getD sd 0 = 46 ∧ ∃ e, st.endPos = some e ∧ sd < e)

/-- What holds of the variables when the `path.extname` loop has ended: from the dot position to
the end position there is a dot first and no slash. -/
def ExtDone (path : JSString) (st : ExtScan) : Prop :=
  ∀ sd e, st.startDot = some sd → st.endPos = some e →
    sd < e ∧ e ≤ path.length ∧ path.getD sd 0 = 46 ∧
      ∀ j, sd ≤ j → j < e → path.getD j 0 ≠ 47

/-! ## Sample data -/

/-- A sample identifier of the shape `crypto.randomUUID()` returns. -/
def sampleUUID : JSString := utf16 "123e4567-e89b-42d3-a456-426614174000"

/-- Another sample identifier. -/
def otherUUID : JSString := utf16 "9b2c1f0e-7d6a-4c3b-8a19-0f1e2d3c4b5a"

/-- The upload of the concrete scenario of the specification: `alice`, `2024-01-01`, `a.png`,
`b.jpg`. -/
def alice : ValidPost :=
  ⟨utf16 "alice", utf16 "2024-01-01",
    ⟨utf16 "avatar", utf16 "a.png", sampleUUID ++ utf16 ".png"⟩,
    ⟨utf16 "image", utf16 "b.jpg", otherUUID ++ utf16 ".jpg"⟩, by decide, by decide⟩

/-- A second upload. -/
def bob : ValidPost :=
  ⟨utf16 "bob", utf16 "noon",
    ⟨utf16 "avatar", utf16 "me.gif", otherUUID ++ utf16 ".gif"⟩,
    ⟨utf16 "image", utf16 "cake", sampleUUID⟩, by decide, by decide⟩

/-- A timeline file written by hand, in one line, holding the entry of `bob`. -/
def bobFile : JSString :=
  utf16 ("[\x7b\"username\":\"bob\",\"time\":\"noon\"," ++
    "\"avatar\":\"assets/imgs/9b2c1f0e-7d6a-4c3b-8a19-0f1e2d3c4b5a.gif\"," ++
    "\"image\":\"assets/imgs/123e4567-e89b-42d3-a456-426614174000\"\x7d]")

/-- A request without the `time` field, carrying both files. -/
def noTime : Request :=
  ⟨some ⟨some (.text (utf16 "alice")), none⟩, some ⟨some [alice.avatar], some [alice.image]⟩⟩

/-- A request whose text parts are `username[]` with an empty value and `time[a]` with an empty
value: multer hands the handler the array of the empty string and the object whose `a` is the
empty string. Both files are there. -/
def emptyNames : Request :=
  ⟨some ⟨some (.array [some (.text [])]), some (.object [(utf16 "a", .text [])])⟩,
    some ⟨some [alice.avatar], some [alice.image]⟩⟩

set_option maxRecDepth 100000

/-! ## Reading back what `JSON.stringify` wrote -/

theorem skipWs_cons_of_not_ws (c : Nat) (s : JSString) (h : isWs c = false) :
    skipWs (c :: s) = c :: s := by
  simp [skipWs, h]

theorem skipWs_spaces_append (ind s : JSString) (h : ∀ c ∈ ind, c = 32) :
    skipWs (ind ++ s) = skipWs s := by
  induction ind with
  | nil => rfl
  | cons c t ih =>
    have hc : c = 32 := h c (List.mem_cons_self c t)
    subst hc
    simp only [List.cons_append, skipWs]
    simp [isWs, ih (fun c hc => h c (List.mem_cons_of_mem _ hc))]

theorem hexVal_hexDigit (d : Nat) (h : d < 16) : hexVal (hexDigit d) = some d := by
  unfold hexVal hexDigit
  split
  · have : 48 ≤ 48 + d ∧ 48 + d ≤ 57 := by omega
    simp [this]
  · have h1 : ¬ (48 ≤ 87 + d ∧ 87 + d ≤ 57) := by omega
    have h2 : 97 ≤ 87 + d ∧ 87 + d ≤ 102 := by omega
    simp [h1, h2]

theorem scanChars_hex4 (c : Nat) (hc : c < 65536) (s str r : JSString)
    (h : scanChars .plain s = some (str, r)) :
    scanChars .plain (92 :: 117 :: (hex4 c ++ s)) = some (c :: str, r) := by
  have e : (((0 * 16 + c / 4096 % 16) * 16 + c / 256 % 16) * 16 + c / 16 % 16) * 16 + c % 16 = c := by
    omega
  simp only [hex4, List.cons_append, List.nil_append, scanChars,
    hexVal_hexDigit _ (Nat.mod_lt _ (by decide : 16 > 0)), e]
  simp [h]

theorem scanChars_literal (c : Nat) (s str r : JSString) (h1 : c ≠ 34) (h2 : c ≠ 92)
    (h3 : ¬ c < 32) (h : scanChars .plain s = some (str, r)) :
    scanChars .plain (c :: s) = some (c :: str, r) := by
  simp [scanChars, h1, h2, h3, h]

theorem scanChars_escapeUnit (c : Nat) (s str r : JSString)
    (h : scanChars .plain s = some (str, r)) :
    scanChars .plain (escapeUnit c ++ s) = some (c :: str, r) := by
  unfold escapeUnit
  split_ifs with h8 h9 h10 h12 h13 h34 h92 hu
  · subst h8; simp [scanChars, unescape, h]
  · subst h9; simp [scanChars, unescape, h]
  · subst h10; simp [scanChars, unescape, h]
  · subst h12; simp [scanChars, unescape, h]
  · subst h13; simp [scanChars, unescape, h]
  · subst h34; simp [scanChars, unescape, h]
  · subst h92; simp [scanChars, unescape, h]
  · have hc : c < 65536 := by
      simp only [isLeadingSurrogate, isTrailingSurrogate, Bool.and_eq_true, decide_eq_true_eq]
        at hu
      omega
    exact scanChars_hex4 c hc s str r h
  · have h32 : ¬ c < 32 := fun hlt => hu (Or.inl hlt)
    exact scanChars_literal c s str r h34 h92 h32 h

theorem scanChars_quoteBody (s : JSString) :
    ∀ (paired : Bool) (rest : JSString), (paired = true → startsWithTrailing s = true) →
      scanChars .plain (quoteBody paired s ++ 34 :: rest) = some (s, rest) := by
  induction s with
  | nil =>
    intro paired rest _
    simp [quoteBody, scanChars]
  | cons c t ih =>
    intro paired rest hp
    unfold quoteBody
    split_ifs with h1 h2
    · have hc := hp h1
      simp only [startsWithTrailing, isTrailingSurrogate, Bool.and_eq_true, decide_eq_true_eq]
        at hc
      exact scanChars_literal c _ t rest (by omega) (by omega) (by omega)
        (ih false rest (by simp))
    · simp only [Bool.and_eq_true] at h2
      have hc := h2.1
      simp only [isLeadingSurrogate, Bool.and_eq_true, decide_eq_true_eq] at hc
      exact scanChars_literal c _ t rest (by omega) (by omega) (by omega)
        (ih true rest (fun _ => h2.2))
    · rw [List.append_assoc]
      exact scanChars_escapeUnit c _ t rest (ih false rest (by simp))

/-- Reading back a quoted string: `parseChars` undoes `QuoteJSONString`. -/
theorem parseChars_quote (s rest : JSString) :
    parseChars (quoteBody false s ++ 34 :: rest) = some (s, rest) :=
  scanChars_quoteBody s false rest (by simp)

/-- The text of a canonical value starts with a character that is neither white space nor a
closing bracket. -/
theorem serialize_head (nts : JSString → JSString) (ind : JSString) (v : JSON)
    (hv : v.canonical = true) :
    ∃ d t, serialize nts ind v = d :: t ∧ isWs d = false ∧ d ≠ 93 ∧ d ≠ 125 := by
  cases v with
  | null => exact ⟨110, _, by simp only [serialize, List.cons_append, List.append_assoc, List.nil_append]; rfl, by decide, by decide, by decide⟩
  | bool b =>
    cases b
    · exact ⟨102, _, by simp only [serialize, List.cons_append, List.append_assoc, List.nil_append]; rfl, by decide, by decide, by decide⟩
    · exact ⟨116, _, by simp only [serialize, List.cons_append, List.append_assoc, List.nil_append]; rfl, by decide, by decide, by decide⟩
  | num tok => simp [JSON.canonical] at hv
  | str s => exact ⟨34, _, by simp only [serialize, quote]; rfl, by decide, by decide, by decide⟩
  | arr xs =>
    cases xs with
    | nil => exact ⟨91, _, by simp only [serialize, List.cons_append, List.append_assoc, List.nil_append]; rfl, by decide, by decide, by decide⟩
    | cons x xs => exact ⟨91, _, by simp only [serialize, List.cons_append, List.append_assoc, List.nil_append]; rfl, by decide, by decide, by decide⟩
  | obj kvs =>
    cases kvs with
    | nil => exact ⟨123, _, by simp only [serialize, List.cons_append, List.append_assoc, List.nil_append]; rfl, by decide, by decide, by decide⟩
    | cons kv kvs =>
      obtain ⟨k, v⟩ := kv
      exact ⟨123, _, by simp only [serialize, List.cons_append, List.append_assoc, List.nil_append]; rfl, by decide, by decide, by decide⟩

theorem skipWs_serialize (nts : JSString → JSString) (ind : JSString) (v : JSON)
    (hv : v.canonical = true) (r : JSString) :
    skipWs (serialize nts ind v ++ r) = serialize nts ind v ++ r := by
  obtain ⟨d, t, e, hd, _, _⟩ := serialize_head nts ind v hv
  rw [e]
  simp [skipWs, hd]

theorem parseElements_serialize (nts : JSString → JSString)
    (pv : JSString → Option (JSON × JSString)) (ind ind0 rest : JSString)
    (h0 : ∀ c ∈ ind0, c = 32) (hi : ∀ c ∈ ind, c = 32) (xs : List JSON) :
    ∀ (x : JSON) (g : Nat), xs.length < g → (∀ y ∈ x :: xs, ReadsBack nts pv ind y) →
      parseElements pv g
        (serialize nts ind x ++ (serializeElements nts ind xs ++ 10 :: (ind0 ++ 93 :: rest)))
        = some (x :: xs, rest) := by
  induction xs with
  | nil =>
    intro x g hg H
    obtain ⟨g, rfl⟩ : ∃ g1, g = g1 + 1 := ⟨g - 1, by omega⟩
    have hx := H x (List.mem_cons_self _ _)
    simp only [parseElements, hx.2, serializeElements, List.nil_append]
    have : skipWs (10 :: (ind0 ++ 93 :: rest)) = 93 :: rest := by
      simp [skipWs, isWs, skipWs_spaces_append ind0 _ h0]
    simp [this]
  | cons y ys ih =>
    intro x g hg H
    obtain ⟨g, rfl⟩ : ∃ g1, g = g1 + 1 := ⟨g - 1, by omega⟩
    have hx := H x (List.mem_cons_self _ _)
    have hy := H y (List.mem_cons_of_mem _ (List.mem_cons_self _ _))
    have hrec := ih y g (by simpa using hg) (fun z hz => H z (List.mem_cons_of_mem _ hz))
    simp only [parseElements, hx.2, serializeElements, List.append_assoc, List.cons_append,
      List.nil_append]
    have e1 : skipWs (44 :: 10 :: (ind ++ (serialize nts ind y ++
        (serializeElements nts ind ys ++ 10 :: (ind0 ++ 93 :: rest))))) =
        44 :: 10 :: (ind ++ (serialize nts ind y ++
        (serializeElements nts ind ys ++ 10 :: (ind0 ++ 93 :: rest)))) := by
      simp [skipWs, isWs]
    have e2 : skipWs (10 :: (ind ++ (serialize nts ind y ++
        (serializeElements nts ind ys ++ 10 :: (ind0 ++ 93 :: rest))))) =
        serialize nts ind y ++
        (serializeElements nts ind ys ++ 10 :: (ind0 ++ 93 :: rest)) := by
      rw [show ∀ s, skipWs (10 :: s) = skipWs s from fun s => by simp [skipWs, isWs]]
      rw [skipWs_spaces_append ind _ hi, skipWs_serialize nts ind y hy.1]
    simp [e1, e2, hrec]


theorem parseMembers_serialize (nts : JSString → JSString)
    (pv : JSString → Option (JSON × JSString)) (ind ind0 rest : JSString)
    (h0 : ∀ c ∈ ind0, c = 32) (hi : ∀ c ∈ ind, c = 32) (kvs : List (JSString × JSON)) :
    ∀ (k : JSString) (v : JSON) (g : Nat), kvs.length < g →
      (∀ kv ∈ (k, v) :: kvs, ReadsBack nts pv ind kv.2) →
      parseMembers pv g
        (quote k ++ 58 :: 32 :: (serialize nts ind v ++
          (serializeMembers nts ind kvs ++ 10 :: (ind0 ++ 125 :: rest))))
        = some ((k, v) :: kvs, rest) := by
  induction kvs with
  | nil =>
    intro k v g hg H
    obtain ⟨g, rfl⟩ : ∃ g1, g = g1 + 1 := ⟨g - 1, by omega⟩
    have hv := H (k, v) (List.mem_cons_self _ _)
    have e1 : skipWs (32 :: (serialize nts ind v ++ 10 :: (ind0 ++ 125 :: rest))) =
        serialize nts ind v ++ 10 :: (ind0 ++ 125 :: rest) := by
      rw [show ∀ s, skipWs (32 :: s) = skipWs s from fun s => by simp [skipWs, isWs]]
      exact skipWs_serialize nts ind v hv.1 _
    have e2 : skipWs (10 :: (ind0 ++ 125 :: rest)) = 125 :: rest := by
      simp [skipWs, isWs, skipWs_spaces_append ind0 _ h0]
    simp only [parseMembers, quote, List.cons_append, List.append_assoc, List.nil_append,
      parseChars_quote, serializeMembers]
    have e3 := skipWs_serialize nts ind v hv.1
    have e4 : skipWs (ind0 ++ 125 :: rest) = 125 :: rest := by
      rw [skipWs_spaces_append ind0 _ h0]; simp [skipWs, isWs]
    simp [skipWs, isWs, e1, e2, e3, e4, hv.2]
  | cons kv kvs ih =>
    obtain ⟨k1, v1⟩ := kv
    intro k v g hg H
    obtain ⟨g, rfl⟩ : ∃ g1, g = g1 + 1 := ⟨g - 1, by omega⟩
    have hv := H (k, v) (List.mem_cons_self _ _)
    have hrec := ih k1 v1 g (by simpa using hg) (fun z hz => H z (List.mem_cons_of_mem _ hz))
    have e1 : ∀ t, skipWs (32 :: (serialize nts ind v ++ t)) = serialize nts ind v ++ t := by
      intro t
      rw [show ∀ s, skipWs (32 :: s) = skipWs s from fun s => by simp [skipWs, isWs]]
      exact skipWs_serialize nts ind v hv.1 _
    have e2 : ∀ t, skipWs (10 :: (ind ++ 34 :: t)) = 34 :: t := by
      intro t
      rw [show ∀ s, skipWs (10 :: s) = skipWs s from fun s => by simp [skipWs, isWs]]
      rw [skipWs_spaces_append ind _ hi]
      simp [skipWs, isWs]
    simp only [quote, List.cons_append, List.append_assoc, List.nil_append] at hrec
    simp only [parseMembers, quote, List.cons_append, List.append_assoc, List.nil_append,
      parseChars_quote, serializeMembers]
    have e3 := skipWs_serialize nts ind v hv.1
    have e4 : ∀ t, skipWs (ind ++ 34 :: t) = 34 :: t := by
      intro t
      rw [skipWs_spaces_append ind _ hi]; simp [skipWs, isWs]
    simp [skipWs, isWs, e1, e2, e3, e4, hv.2, hrec]

theorem JSON.size_pos (v : JSON) : 0 < v.size := by
  cases v <;> simp [JSON.size]

theorem JSON.length_le_sizeList (xs : List JSON) : xs.length ≤ JSON.sizeList xs := by
  induction xs with
  | nil => simp [JSON.sizeList]
  | cons x xs ih =>
    have := JSON.size_pos x
    simp only [JSON.sizeList, List.length_cons]
    omega

theorem JSON.size_le_sizeList (xs : List JSON) (y : JSON) (h : y ∈ xs) :
    y.size ≤ JSON.sizeList xs := by
  induction xs with
  | nil => cases h
  | cons x xs ih =>
    simp only [JSON.sizeList]
    rcases List.mem_cons.mp h with rfl | h
    · omega
    · have := ih h
      omega

theorem JSON.canonical_of_mem (xs : List JSON) (h : JSON.canonicalList xs = true) (y : JSON)
    (hy : y ∈ xs) : y.canonical = true := by
  induction xs with
  | nil => cases hy
  | cons x xs ih =>
    simp only [JSON.canonicalList, Bool.and_eq_true] at h
    rcases List.mem_cons.mp hy with rfl | hy
    · exact h.1
    · exact ih h.2 hy

theorem JSON.length_le_sizeMembers (kvs : List (JSString × JSON)) :
    kvs.length ≤ JSON.sizeMembers kvs := by
  induction kvs with
  | nil => simp [JSON.sizeMembers]
  | cons kv kvs ih =>
    obtain ⟨k, v⟩ := kv
    have := JSON.size_pos v
    simp only [JSON.sizeMembers, List.length_cons]
    omega

theorem JSON.size_le_sizeMembers (kvs : List (JSString × JSON)) (kv : JSString × JSON)
    (h : kv ∈ kvs) : kv.2.size ≤ JSON.sizeMembers kvs := by
  induction kvs with
  | nil => cases h
  | cons x xs ih =>
    obtain ⟨k, v⟩ := x
    simp only [JSON.sizeMembers]
    rcases List.mem_cons.mp h with rfl | h
    · simp
    · have := ih h
      omega

theorem JSON.canonical_of_mem_members (kvs : List (JSString × JSON))
    (h : JSON.canonicalMembers kvs = true) (kv : JSString × JSON) (hy : kv ∈ kvs) :
    kv.2.canonical = true := by
  induction kvs with
  | nil => cases hy
  | cons x xs ih =>
    obtain ⟨k, v⟩ := x
    simp only [JSON.canonicalMembers, Bool.and_eq_true] at h
    rcases List.mem_cons.mp hy with rfl | hy
    · exact h.1
    · exact ih h.2 hy

theorem spaces_append_gap (ind : JSString) (h : ∀ c ∈ ind, c = 32) :
    ∀ c ∈ ind ++ gap, c = 32 := by
  intro c hc
  rcases List.mem_append.mp hc with h1 | h1
  · exact h c h1
  · simpa [gap] using h1

/-- Reading back a serialised canonical value, whatever follows it. -/
theorem parseValue_serialize (nts : JSString → JSString) :
    ∀ (n : Nat) (v : JSON), v.size ≤ n → v.canonical = true →
      ∀ (fuel : Nat) (ind rest : JSString), v.size < fuel → (∀ c ∈ ind, c = 32) →
        parseValue fuel (serialize nts ind v ++ rest) = some (v, rest) := by
  intro n
  induction n with
  | zero =>
    intro v hn
    have := JSON.size_pos v
    omega
  | succ n ih =>
    intro v hn hv fuel ind rest hf hi
    obtain ⟨f, rfl⟩ : ∃ f, fuel = f + 1 := ⟨fuel - 1, by omega⟩
    cases v with
    | null => simp [serialize, parseValue, expectChars]
    | bool b => cases b <;> simp [serialize, parseValue, expectChars]
    | num tok => simp [JSON.canonical] at hv
    | str s =>
      simp only [serialize, quote, List.cons_append, List.append_assoc, List.nil_append,
        parseValue]
      simp [parseChars_quote]
    | arr xs =>
      cases xs with
      | nil => simp [serialize, parseValue, skipWs, isWs]
      | cons x xs =>
        simp only [JSON.size] at hn hf
        simp only [JSON.canonical] at hv
        have hlen := JSON.length_le_sizeList (x :: xs)
        have hx : x.canonical = true := JSON.canonical_of_mem _ hv x (List.mem_cons_self _ _)
        obtain ⟨d, t, e, hd, hd93, _⟩ := serialize_head nts (ind ++ gap) x hx
        have hel := parseElements_serialize nts (parseValue f) (ind ++ gap) ind rest hi
          (spaces_append_gap ind hi) xs x f (by simp only [List.length_cons] at hlen; omega)
          (fun y hy => ⟨JSON.canonical_of_mem _ hv y hy, fun r =>
            ih y (by have := JSON.size_le_sizeList _ y hy; omega)
              (JSON.canonical_of_mem _ hv y hy) f (ind ++ gap) r
              (by have := JSON.size_le_sizeList _ y hy; omega) (spaces_append_gap ind hi)⟩)
        have hs : ∀ tail, skipWs (10 :: (ind ++ (gap ++ (serialize nts (ind ++ gap) x ++ tail))))
            = d :: (t ++ tail) := by
          intro tail
          rw [show ∀ s, skipWs (10 :: s) = skipWs s from fun s => by simp [skipWs, isWs]]
          rw [← List.append_assoc, skipWs_spaces_append _ _ (spaces_append_gap ind hi),
            skipWs_serialize nts _ x hx, e]
          rfl
        rw [e] at hel
        simp only [serialize, List.cons_append, List.append_assoc, List.nil_append, parseValue]
        simp only [List.cons_append] at hel
        simp [hs, hd93, hel]
    | obj kvs =>
      cases kvs with
      | nil => simp [serialize, parseValue, skipWs, isWs]
      | cons kv kvs =>
        obtain ⟨k, v⟩ := kv
        simp only [JSON.size] at hn hf
        simp only [JSON.canonical, Bool.and_eq_true, decide_eq_true_eq] at hv
        have hlen := JSON.length_le_sizeMembers ((k, v) :: kvs)
        have hel := parseMembers_serialize nts (parseValue f) (ind ++ gap) ind rest hi
          (spaces_append_gap ind hi) kvs k v f (by simp only [List.length_cons] at hlen; omega)
          (fun y hy => ⟨JSON.canonical_of_mem_members _ hv.1 y hy, fun r =>
            ih y.2 (by have := JSON.size_le_sizeMembers _ y hy; omega)
              (JSON.canonical_of_mem_members _ hv.1 y hy) f (ind ++ gap) r
              (by have := JSON.size_le_sizeMembers _ y hy; omega) (spaces_append_gap ind hi)⟩)
        have hs : ∀ tail, skipWs (10 :: (ind ++ (gap ++ 34 :: tail))) = 34 :: tail := by
          intro tail
          rw [show ∀ s, skipWs (10 :: s) = skipWs s from fun s => by simp [skipWs, isWs]]
          rw [← List.append_assoc, skipWs_spaces_append _ _ (spaces_append_gap ind hi)]
          simp [skipWs, isWs]
        simp only [quote, List.cons_append, List.append_assoc, List.nil_append] at hel
        simp only [serialize, quote, List.cons_append, List.append_assoc, List.nil_append,
          parseValue]
        simp [hs, hel, hv.2]


theorem sizeList_le_length (nts : JSString → JSString) (ind : JSString) (xs : List JSON)
    (h : ∀ y ∈ xs, y.size ≤ (serialize nts ind y).length) :
    JSON.sizeList xs ≤ (serializeElements nts ind xs).length := by
  induction xs with
  | nil => simp [JSON.sizeList]
  | cons x xs ih =>
    have h1 := h x (List.mem_cons_self _ _)
    have h2 := ih (fun y hy => h y (List.mem_cons_of_mem _ hy))
    simp only [JSON.sizeList, serializeElements, List.length_append, List.length_cons,
      List.length_nil]
    omega

theorem sizeMembers_le_length (nts : JSString → JSString) (ind : JSString)
    (kvs : List (JSString × JSON))
    (h : ∀ kv ∈ kvs, kv.2.size ≤ (serialize nts ind kv.2).length) :
    JSON.sizeMembers kvs ≤ (serializeMembers nts ind kvs).length := by
  induction kvs with
  | nil => simp [JSON.sizeMembers]
  | cons kv kvs ih =>
    obtain ⟨k, v⟩ := kv
    have h1 := h (k, v) (List.mem_cons_self _ _)
    have h2 := ih (fun y hy => h y (List.mem_cons_of_mem _ hy))
    simp only [JSON.sizeMembers, serializeMembers, List.length_append, List.length_cons,
      List.length_nil]
    simp only at h1
    omega

/-- The text of a canonical value has at least as many characters as the value has nodes. -/
theorem size_le_length (nts : JSString → JSString) :
    ∀ (n : Nat) (v : JSON), v.size ≤ n → v.canonical = true →
      ∀ ind : JSString, v.size ≤ (serialize nts ind v).length := by
  intro n
  induction n with
  | zero =>
    intro v hn
    have := JSON.size_pos v
    omega
  | succ n ih =>
    intro v hn hv ind
    cases v with
    | null => simp [serialize, JSON.size]
    | bool b => cases b <;> simp [serialize, JSON.size]
    | num tok => simp [JSON.canonical] at hv
    | str s => simp [serialize, JSON.size, quote]
    | arr xs =>
      cases xs with
      | nil => simp [serialize, JSON.size, JSON.sizeList]
      | cons x xs =>
        simp only [JSON.size] at hn
        simp only [JSON.canonical] at hv
        have hall : ∀ y ∈ x :: xs, y.size ≤ (serialize nts (ind ++ gap) y).length :=
          fun y hy => ih y (by have := JSON.size_le_sizeList _ y hy; omega)
            (JSON.canonical_of_mem _ hv y hy) _
        have h1 := hall x (List.mem_cons_self _ _)
        have h2 := sizeList_le_length nts (ind ++ gap) xs
          (fun y hy => hall y (List.mem_cons_of_mem _ hy))
        simp only [JSON.size, JSON.sizeList, serialize, List.length_append, List.length_cons,
          List.length_nil]
        omega
    | obj kvs =>
      cases kvs with
      | nil => simp [serialize, JSON.size, JSON.sizeMembers]
      | cons kv kvs =>
        obtain ⟨k, v⟩ := kv
        simp only [JSON.size] at hn
        simp only [JSON.canonical, Bool.and_eq_true, decide_eq_true_eq] at hv
        have hall : ∀ y ∈ (k, v) :: kvs, y.2.size ≤ (serialize nts (ind ++ gap) y.2).length :=
          fun y hy => ih y.2 (by have := JSON.size_le_sizeMembers _ y hy; omega)
            (JSON.canonical_of_mem_members _ hv.1 y hy) _
        have h1 := hall (k, v) (List.mem_cons_self _ _)
        have h2 := sizeMembers_le_length nts (ind ++ gap) kvs
          (fun y hy => hall y (List.mem_cons_of_mem _ hy))
        simp only [JSON.size, JSON.sizeMembers, serialize, List.length_append, List.length_cons,
          List.length_nil]
        simp only at h1
        omega

/-- On canonical values `JSON.parse` undoes `JSON.stringify(·, null, 2)`. -/
theorem parse_stringify (nts : JSString → JSString) (v : JSON) (hv : v.canonical = true) :
    JSON.parse (JSON.stringify nts v) = some v := by
  have hlen := size_le_length nts v.size v (Nat.le_refl _) hv []
  have hp := parseValue_serialize nts v.size v (Nat.le_refl _) hv
    ((JSON.stringify nts v).length + 1) [] [] (by unfold JSON.stringify; omega) (by simp)
  have hs := skipWs_serialize nts [] v hv []
  simp only [List.append_nil] at hp hs
  unfold JSON.parse
  unfold JSON.stringify at hp ⊢
  rw [hs, hp]
  simp [skipWs]

/-- What `JSON.parse` does on some texts: white space, escapes, a repeated key and an array-index
key in an object, a trailing comma, a leading zero, a control character in a string, text after
the value. -/
theorem parse_examples :
    JSON.parse (utf16 " [true, null, \"a\\u0041\\n\", -1.5e3,\n []] ") =
        some (.arr [.bool true, .null, .str (utf16 "aA\n"), .num (utf16 "-1.5e3"), .arr []]) ∧
      JSON.parse (utf16 "\x7b\"b\": 1, \"7\": 2, \"b\": 3\x7d") =
        some (.obj [(utf16 "7", .num (utf16 "2")), (utf16 "b", .num (utf16 "3"))]) ∧
      JSON.parse (utf16 "[1,]") = none ∧
      JSON.parse (utf16 "01") = none ∧
      JSON.parse (utf16 "\"a\tb\"") = none ∧
      JSON.parse (utf16 "[] []") = none ∧
      JSON.parse (utf16 "") = none := by
  decide

/-! ## Writing the text as UTF-8 -/

theorem wellFormedFrom_plain (x y : JSString)
    (hx : ∀ c ∈ x, isLeadingSurrogate c = false ∧ isTrailingSurrogate c = false) :
    wellFormedFrom false (x ++ y) = x ++ wellFormedFrom false y := by
  induction x with
  | nil => rfl
  | cons c t ih =>
    obtain ⟨h1, h2⟩ := hx c (List.mem_cons_self _ _)
    rw [List.cons_append]
    simp only [wellFormedFrom, h1, h2, Bool.false_and, Bool.or_self,
      Bool.false_eq_true, if_false]
    rw [ih (fun c hc => hx c (List.mem_cons_of_mem _ hc))]
    rfl

theorem hexDigit_plain (d : Nat) (h : d < 16) :
    isLeadingSurrogate (hexDigit d) = false ∧ isTrailingSurrogate (hexDigit d) = false := by
  unfold hexDigit isLeadingSurrogate isTrailingSurrogate
  split_ifs <;> simp <;> omega

theorem escapeUnit_plain (c : Nat) :
    ∀ x ∈ escapeUnit c, isLeadingSurrogate x = false ∧ isTrailingSurrogate x = false := by
  intro x hx
  unfold escapeUnit at hx
  have h16 : ∀ n, n % 16 < 16 := fun n => Nat.mod_lt _ (by decide)
  split_ifs at hx with h8 h9 h10 h12 h13 h34 h92 hu
  all_goals
    try (simp only [List.mem_cons, List.mem_singleton, List.not_mem_nil, or_false] at hx
         rcases hx with rfl | rfl <;> decide)
  · simp only [hex4, List.mem_cons, List.mem_singleton, List.not_mem_nil, or_false] at hx
    rcases hx with rfl | rfl | rfl | rfl | rfl | rfl
    · decide
    · decide
    · exact hexDigit_plain _ (h16 _)
    · exact hexDigit_plain _ (h16 _)
    · exact hexDigit_plain _ (h16 _)
    · exact hexDigit_plain _ (h16 _)
  · simp only [List.mem_singleton] at hx
    subst hx
    simp only [not_or, Bool.not_eq_true] at hu
    exact ⟨hu.2.1, hu.2.2⟩

theorem startsWithTrailing_append (s y : JSString) (h : startsWithTrailing s = true) :
    startsWithTrailing (s ++ y) = true := by
  cases s with
  | nil => simp [startsWithTrailing] at h
  | cons c t => exact h

theorem startsWithTrailing_quoteBody (s : JSString) (h : startsWithTrailing s = true) :
    startsWithTrailing (quoteBody true s) = true := by
  cases s with
  | nil => simp [startsWithTrailing] at h
  | cons c t => simpa [quoteBody, startsWithTrailing] using h

theorem wellFormedFrom_quoteBody (s : JSString) :
    ∀ (paired : Bool) (y : JSString), (paired = true → startsWithTrailing s = true) →
      wellFormedFrom paired (quoteBody paired s ++ y) =
        quoteBody paired s ++ wellFormedFrom false y := by
  induction s with
  | nil =>
    intro paired y hp
    cases paired with
    | false => rfl
    | true => simp [startsWithTrailing] at hp
  | cons c t ih =>
    intro paired y hp
    cases paired with
    | true =>
      simp only [quoteBody, if_true]
      rw [List.cons_append]
      simp only [wellFormedFrom, if_true]
      rw [ih false y (by simp)]
      rfl
    | false =>
      simp only [quoteBody, Bool.false_eq_true, if_false]
      split_ifs with h2
      · simp only [Bool.and_eq_true] at h2
        have hst := startsWithTrailing_append _ y (startsWithTrailing_quoteBody t h2.2)
        rw [List.cons_append]
        simp only [wellFormedFrom, Bool.false_eq_true, if_false, h2.1, hst,
          Bool.and_self, if_true]
        rw [ih true y (fun _ => h2.2)]
        rfl
      · rw [List.append_assoc, wellFormedFrom_plain _ _ (escapeUnit_plain c),
          ih false y (by simp), List.append_assoc]

theorem wellFormedFrom_quote (s y : JSString) :
    wellFormedFrom false (quote s ++ y) = quote s ++ wellFormedFrom false y := by
  have h34 : ∀ z, wellFormedFrom false (34 :: z) = 34 :: wellFormedFrom false z := by
    intro z
    simp [wellFormedFrom, isLeadingSurrogate, isTrailingSurrogate]
  simp only [quote, List.cons_append, List.append_assoc, List.nil_append]
  rw [h34, wellFormedFrom_quoteBody s false _ (by simp), h34]

theorem spaces_plain (ind : JSString) (h : ∀ c ∈ ind, c = 32) :
    ∀ c ∈ ind, isLeadingSurrogate c = false ∧ isTrailingSurrogate c = false := by
  intro c hc
  rw [h c hc]
  decide

theorem wellFormedFrom_elements (nts : JSString → JSString) (ind : JSString)
    (hi : ∀ c ∈ ind, c = 32) (xs : List JSON)
    (h : ∀ x ∈ xs, ∀ y, wellFormedFrom false (serialize nts ind x ++ y) =
      serialize nts ind x ++ wellFormedFrom false y) (y : JSString) :
    wellFormedFrom false (serializeElements nts ind xs ++ y) =
      serializeElements nts ind xs ++ wellFormedFrom false y := by
  induction xs with
  | nil => rfl
  | cons x xs ih =>
    simp only [serializeElements, List.append_assoc]
    rw [wellFormedFrom_plain [44, 10] _ (by decide), wellFormedFrom_plain ind _ (spaces_plain ind hi),
      h x (List.mem_cons_self _ _), ih (fun z hz => h z (List.mem_cons_of_mem _ hz))]

theorem wellFormedFrom_members (nts : JSString → JSString) (ind : JSString)
    (hi : ∀ c ∈ ind, c = 32) (kvs : List (JSString × JSON))
    (h : ∀ kv ∈ kvs, ∀ y, wellFormedFrom false (serialize nts ind kv.2 ++ y) =
      serialize nts ind kv.2 ++ wellFormedFrom false y) (y : JSString) :
    wellFormedFrom false (serializeMembers nts ind kvs ++ y) =
      serializeMembers nts ind kvs ++ wellFormedFrom false y := by
  induction kvs with
  | nil => rfl
  | cons kv kvs ih =>
    obtain ⟨k, v⟩ := kv
    simp only [serializeMembers, List.append_assoc]
    rw [wellFormedFrom_plain [44, 10] _ (by decide), wellFormedFrom_plain ind _ (spaces_plain ind hi),
      wellFormedFrom_quote, wellFormedFrom_plain [58, 32] _ (by decide),
      h (k, v) (List.mem_cons_self _ _), ih (fun z hz => h z (List.mem_cons_of_mem _ hz))]

/-- The text of a canonical value holds no lone surrogate. -/
theorem wellFormedFrom_serialize (nts : JSString → JSString) :
    ∀ (n : Nat) (v : JSON), v.size ≤ n → v.canonical = true →
      ∀ (ind y : JSString), (∀ c ∈ ind, c = 32) →
        wellFormedFrom false (serialize nts ind v ++ y) =
          serialize nts ind v ++ wellFormedFrom false y := by
  intro n
  induction n with
  | zero =>
    intro v hn
    have := JSON.size_pos v
    omega
  | succ n ih =>
    intro v hn hv ind y hi
    cases v with
    | null => exact wellFormedFrom_plain [110, 117, 108, 108] _ (by decide)
    | bool b =>
      cases b
      · exact wellFormedFrom_plain [102, 97, 108, 115, 101] _ (by decide)
      · exact wellFormedFrom_plain [116, 114, 117, 101] _ (by decide)
    | num tok => simp [JSON.canonical] at hv
    | str s => exact wellFormedFrom_quote s y
    | arr xs =>
      cases xs with
      | nil => exact wellFormedFrom_plain [91, 93] _ (by decide)
      | cons x xs =>
        simp only [JSON.size] at hn
        simp only [JSON.canonical] at hv
        have hall : ∀ z ∈ x :: xs, ∀ y, wellFormedFrom false
            (serialize nts (ind ++ gap) z ++ y) =
            serialize nts (ind ++ gap) z ++ wellFormedFrom false y :=
          fun z hz y => ih z (by have := JSON.size_le_sizeList _ z hz; omega)
            (JSON.canonical_of_mem _ hv z hz) _ y (spaces_append_gap ind hi)
        simp only [serialize, List.append_assoc]
        rw [wellFormedFrom_plain [91, 10] _ (by decide),
          wellFormedFrom_plain ind _ (spaces_plain ind hi),
          wellFormedFrom_plain gap _ (by decide), hall x (List.mem_cons_self _ _),
          wellFormedFrom_elements nts _ (spaces_append_gap ind hi) xs
            (fun z hz => hall z (List.mem_cons_of_mem _ hz)),
          wellFormedFrom_plain [10] _ (by decide),
          wellFormedFrom_plain ind _ (spaces_plain ind hi),
          wellFormedFrom_plain [93] _ (by decide)]
    | obj kvs =>
      cases kvs with
      | nil => exact wellFormedFrom_plain [123, 125] _ (by decide)
      | cons kv kvs =>
        obtain ⟨k, v⟩ := kv
        simp only [JSON.size] at hn
        simp only [JSON.canonical, Bool.and_eq_true, decide_eq_true_eq] at hv
        have hall : ∀ z ∈ (k, v) :: kvs, ∀ y, wellFormedFrom false
            (serialize nts (ind ++ gap) z.2 ++ y) =
            serialize nts (ind ++ gap) z.2 ++ wellFormedFrom false y :=
          fun z hz y => ih z.2 (by have := JSON.size_le_sizeMembers _ z hz; omega)
            (JSON.canonical_of_mem_members _ hv.1 z hz) _ y (spaces_append_gap ind hi)
        simp only [serialize, List.append_assoc]
        rw [wellFormedFrom_plain [123, 10] _ (by decide),
          wellFormedFrom_plain ind _ (spaces_plain ind hi),
          wellFormedFrom_plain gap _ (by decide), wellFormedFrom_quote,
          wellFormedFrom_plain [58, 32] _ (by decide), hall (k, v) (List.mem_cons_self _ _),
          wellFormedFrom_members nts _ (spaces_append_gap ind hi) kvs
            (fun z hz => hall z (List.mem_cons_of_mem _ hz)),
          wellFormedFrom_plain [10] _ (by decide),
          wellFormedFrom_plain ind _ (spaces_plain ind hi),
          wellFormedFrom_plain [125] _ (by decide)]

/-- Writing the text of a canonical value to the file as UTF-8 and reading it back gives the
same text. -/
theorem toWellFormed_stringify (nts : JSString → JSString) (v : JSON)
    (hv : v.canonical = true) :
    toWellFormed (JSON.stringify nts v) = JSON.stringify nts v := by
  have := wellFormedFrom_serialize nts v.size v (le_refl _) hv [] [] (by simp)
  simpa [toWellFormed, JSON.stringify, wellFormedFrom] using this

/-! ## The fuel of the parser -/

theorem skipWs_length (s : JSString) : (skipWs s).length ≤ s.length := by
  induction s with
  | nil => simp [skipWs]
  | cons c s ih =>
    simp only [skipWs]
    split_ifs
    · simp only [List.length_cons]; omega
    · exact le_refl _

theorem scanChars_length (s : JSString) :
    ∀ (st : StringState) (str r : JSString), scanChars st s = some (str, r) →
      r.length < s.length := by
  induction s with
  | nil => intro st str r h; cases st <;> simp [scanChars] at h
  | cons c s ih =>
    intro st str r h
    cases st with
    | plain =>
      simp only [scanChars] at h
      split_ifs at h with h1 h2 h3
      · simp only [Option.some.injEq, Prod.mk.injEq] at h
        rw [← h.2]; simp
      · have := ih _ _ _ h
        simp only [List.length_cons]; omega
      · cases hs : scanChars .plain s with
        | none => simp [hs] at h
        | some p =>
          obtain ⟨str1, r1⟩ := p
          simp only [hs, Option.some.injEq, Prod.mk.injEq] at h
          have := ih _ _ _ hs
          rw [← h.2]
          simp only [List.length_cons]; omega
    | backslash =>
      simp only [scanChars] at h
      split_ifs at h with h1
      · have := ih _ _ _ h
        simp only [List.length_cons]; omega
      · cases hu : unescape c with
        | none => simp [hu] at h
        | some u =>
          cases hs : scanChars .plain s with
          | none => simp [hu, hs] at h
          | some p =>
            obtain ⟨str1, r1⟩ := p
            simp only [hu, hs, Option.some.injEq, Prod.mk.injEq] at h
            have := ih _ _ _ hs
            rw [← h.2]
            simp only [List.length_cons]; omega
    | hex count value =>
      simp only [scanChars] at h
      cases hh : hexVal c with
      | none => simp [hh] at h
      | some d =>
        simp only [hh] at h
        split_ifs at h with h1
        · cases hs : scanChars .plain s with
          | none => simp [hs] at h
          | some p =>
            obtain ⟨str1, r1⟩ := p
            simp only [hs, Option.some.injEq, Prod.mk.injEq] at h
            have := ih _ _ _ hs
            rw [← h.2]
            simp only [List.length_cons]; omega
        · have := ih _ _ _ h
          simp only [List.length_cons]; omega

theorem expectChars_length (p : JSString) :
    ∀ (s r : JSString), expectChars p s = some r → r.length ≤ s.length := by
  induction p with
  | nil => intro s r h; simp only [expectChars, Option.some.injEq] at h; rw [h]
  | cons a p ih =>
    intro s r h
    cases s with
    | nil => simp [expectChars] at h
    | cons c s =>
      simp only [expectChars] at h
      split_ifs at h
      have := ih s r h
      simp only [List.length_cons]; omega

theorem spanDigits_length (s : JSString) : (spanDigits s).2.length ≤ s.length := by
  induction s with
  | nil => simp [spanDigits]
  | cons c s ih =>
    simp only [spanDigits]
    split_ifs
    · simp only [List.length_cons]; omega
    · exact le_refl _

theorem parseInt_length (s t r : JSString) (h : parseInt s = some (t, r)) :
    r.length < s.length := by
  cases s with
  | nil => simp [parseInt] at h
  | cons c s =>
    simp only [parseInt] at h
    split_ifs at h
    · simp only [Option.some.injEq, Prod.mk.injEq] at h
      rw [← h.2]; simp
    · simp only [Option.some.injEq, Prod.mk.injEq] at h
      rw [← h.2]
      have := spanDigits_length s
      simp only [List.length_cons]; omega

theorem parseFrac_length (s t r : JSString) (h : parseFrac s = some (t, r)) :
    r.length ≤ s.length := by
  unfold parseFrac at h
  split at h
  · rename_i s1
    have := spanDigits_length s1
    split at h
    · cases h
    · rename_i ds r1 _ hsp
      simp only [Option.some.injEq, Prod.mk.injEq] at h
      rw [← h.2]
      rw [hsp] at this
      simp only [List.length_cons]
      simp only at this
      omega
  · simp only [Option.some.injEq, Prod.mk.injEq] at h
    rw [← h.2]

theorem parseExp_length (s t r : JSString) (h : parseExp s = some (t, r)) :
    r.length ≤ s.length := by
  cases s with
  | nil => simp only [parseExp, Option.some.injEq, Prod.mk.injEq] at h; rw [← h.2]
  | cons c s =>
    simp only [parseExp] at h
    split_ifs at h with h1
    · cases s with
      | nil => simp at h
      | cons g s1 =>
        simp only at h
        split_ifs at h with h2
        · have := spanDigits_length s1
          split at h
          · cases h
          · rename_i ds r1 _ hsp
            simp only [Option.some.injEq, Prod.mk.injEq] at h
            rw [← h.2]
            rw [hsp] at this
            simp only [List.length_cons]
            simp only at this
            omega
        · have := spanDigits_length (g :: s1)
          split at h
          · cases h
          · rename_i ds r1 _ hsp
            simp only [Option.some.injEq, Prod.mk.injEq] at h
            rw [← h.2]
            rw [hsp] at this
            simp only [List.length_cons] at this ⊢
            omega
    · simp only [Option.some.injEq, Prod.mk.injEq] at h
      rw [← h.2]

theorem parseUnsigned_length (s t r : JSString) (h : parseUnsigned s = some (t, r)) :
    r.length < s.length := by
  unfold parseUnsigned at h
  cases hi : parseInt s with
  | none => simp [hi] at h
  | some p =>
    obtain ⟨i, r0⟩ := p
    simp only [hi] at h
    cases hf : parseFrac r0 with
    | none => simp [hf] at h
    | some p1 =>
      obtain ⟨f, r1⟩ := p1
      simp only [hf] at h
      cases he : parseExp r1 with
      | none => simp [he] at h
      | some p2 =>
        obtain ⟨e, r2⟩ := p2
        simp only [he, Option.some.injEq, Prod.mk.injEq] at h
        have h1 := parseInt_length _ _ _ hi
        have h2 := parseFrac_length _ _ _ hf
        have h3 := parseExp_length _ _ _ he
        rw [← h.2]
        omega

theorem parseNumber_length (s t r : JSString) (h : parseNumber s = some (t, r)) :
    r.length < s.length := by
  unfold parseNumber at h
  split at h
  · rename_i s1
    cases hu : parseUnsigned s1 with
    | none => simp [hu] at h
    | some p =>
      obtain ⟨t1, r1⟩ := p
      simp only [hu, Option.some.injEq, Prod.mk.injEq] at h
      have := parseUnsigned_length _ _ _ hu
      rw [← h.2]
      simp only [List.length_cons]; omega
  · exact parseUnsigned_length _ _ _ h

theorem parseElements_length (pv : JSString → Option (JSON × JSString))
    (hpv : ∀ s v r, pv s = some (v, r) → r.length < s.length) :
    ∀ (e : Nat) (s : JSString) (vs : List JSON) (r : JSString),
      parseElements pv e s = some (vs, r) → r.length < s.length := by
  intro e
  induction e with
  | zero => intro s vs r h; simp [parseElements] at h
  | succ e ih =>
    intro s vs r h
    simp only [parseElements] at h
    cases hp : pv s with
    | none => simp [hp] at h
    | some p =>
      obtain ⟨v, r0⟩ := p
      have h0 := hpv _ _ _ hp
      have hw := skipWs_length r0
      simp only [hp] at h
      cases hs : skipWs r0 with
      | nil => simp [hs] at h
      | cons c r1 =>
        rw [hs] at hw
        simp only [hs] at h
        split_ifs at h with h1 h2
        · cases hr : parseElements pv e (skipWs r1) with
          | none => simp [hr] at h
          | some q =>
            obtain ⟨vs1, r2⟩ := q
            simp only [hr, Option.some.injEq, Prod.mk.injEq] at h
            have := ih _ _ _ hr
            have := skipWs_length r1
            simp only [List.length_cons] at hw
            rw [← h.2]; omega
        · simp only [Option.some.injEq, Prod.mk.injEq] at h
          simp only [List.length_cons] at hw
          rw [← h.2]; omega

theorem parseMembers_length (pv : JSString → Option (JSON × JSString))
    (hpv : ∀ s v r, pv s = some (v, r) → r.length < s.length) :
    ∀ (e : Nat) (s : JSString) (kvs : List (JSString × JSON)) (r : JSString),
      parseMembers pv e s = some (kvs, r) → r.length < s.length := by
  intro e
  induction e with
  | zero => intro s vs r h; simp [parseMembers] at h
  | succ e ih =>
    intro s kvs r h
    simp only [parseMembers] at h
    cases s with
    | nil => simp at h
    | cons q s1 =>
      simp only at h
      split_ifs at h with hq
      cases hk : parseChars s1 with
      | none => simp [hk] at h
      | some p =>
        obtain ⟨k, r0⟩ := p
        have h0 := scanChars_length _ _ _ _ hk
        have hw0 := skipWs_length r0
        simp only [hk] at h
        cases hs : skipWs r0 with
        | nil => simp [hs] at h
        | cons c r1 =>
          rw [hs] at hw0
          simp only [hs] at h
          split_ifs at h with hc
          cases hp : pv (skipWs r1) with
          | none => simp [hp] at h
          | some p =>
            obtain ⟨v, r2⟩ := p
            have h2 := hpv _ _ _ hp
            have hw1 := skipWs_length r1
            have hw2 := skipWs_length r2
            simp only [hp] at h
            cases hs2 : skipWs r2 with
            | nil => simp [hs2] at h
            | cons d r3 =>
              rw [hs2] at hw2
              simp only [hs2] at h
              simp only [List.length_cons] at hw0 hw2 ⊢
              split_ifs at h with h1 h2
              · cases hr : parseMembers pv e (skipWs r3) with
                | none => simp [hr] at h
                | some q =>
                  obtain ⟨kvs1, r4⟩ := q
                  simp only [hr, Option.some.injEq, Prod.mk.injEq] at h
                  have := ih _ _ _ hr
                  have := skipWs_length r3
                  rw [← h.2]; omega
              · simp only [Option.some.injEq, Prod.mk.injEq] at h
                rw [← h.2]; omega

/-- A parsed value takes at least one character of the input. -/
theorem parseValue_length :
    ∀ (f : Nat) (s : JSString) (v : JSON) (r : JSString),
      parseValue f s = some (v, r) → r.length < s.length := by
  intro f
  induction f with
  | zero => intro s v r h; simp [parseValue] at h
  | succ f ih =>
    intro s v r h
    simp only [parseValue] at h
    cases s with
    | nil => simp at h
    | cons c s1 =>
      simp only at h
      simp only [List.length_cons]
      split_ifs at h with h1 h2 h3 h4 h5 h6
      · cases hk : parseChars s1 with
        | none => simp [hk] at h
        | some p =>
          obtain ⟨k, r0⟩ := p
          have h0 := scanChars_length _ _ _ _ hk
          simp only [hk, Option.some.injEq, Prod.mk.injEq] at h
          rw [← h.2]; omega
      · have hw := skipWs_length s1
        cases hs : skipWs s1 with
        | nil => simp [hs] at h
        | cons d r1 =>
          rw [hs] at hw
          simp only [hs] at h
          simp only [List.length_cons] at hw
          split_ifs at h with hd
          · simp only [Option.some.injEq, Prod.mk.injEq] at h
            rw [← h.2]; omega
          · cases he : parseElements (parseValue f) f (d :: r1) with
            | none => simp [he] at h
            | some q =>
              obtain ⟨vs, r2⟩ := q
              simp only [he, Option.some.injEq, Prod.mk.injEq] at h
              have := parseElements_length _ ih _ _ _ _ he
              simp only [List.length_cons] at this
              rw [← h.2]; omega
      · have hw := skipWs_length s1
        cases hs : skipWs s1 with
        | nil => simp [hs] at h
        | cons d r1 =>
          rw [hs] at hw
          simp only [hs] at h
          simp only [List.length_cons] at hw
          split_ifs at h with hd
          · simp only [Option.some.injEq, Prod.mk.injEq] at h
            rw [← h.2]; omega
          · cases he : parseMembers (parseValue f) f (d :: r1) with
            | none => simp [he] at h
            | some q =>
              obtain ⟨vs, r2⟩ := q
              simp only [he, Option.some.injEq, Prod.mk.injEq] at h
              have := parseMembers_length _ ih _ _ _ _ he
              simp only [List.length_cons] at this
              rw [← h.2]; omega
      · cases he : expectChars [114, 117, 101] s1 with
        | none => simp [he] at h
        | some r1 =>
          simp only [he, Option.some.injEq, Prod.mk.injEq] at h
          have := expectChars_length _ _ _ he
          rw [← h.2]; omega
      · cases he : expectChars [97, 108, 115, 101] s1 with
        | none => simp [he] at h
        | some r1 =>
          simp only [he, Option.some.injEq, Prod.mk.injEq] at h
          have := expectChars_length _ _ _ he
          rw [← h.2]; omega
      · cases he : expectChars [117, 108, 108] s1 with
        | none => simp [he] at h
        | some r1 =>
          simp only [he, Option.some.injEq, Prod.mk.injEq] at h
          have := expectChars_length _ _ _ he
          rw [← h.2]; omega
      · cases he : parseNumber (c :: s1) with
        | none => simp [he] at h
        | some q =>
          obtain ⟨t, r1⟩ := q
          simp only [he, Option.some.injEq, Prod.mk.injEq] at h
          have := parseNumber_length _ _ _ he
          simp only [List.length_cons] at this
          rw [← h.2]; omega

theorem parseElements_fuel (f : Nat)
    (hf : ∀ s v r, parseValue f s = some (v, r) →
      ∀ g, s.length < g → parseValue g s = some (v, r)) :
    ∀ (e : Nat) (s : JSString) (res : List JSON × JSString),
      parseElements (parseValue f) e s = some res →
      ∀ g ge, s.length < g → s.length < ge →
        parseElements (parseValue g) ge s = some res := by
  intro e
  induction e with
  | zero => intro s res h; simp [parseElements] at h
  | succ e ih =>
    intro s res h g ge hg hge
    obtain ⟨ge, rfl⟩ : ∃ k, ge = k + 1 := ⟨ge - 1, by omega⟩
    simp only [parseElements] at h ⊢
    cases hp : parseValue f s with
    | none => simp [hp] at h
    | some p =>
      obtain ⟨v, r0⟩ := p
      have h0 := parseValue_length _ _ _ _ hp
      have hw := skipWs_length r0
      simp only [hp] at h
      simp only [hf _ _ _ hp g hg]
      cases hs : skipWs r0 with
      | nil => simp [hs] at h
      | cons c r1 =>
        rw [hs] at hw
        simp only [hs] at h ⊢
        simp only [List.length_cons] at hw
        have hw1 := skipWs_length r1
        split_ifs at h ⊢ with h1 h2
        · cases hr : parseElements (parseValue f) e (skipWs r1) with
          | none => simp [hr] at h
          | some q =>
            simp only [hr] at h
            rw [ih _ _ hr g ge (by omega) (by omega)]
            exact h
        · exact h

theorem parseMembers_fuel (f : Nat)
    (hf : ∀ s v r, parseValue f s = some (v, r) →
      ∀ g, s.length < g → parseValue g s = some (v, r)) :
    ∀ (e : Nat) (s : JSString) (res : List (JSString × JSON) × JSString),
      parseMembers (parseValue f) e s = some res →
      ∀ g ge, s.length < g → s.length < ge →
        parseMembers (parseValue g) ge s = some res := by
  intro e
  induction e with
  | zero => intro s res h; simp [parseMembers] at h
  | succ e ih =>
    intro s res h g ge hg hge
    obtain ⟨ge, rfl⟩ : ∃ k, ge = k + 1 := ⟨ge - 1, by omega⟩
    simp only [parseMembers] at h ⊢
    cases s with
    | nil => simp at h
    | cons q s1 =>
      simp only at h ⊢
      simp only [List.length_cons] at hg hge
      split_ifs at h ⊢ with hq
      cases hk : parseChars s1 with
      | none => simp [hk] at h
      | some p =>
        obtain ⟨k, r0⟩ := p
        have h0 := scanChars_length _ _ _ _ hk
        have hw0 := skipWs_length r0
        simp only [hk] at h ⊢
        cases hs : skipWs r0 with
        | nil => simp [hs] at h
        | cons c r1 =>
          rw [hs] at hw0
          simp only [hs] at h ⊢
          simp only [List.length_cons] at hw0
          split_ifs at h ⊢ with hc
          have hw1 := skipWs_length r1
          cases hp : parseValue f (skipWs r1) with
          | none => simp [hp] at h
          | some p =>
            obtain ⟨v, r2⟩ := p
            have h2 := parseValue_length _ _ _ _ hp
            have hw2 := skipWs_length r2
            simp only [hp] at h
            simp only [hf _ _ _ hp g (by omega)]
            cases hs2 : skipWs r2 with
            | nil => simp [hs2] at h
            | cons d r3 =>
              rw [hs2] at hw2
              simp only [hs2] at h ⊢
              simp only [List.length_cons] at hw2
              have hw3 := skipWs_length r3
              split_ifs at h ⊢ with h1 h2
              · cases hr : parseMembers (parseValue f) e (skipWs r3) with
                | none => simp [hr] at h
                | some q =>
                  simp only [hr] at h
                  rw [ih _ _ hr g ge (by omega) (by omega)]
                  exact h
              · exact h

/-- A value parsed with some fuel is parsed, to the same result, with any fuel above the length
of the input. -/
theorem parseValue_fuel :
    ∀ (f : Nat) (s : JSString) (v : JSON) (r : JSString), parseValue f s = some (v, r) →
      ∀ g, s.length < g → parseValue g s = some (v, r) := by
  intro f
  induction f with
  | zero => intro s v r h; simp [parseValue] at h
  | succ f ih =>
    intro s v r h g hg
    obtain ⟨g, rfl⟩ : ∃ k, g = k + 1 := ⟨g - 1, by omega⟩
    simp only [parseValue] at h ⊢
    cases s with
    | nil => simp at h
    | cons c s1 =>
      simp only at h ⊢
      simp only [List.length_cons] at hg
      split_ifs at h ⊢ with h1 h2 h3 h4 h5 h6
      · exact h
      · have hw := skipWs_length s1
        cases hs : skipWs s1 with
        | nil => simp [hs] at h
        | cons d r1 =>
          rw [hs] at hw
          simp only [hs] at h ⊢
          split_ifs at h ⊢ with hd
          · exact h
          · cases he : parseElements (parseValue f) f (d :: r1) with
            | none => simp [he] at h
            | some q =>
              simp only [he] at h
              rw [parseElements_fuel f ih _ _ _ he g g (by omega) (by omega)]
              exact h
      · have hw := skipWs_length s1
        cases hs : skipWs s1 with
        | nil => simp [hs] at h
        | cons d r1 =>
          rw [hs] at hw
          simp only [hs] at h ⊢
          split_ifs at h ⊢ with hd
          · exact h
          · cases he : parseMembers (parseValue f) f (d :: r1) with
            | none => simp [he] at h
            | some q =>
              simp only [he] at h
              rw [parseMembers_fuel f ih _ _ _ he g g (by omega) (by omega)]
              exact h
      · exact h
      · exact h
      · exact h
      · exact h

/-- The fuel `JSON.parse` gives the parser is enough: a text that parses with any fuel
parses with it. -/
theorem parse_of_fuel (text : JSString) (fuel : Nat) (v : JSON) (r : JSString)
    (h : parseValue fuel (skipWs text) = some (v, r)) (hr : skipWs r = []) :
    JSON.parse text = some v := by
  have := parseValue_fuel fuel _ v r h (text.length + 1)
    (by have := skipWs_length text; omega)
  simp [JSON.parse, this, hr]

/-! ## Property lists in enumeration order -/

theorem hasKey_iff (k : JSString) (l : List (JSString × JSON)) :
    hasKey k l = true ↔ k ∈ l.map Prod.fst := by
  induction l with
  | nil => simp [hasKey]
  | cons kv l ih =>
    obtain ⟨k1, v1⟩ := kv
    simp only [hasKey, Bool.or_eq_true, decide_eq_true_eq, ih, List.map_cons, List.mem_cons]
    constructor
    · rintro (h | h)
      · exact Or.inl h.symm
      · exact Or.inr h
    · rintro (h | h)
      · exact Or.inl h.symm
      · exact Or.inr h

theorem keys_replaceValue (k : JSString) (v : JSON) (l : List (JSString × JSON)) :
    (replaceValue k v l).map Prod.fst = l.map Prod.fst := by
  induction l with
  | nil => rfl
  | cons kv l ih =>
    obtain ⟨k1, v1⟩ := kv
    simp only [replaceValue]
    split_ifs
    · rfl
    · simp [ih]

theorem arrayIndex_inj (k1 k2 : JSString) (n : Nat) (h1 : arrayIndex k1 = some n)
    (h2 : arrayIndex k2 = some n) : k1 = k2 := by
  unfold arrayIndex at h1 h2
  split_ifs at h1 h2 with c1 c2
  simp only [Option.some.injEq] at h1 h2
  rw [← c1.2, ← c2.2, h1, h2]

theorem keyBefore_of_none (x k : JSString) (h : arrayIndex k = none) :
    keyBefore x k := by
  unfold keyBefore
  rw [h]
  cases arrayIndex x <;> trivial

theorem keyBefore_index (x k : JSString) (n : Nat) (h : arrayIndex k = some n)
    (hx : keyBefore x k) : ∃ m, arrayIndex x = some m ∧ m < n := by
  unfold keyBefore at hx
  rw [h] at hx
  cases hm : arrayIndex x with
  | none => rw [hm] at hx; exact hx.elim
  | some m => rw [hm] at hx; exact ⟨m, rfl, hx⟩

theorem keyBefore_trans_index (k k1 x : JSString) (n m : Nat) (hk : arrayIndex k = some n)
    (hk1 : arrayIndex k1 = some m) (hnm : n < m) (hx : keyBefore k1 x) : keyBefore k x := by
  unfold keyBefore at hx ⊢
  rw [hk1] at hx
  rw [hk]
  cases hm : arrayIndex x with
  | none => trivial
  | some j =>
    rw [hm] at hx
    simp only at hx ⊢
    omega

theorem keyBefore_after_none (k k1 x : JSString) (n : Nat) (hk : arrayIndex k = some n)
    (hk1 : arrayIndex k1 = none) (hx : keyBefore k1 x) : keyBefore k x := by
  unfold keyBefore at hx ⊢
  rw [hk1] at hx
  rw [hk]
  cases hm : arrayIndex x with
  | none => trivial
  | some j => rw [hm] at hx; exact hx.elim

theorem mem_keys_insertIndex (n : Nat) (k : JSString) (v : JSON)
    (l : List (JSString × JSON)) (x : JSString) :
    x ∈ (insertIndex n k v l).map Prod.fst ↔ x = k ∨ x ∈ l.map Prod.fst := by
  induction l with
  | nil => simp [insertIndex]
  | cons kv l ih =>
    obtain ⟨k1, v1⟩ := kv
    simp only [insertIndex]
    cases hm : arrayIndex k1 with
    | none => simp
    | some m =>
      simp only
      split_ifs
      · simp only [List.map_cons, List.mem_cons, ih]
        tauto
      · simp

theorem ordered_insertIndex (n : Nat) (k : JSString) (v : JSON)
    (l : List (JSString × JSON)) (ho : Ordered l) (hk : k ∉ l.map Prod.fst)
    (hn : arrayIndex k = some n) : Ordered (insertIndex n k v l) := by
  induction l with
  | nil =>
    simp [insertIndex, Ordered]
  | cons kv l ih =>
    obtain ⟨k1, v1⟩ := kv
    obtain ⟨hnd, hpw⟩ := ho
    simp only [List.map_cons, List.nodup_cons, List.pairwise_cons, List.mem_cons, not_or]
      at hnd hpw hk
    have hfresh : (k :: k1 :: l.map Prod.fst).Nodup := by
      simp only [List.nodup_cons, List.mem_cons, not_or]
      exact ⟨⟨hk.1, hk.2⟩, hnd.1, hnd.2⟩
    simp only [insertIndex]
    cases hm : arrayIndex k1 with
    | none =>
      simp only
      refine ⟨by simpa using hfresh, ?_⟩
      simp only [List.map_cons, List.pairwise_cons, List.mem_cons]
      refine ⟨?_, hpw.1, hpw.2⟩
      rintro x (rfl | hx)
      · unfold keyBefore; rw [hn, hm]; trivial
      · exact keyBefore_after_none k k1 x n hn hm (hpw.1 x hx)
    | some m =>
      simp only
      split_ifs with hlt
      · have ih1 := ih ⟨hnd.2, hpw.2⟩ hk.2
        refine ⟨?_, ?_⟩
        · simp only [List.map_cons, List.nodup_cons, mem_keys_insertIndex, not_or]
          exact ⟨⟨fun h => hk.1 h.symm, hnd.1⟩, ih1.1⟩
        · simp only [List.map_cons, List.pairwise_cons, mem_keys_insertIndex]
          refine ⟨?_, ih1.2⟩
          rintro x (rfl | hx)
          · unfold keyBefore; rw [hm, hn]; exact hlt
          · exact hpw.1 x hx
      · have hne : m ≠ n := by
          intro h
          subst h
          exact hk.1 (arrayIndex_inj k k1 m hn hm)
        refine ⟨by simpa using hfresh, ?_⟩
        simp only [List.map_cons, List.pairwise_cons, List.mem_cons]
        refine ⟨?_, hpw.1, hpw.2⟩
        rintro x (rfl | hx)
        · unfold keyBefore; rw [hn, hm]; simp only; omega
        · exact keyBefore_trans_index k k1 x n m hn hm (by omega) (hpw.1 x hx)

theorem ordered_append (k : JSString) (v : JSON) (l : List (JSString × JSON))
    (ho : Ordered l) (hk : k ∉ l.map Prod.fst) (hn : arrayIndex k = none) :
    Ordered (l ++ [(k, v)]) := by
  obtain ⟨hnd, hpw⟩ := ho
  refine ⟨?_, ?_⟩
  · simp only [List.map_append, List.map_cons, List.map_nil]
    rw [List.nodup_append]
    refine ⟨hnd, by simp, ?_⟩
    intro a ha hb
    simp only [List.mem_singleton] at hb
    subst hb
    exact hk ha
  · simp only [List.map_append, List.map_cons, List.map_nil]
    rw [List.pairwise_append]
    refine ⟨hpw, by simp, ?_⟩
    intro a _ b hb
    simp only [List.mem_singleton] at hb
    subst hb
    exact keyBefore_of_none a b hn

/-- Setting a property keeps the property list in enumeration order. -/
theorem ordered_setProperty (l : List (JSString × JSON)) (k : JSString) (v : JSON)
    (ho : Ordered l) : Ordered (setProperty l k v) := by
  unfold setProperty
  split_ifs with h
  · unfold Ordered
    rw [keys_replaceValue]
    exact ho
  · have hk : k ∉ l.map Prod.fst := fun hmem => h ((hasKey_iff k l).mpr hmem)
    cases hn : arrayIndex k with
    | none => exact ordered_append k v l ho hk hn
    | some n => exact ordered_insertIndex n k v l ho hk hn

theorem insertIndex_last (n : Nat) (k : JSString) (v : JSON) (pre : List (JSString × JSON))
    (hn : arrayIndex k = some n) (h : ∀ x ∈ pre.map Prod.fst, keyBefore x k) :
    insertIndex n k v pre = pre ++ [(k, v)] := by
  induction pre with
  | nil => rfl
  | cons kv pre ih =>
    obtain ⟨k1, v1⟩ := kv
    obtain ⟨m, hm, hlt⟩ := keyBefore_index k1 k n hn (h k1 (by simp))
    simp only [insertIndex, hm, hlt, if_true, List.cons_append]
    rw [ih (fun x hx => h x (by simp only [List.map_cons, List.mem_cons]; exact Or.inr hx))]

theorem foldl_setProperty_ordered (suf : List (JSString × JSON)) :
    ∀ pre : List (JSString × JSON), Ordered (pre ++ suf) →
      suf.foldl (fun o kv => setProperty o kv.1 kv.2) pre = pre ++ suf := by
  induction suf with
  | nil => intro pre _; simp
  | cons kv suf ih =>
    obtain ⟨k, v⟩ := kv
    intro pre ho
    have ho1 : Ordered ((pre ++ [(k, v)]) ++ suf) := by simpa using ho
    obtain ⟨hnd, hpw⟩ := ho
    simp only [List.map_append, List.map_cons] at hnd hpw
    have hk : k ∉ pre.map Prod.fst := by
      intro hmem
      rw [List.nodup_append] at hnd
      exact hnd.2.2 hmem (List.mem_cons_self _ _)
    have hbefore : ∀ x ∈ pre.map Prod.fst, keyBefore x k := by
      intro x hx
      rw [List.pairwise_append] at hpw
      exact hpw.2.2 x hx k (List.mem_cons_self _ _)
    have hset : setProperty pre k v = pre ++ [(k, v)] := by
      unfold setProperty
      have hh : hasKey k pre = false := by
        cases hb : hasKey k pre with
        | false => rfl
        | true => exact absurd ((hasKey_iff k pre).mp hb) hk
      simp only [hh, Bool.false_eq_true, if_false]
      cases hn : arrayIndex k with
      | none => rfl
      | some n => exact insertIndex_last n k v pre hn hbefore
    simp only [List.foldl_cons, hset]
    rw [ih _ ho1]
    simp

/-- An object built from a property list is in enumeration order. -/
theorem ordered_buildObject (ms : List (JSString × JSON)) : Ordered (buildObject ms) := by
  have : ∀ (ms pre : List (JSString × JSON)), Ordered pre →
      Ordered (ms.foldl (fun o kv => setProperty o kv.1 kv.2) pre) := by
    intro ms
    induction ms with
    | nil => intro pre h; exact h
    | cons kv ms ih =>
      intro pre h
      exact ih _ (ordered_setProperty pre kv.1 kv.2 h)
  exact this ms [] ⟨by simp, by simp⟩

/-- Building an object from a property list in enumeration order gives that list back. -/
theorem buildObject_of_ordered (l : List (JSString × JSON)) (h : Ordered l) :
    buildObject l = l := by
  have := foldl_setProperty_ordered l [] (by simpa using h)
  simpa [buildObject] using this

/-- Building an object twice changes nothing. -/
theorem buildObject_idem (ms : List (JSString × JSON)) :
    buildObject (buildObject ms) = buildObject ms :=
  buildObject_of_ordered _ (ordered_buildObject ms)

theorem mem_replaceValue (k : JSString) (v : JSON) (l : List (JSString × JSON))
    (p : JSString × JSON) (h : p ∈ replaceValue k v l) : p ∈ l ∨ p = (k, v) := by
  induction l with
  | nil => simp [replaceValue] at h
  | cons kv l ih =>
    obtain ⟨k1, v1⟩ := kv
    simp only [replaceValue] at h
    split_ifs at h with hk
    · rcases List.mem_cons.mp h with h | h
      · right; rw [h, hk]
      · left; exact List.mem_cons_of_mem _ h
    · rcases List.mem_cons.mp h with h | h
      · left; rw [h]; exact List.mem_cons_self _ _
      · rcases ih h with h | h
        · left; exact List.mem_cons_of_mem _ h
        · right; exact h

theorem mem_insertIndex (n : Nat) (k : JSString) (v : JSON) (l : List (JSString × JSON))
    (p : JSString × JSON) (h : p ∈ insertIndex n k v l) : p ∈ l ∨ p = (k, v) := by
  induction l with
  | nil => simp only [insertIndex, List.mem_singleton] at h; exact Or.inr h
  | cons kv l ih =>
    obtain ⟨k1, v1⟩ := kv
    simp only [insertIndex] at h
    cases hm : arrayIndex k1 with
    | none =>
      simp only [hm] at h
      rcases List.mem_cons.mp h with h | h
      · exact Or.inr h
      · exact Or.inl h
    | some m =>
      simp only [hm] at h
      split_ifs at h
      · rcases List.mem_cons.mp h with h | h
        · left; rw [h]; exact List.mem_cons_self _ _
        · rcases ih h with h | h
          · left; exact List.mem_cons_of_mem _ h
          · right; exact h
      · rcases List.mem_cons.mp h with h | h
        · exact Or.inr h
        · exact Or.inl h

theorem mem_setProperty (l : List (JSString × JSON)) (k : JSString) (v : JSON)
    (p : JSString × JSON) (h : p ∈ setProperty l k v) : p ∈ l ∨ p = (k, v) := by
  unfold setProperty at h
  split_ifs at h
  · exact mem_replaceValue k v l p h
  · cases hn : arrayIndex k with
    | none =>
      simp only [hn, List.mem_append, List.mem_singleton] at h
      exact h
    | some n =>
      simp only [hn] at h
      exact mem_insertIndex n k v l p h

/-- Every property of a built object comes from the property list it was built from. -/
theorem mem_buildObject (ms : List (JSString × JSON)) (p : JSString × JSON)
    (h : p ∈ buildObject ms) : p ∈ ms := by
  have : ∀ (ms pre : List (JSString × JSON)),
      p ∈ ms.foldl (fun o kv => setProperty o kv.1 kv.2) pre → p ∈ pre ∨ p ∈ ms := by
    intro ms
    induction ms with
    | nil => intro pre h; exact Or.inl h
    | cons kv ms ih =>
      intro pre h
      rcases ih _ h with h | h
      · rcases mem_setProperty pre kv.1 kv.2 p h with h | h
        · exact Or.inl h
        · right; rw [h]; exact List.mem_cons_self _ _
      · exact Or.inr (List.mem_cons_of_mem _ h)
  rcases this ms [] h with h | h
  · cases h
  · exact h

theorem numberFreeList_iff (xs : List JSON) :
    JSON.numberFreeList xs = true ↔ ∀ x ∈ xs, x.numberFree = true := by
  induction xs with
  | nil => simp [JSON.numberFreeList]
  | cons x xs ih => simp [JSON.numberFreeList, ih]

theorem numberFreeMembers_iff (kvs : List (JSString × JSON)) :
    JSON.numberFreeMembers kvs = true ↔ ∀ kv ∈ kvs, kv.2.numberFree = true := by
  induction kvs with
  | nil => simp [JSON.numberFreeMembers]
  | cons kv kvs ih =>
    obtain ⟨k, v⟩ := kv
    simp [JSON.numberFreeMembers, ih]

theorem canonicalList_iff (xs : List JSON) :
    JSON.canonicalList xs = true ↔ ∀ x ∈ xs, x.canonical = true := by
  induction xs with
  | nil => simp [JSON.canonicalList]
  | cons x xs ih => simp [JSON.canonicalList, ih]

theorem canonicalMembers_iff (kvs : List (JSString × JSON)) :
    JSON.canonicalMembers kvs = true ↔ ∀ kv ∈ kvs, kv.2.canonical = true := by
  induction kvs with
  | nil => simp [JSON.canonicalMembers]
  | cons kv kvs ih =>
    obtain ⟨k, v⟩ := kv
    simp [JSON.canonicalMembers, ih]

theorem parseElements_all (P : JSON → Prop) (pv : JSString → Option (JSON × JSString))
    (hpv : ∀ s v r, pv s = some (v, r) → P v) :
    ∀ (e : Nat) (s : JSString) (vs : List JSON) (r : JSString),
      parseElements pv e s = some (vs, r) → ∀ x ∈ vs, P x := by
  intro e
  induction e with
  | zero => intro s vs r h; simp [parseElements] at h
  | succ e ih =>
    intro s vs r h
    simp only [parseElements] at h
    cases hp : pv s with
    | none => simp [hp] at h
    | some p =>
      obtain ⟨v, r0⟩ := p
      have h0 := hpv _ _ _ hp
      simp only [hp] at h
      cases hs : skipWs r0 with
      | nil => simp [hs] at h
      | cons c r1 =>
        simp only [hs] at h
        split_ifs at h with h1 h2
        · cases hr : parseElements pv e (skipWs r1) with
          | none => simp [hr] at h
          | some q =>
            obtain ⟨vs1, r2⟩ := q
            simp only [hr, Option.some.injEq, Prod.mk.injEq] at h
            have := ih _ _ _ hr
            rw [← h.1]
            intro x hx
            rcases List.mem_cons.mp hx with hx | hx
            · rw [hx]; exact h0
            · exact this x hx
        · simp only [Option.some.injEq, Prod.mk.injEq] at h
          rw [← h.1]
          intro x hx
          rw [List.mem_singleton.mp hx]
          exact h0

theorem parseMembers_all (P : JSON → Prop) (pv : JSString → Option (JSON × JSString))
    (hpv : ∀ s v r, pv s = some (v, r) → P v) :
    ∀ (e : Nat) (s : JSString) (kvs : List (JSString × JSON)) (r : JSString),
      parseMembers pv e s = some (kvs, r) → ∀ kv ∈ kvs, P kv.2 := by
  intro e
  induction e with
  | zero => intro s vs r h; simp [parseMembers] at h
  | succ e ih =>
    intro s kvs r h
    simp only [parseMembers] at h
    cases s with
    | nil => simp at h
    | cons q s1 =>
      simp only at h
      split_ifs at h with hq
      cases hk : parseChars s1 with
      | none => simp [hk] at h
      | some p =>
        obtain ⟨k, r0⟩ := p
        simp only [hk] at h
        cases hs : skipWs r0 with
        | nil => simp [hs] at h
        | cons c r1 =>
          simp only [hs] at h
          split_ifs at h with hc
          cases hp : pv (skipWs r1) with
          | none => simp [hp] at h
          | some p =>
            obtain ⟨v, r2⟩ := p
            have h0 := hpv _ _ _ hp
            simp only [hp] at h
            cases hs2 : skipWs r2 with
            | nil => simp [hs2] at h
            | cons d r3 =>
              simp only [hs2] at h
              split_ifs at h with h1 h2
              · cases hr : parseMembers pv e (skipWs r3) with
                | none => simp [hr] at h
                | some q =>
                  obtain ⟨kvs1, r4⟩ := q
                  simp only [hr, Option.some.injEq, Prod.mk.injEq] at h
                  have := ih _ _ _ hr
                  rw [← h.1]
                  intro x hx
                  rcases List.mem_cons.mp hx with hx | hx
                  · rw [hx]; exact h0
                  · exact this x hx
              · simp only [Option.some.injEq, Prod.mk.injEq] at h
                rw [← h.1]
                intro x hx
                rw [List.mem_singleton.mp hx]
                exact h0

/-- A parsed value that holds no number is canonical: the parser builds every object in
enumeration order. -/
theorem parseValue_canonical :
    ∀ (f : Nat) (s : JSString) (v : JSON) (r : JSString), parseValue f s = some (v, r) →
      v.numberFree = true → v.canonical = true := by
  intro f
  induction f with
  | zero => intro s v r h; simp [parseValue] at h
  | succ f ih =>
    intro s v r h
    simp only [parseValue] at h
    cases s with
    | nil => simp at h
    | cons c s1 =>
      simp only at h
      split_ifs at h with h1 h2 h3 h4 h5 h6
      · cases hk : parseChars s1 with
        | none => simp [hk] at h
        | some p =>
          obtain ⟨k, r0⟩ := p
          simp only [hk, Option.some.injEq, Prod.mk.injEq] at h
          rw [← h.1]; intro _; rfl
      · cases hs : skipWs s1 with
        | nil => simp [hs] at h
        | cons d r1 =>
          simp only [hs] at h
          split_ifs at h with hd
          · simp only [Option.some.injEq, Prod.mk.injEq] at h
            rw [← h.1]; intro _; rfl
          · cases he : parseElements (parseValue f) f (d :: r1) with
            | none => simp [he] at h
            | some q =>
              obtain ⟨vs, r2⟩ := q
              simp only [he, Option.some.injEq, Prod.mk.injEq] at h
              have hall := parseElements_all
                (fun v => v.numberFree = true → v.canonical = true) _ ih _ _ _ _ he
              rw [← h.1]
              intro hnf
              simp only [JSON.numberFree, numberFreeList_iff] at hnf
              simp only [JSON.canonical, canonicalList_iff]
              exact fun x hx => hall x hx (hnf x hx)
      · cases hs : skipWs s1 with
        | nil => simp [hs] at h
        | cons d r1 =>
          simp only [hs] at h
          split_ifs at h with hd
          · simp only [Option.some.injEq, Prod.mk.injEq] at h
            rw [← h.1]; intro _
            simp [JSON.canonical, JSON.canonicalMembers, buildObject]
          · cases he : parseMembers (parseValue f) f (d :: r1) with
            | none => simp [he] at h
            | some q =>
              obtain ⟨kvs, r2⟩ := q
              simp only [he, Option.some.injEq, Prod.mk.injEq] at h
              have hall := parseMembers_all
                (fun v => v.numberFree = true → v.canonical = true) _ ih _ _ _ _ he
              rw [← h.1]
              intro hnf
              simp only [JSON.numberFree, numberFreeMembers_iff] at hnf
              simp only [JSON.canonical, canonicalMembers_iff, Bool.and_eq_true,
                decide_eq_true_eq]
              exact ⟨fun x hx => hall x (mem_buildObject kvs x hx) (hnf x hx),
                buildObject_idem kvs⟩
      · cases he : expectChars [114, 117, 101] s1 with
        | none => simp [he] at h
        | some r1 =>
          simp only [he, Option.some.injEq, Prod.mk.injEq] at h
          rw [← h.1]; intro _; rfl
      · cases he : expectChars [97, 108, 115, 101] s1 with
        | none => simp [he] at h
        | some r1 =>
          simp only [he, Option.some.injEq, Prod.mk.injEq] at h
          rw [← h.1]; intro _; rfl
      · cases he : expectChars [117, 108, 108] s1 with
        | none => simp [he] at h
        | some r1 =>
          simp only [he, Option.some.injEq, Prod.mk.injEq] at h
          rw [← h.1]; intro _; rfl
      · cases he : parseNumber (c :: s1) with
        | none => simp [he] at h
        | some q =>
          obtain ⟨t, r1⟩ := q
          simp only [he, Option.some.injEq, Prod.mk.injEq] at h
          rw [← h.1]; intro hnf
          simp [JSON.numberFree] at hnf

/-- What `JSON.parse` returns is canonical when it holds no number. -/
theorem parse_canonical (text : JSString) (v : JSON) (h : JSON.parse text = some v)
    (hnf : v.numberFree = true) : v.canonical = true := by
  unfold JSON.parse at h
  cases hp : parseValue (text.length + 1) (skipWs text) with
  | none => simp [hp] at h
  | some p =>
    obtain ⟨v1, r⟩ := p
    simp only [hp] at h
    split_ifs at h
    simp only [Option.some.injEq] at h
    subst h
    exact parseValue_canonical _ _ _ _ hp hnf

theorem ordered_of_no_index (l : List (JSString × JSON)) (hnd : (l.map Prod.fst).Nodup)
    (h : ∀ k ∈ l.map Prod.fst, arrayIndex k = none) : Ordered l :=
  ⟨hnd, List.pairwise_of_forall_mem_list (fun a _ b hb => keyBefore_of_none a b (h b hb))⟩

theorem entry_canonical (u t : JSON) (a i : JSString) (hu : u.canonical = true)
    (ht : t.canonical = true) : (entry u t a i).canonical = true := by
  have hk : utf16 "username" = [117, 115, 101, 114, 110, 97, 109, 101] ∧
      utf16 "time" = [116, 105, 109, 101] ∧ utf16 "avatar" = [97, 118, 97, 116, 97, 114] ∧
      utf16 "image" = [105, 109, 97, 103, 101] := by decide
  have hnd : ([[117, 115, 101, 114, 110, 97, 109, 101], [116, 105, 109, 101],
      [97, 118, 97, 116, 97, 114], [105, 109, 97, 103, 101]] : List JSString).Nodup := by
    decide
  have hidx : ∀ k ∈ ([[117, 115, 101, 114, 110, 97, 109, 101], [116, 105, 109, 101],
      [97, 118, 97, 116, 97, 114], [105, 109, 97, 103, 101]] : List JSString),
      arrayIndex k = none := by
    decide
  simp only [entry, hk.1, hk.2.1, hk.2.2.1, hk.2.2.2, JSON.canonical, JSON.canonicalMembers,
    Bool.and_eq_true, decide_eq_true_eq, true_and, hu, ht, and_self]
  exact buildObject_of_ordered _ (ordered_of_no_index _ hnd hidx)

mutual
/-- What multer hands over is canonical as a JSON value: it holds no number and its objects are
built in enumeration order. -/
theorem FieldValue.toJSON_canonical : ∀ v : FieldValue, v.toJSON.canonical = true
  | .text _ => rfl
  | .array xs => by
    simp only [FieldValue.toJSON, JSON.canonical]
    exact FieldValue.toJSONList_canonical xs
  | .object kvs => by
    simp only [FieldValue.toJSON, JSON.canonical, Bool.and_eq_true, decide_eq_true_eq]
    refine ⟨?_, buildObject_idem _⟩
    rw [canonicalMembers_iff]
    intro kv hkv
    exact (canonicalMembers_iff _).mp (FieldValue.toJSONMembers_canonical kvs) kv
      (mem_buildObject _ kv hkv)
theorem FieldValue.toJSONElement_canonical :
    ∀ x : Option FieldValue, (FieldValue.toJSONElement x).canonical = true
  | none => rfl
  | some v => by
    simp only [FieldValue.toJSONElement]
    exact FieldValue.toJSON_canonical v
theorem FieldValue.toJSONList_canonical :
    ∀ xs : List (Option FieldValue), JSON.canonicalList (FieldValue.toJSONList xs) = true
  | [] => rfl
  | x :: xs => by
    simp only [FieldValue.toJSONList, JSON.canonicalList, Bool.and_eq_true]
    exact ⟨FieldValue.toJSONElement_canonical x, FieldValue.toJSONList_canonical xs⟩
theorem FieldValue.toJSONMembers_canonical :
    ∀ kvs : List (JSString × FieldValue),
      JSON.canonicalMembers (FieldValue.toJSONMembers kvs) = true
  | [] => rfl
  | (_, v) :: kvs => by
    simp only [FieldValue.toJSONMembers, JSON.canonicalMembers, Bool.and_eq_true]
    exact ⟨FieldValue.toJSON_canonical v, FieldValue.toJSONMembers_canonical kvs⟩
end

/-! ## The handler -/

theorem truthy_of_ne_nil (u : JSString) (h : u ≠ []) :
    truthy (some (.text u)) = some (.text u) := by
  cases u with
  | nil => exact absurd rfl h
  | cons c s => rfl

theorem truthy_eq_none_of_absent (x : Option FieldValue) (h : absentText x) :
    truthy x = none := by
  rcases h with rfl | rfl <;> rfl

theorem firstFile_eq_none_of_count (req : Request) (field : Files → Option (List UploadedFile))
    (h : fileCount req field = 0) : firstFile req.files field = none := by
  unfold fileCount at h
  unfold firstFile
  cases hf : req.files with
  | none => rfl
  | some fs =>
    simp only [hf] at h
    cases hl : field fs with
    | none => simp [hl]
    | some l =>
      simp only [hl] at h
      cases l with
      | nil => simp [hl]
      | cons a l => simp at h

/-- With `req.body` defined, a request lacking one of the four inputs gets the 400 answer and
the file system is untouched. -/
theorem postEntries_missing (nts : JSString → JSString) (req : Request) (fs : FS) (body : Body)
    (hb : req.body = some body) (h : InputMissing req) :
    postEntries nts req fs = (.json 400 missingFields, fs) := by
  unfold postEntries
  simp only [hb]
  unfold InputMissing at h
  simp only [hb, Option.some_bind] at h
  rcases h with h | h | h | h
  · rw [truthy_eq_none_of_absent _ h]
  · rw [truthy_eq_none_of_absent _ h]
    cases truthy body.username <;> rfl
  · rw [firstFile_eq_none_of_count req _ h]
    cases truthy body.username <;> cases truthy body.time <;> rfl
  · rw [firstFile_eq_none_of_count req _ h]
    cases truthy body.username <;> cases truthy body.time <;>
      cases firstFile req.files Files.avatar <;> rfl

/-- The handler on a valid request whose `timeline` (read from the file, or `[]`) is an array:
success, and the file is overwritten with the array and the new entry. -/
theorem postEntries_valid (nts : JSString → JSString) (p : ValidPost) (fs : FS)
    (xs : List JSON) (h : readTimeline fs = .arr xs) :
    postEntries nts p.request fs =
      (.json 200 successBody,
        { fs with
          timeline := some (toWellFormed (JSON.stringify nts (.arr (xs ++ [p.entry])))) }) := by
  unfold postEntries
  simp only [ValidPost.request, truthy_of_ne_nil _ p.username_ne, truthy_of_ne_nil _ p.time_ne,
    firstFile, h]
  rfl

/-- The handler on a valid request whose `timeline` is not an array: `push` throws, nothing is
written. -/
theorem postEntries_valid_not_array (nts : JSString → JSString) (p : ValidPost) (fs : FS)
    (h : ∀ xs, readTimeline fs ≠ .arr xs) :
    postEntries nts p.request fs = (.uncaught, fs) := by
  unfold postEntries
  cases hr : readTimeline fs with
  | arr xs => exact absurd hr (h xs)
  | _ =>
    simp only [ValidPost.request, truthy_of_ne_nil _ p.username_ne,
      truthy_of_ne_nil _ p.time_ne, firstFile]

theorem canonicalList_append (xs ys : List JSON) :
    JSON.canonicalList (xs ++ ys) = (JSON.canonicalList xs && JSON.canonicalList ys) := by
  induction xs with
  | nil => simp [JSON.canonicalList]
  | cons x xs ih => simp [JSON.canonicalList, ih, Bool.and_assoc]

theorem canonicalList_of_forall (xs : List JSON) (h : ∀ e ∈ xs, e.canonical = true) :
    JSON.canonicalList xs = true := by
  induction xs with
  | nil => rfl
  | cons x xs ih =>
    simp only [JSON.canonicalList, Bool.and_eq_true]
    exact ⟨h x (List.mem_cons_self _ _), ih (fun e he => h e (List.mem_cons_of_mem _ he))⟩

theorem ValidPost.entryCanonical (p : ValidPost) : p.entry.canonical = true :=
  Timeline.entry_canonical _ _ _ _ rfl rfl

theorem canonical_push (xs : List JSON) (p : ValidPost) (h : ∀ e ∈ xs, e.canonical = true) :
    (JSON.arr (xs ++ [p.entry])).canonical = true := by
  simp only [JSON.canonical, canonicalList_append, Bool.and_eq_true]
  exact ⟨canonicalList_of_forall xs h, by simp [JSON.canonicalList, p.entryCanonical]⟩

/-- An array of canonical values with one more entry is read back from its text. -/
theorem parse_stringify_push (nts : JSString → JSString) (xs : List JSON) (p : ValidPost)
    (h : ∀ e ∈ xs, e.canonical = true) :
    JSON.parse (JSON.stringify nts (.arr (xs ++ [p.entry]))) = some (.arr (xs ++ [p.entry])) :=
  parse_stringify nts _ (canonical_push xs p h)

/-- The handler on a valid request whose `timeline` is an array of canonical values: the text
written holds no lone surrogate, the file holds it as it is. -/
theorem postEntries_valid_canonical (nts : JSString → JSString) (p : ValidPost) (fs : FS)
    (xs : List JSON) (h : readTimeline fs = .arr xs) (hc : ∀ e ∈ xs, e.canonical = true) :
    postEntries nts p.request fs =
      (.json 200 successBody,
        { fs with timeline := some (JSON.stringify nts (.arr (xs ++ [p.entry]))) }) := by
  rw [postEntries_valid nts p fs xs h, toWellFormed_stringify nts _ (canonical_push xs p hc)]

theorem readTimeline_of_stringify (nts : JSString → JSString) (fs : FS) (xs : List JSON)
    (h : fs.timeline = some (JSON.stringify nts (.arr xs))) (hc : ∀ e ∈ xs, e.canonical = true) :
    readTimeline fs = .arr xs := by
  unfold readTimeline
  rw [h]
  simp only
  rw [parse_stringify nts (.arr xs) (by simpa [JSON.canonical] using canonicalList_of_forall xs hc)]

/-- What the handler reads from the file is canonical when it holds no number. -/
theorem readTimeline_canonical (fs : FS) (es : List JSON) (h : readTimeline fs = .arr es)
    (hnf : ∀ e ∈ es, e.numberFree = true) : ∀ e ∈ es, e.canonical = true := by
  have hc : (JSON.arr es).canonical = true := by
    unfold readTimeline at h
    cases hf : fs.timeline with
    | none =>
      simp only [hf] at h
      cases h
      rfl
    | some text =>
      simp only [hf] at h
      cases hp : JSON.parse text with
      | none =>
        simp only [hp] at h
        cases h
        rfl
      | some v =>
        simp only [hp] at h
        subst h
        exact parse_canonical text _ hp
          (by simpa [JSON.numberFree] using (numberFreeList_iff es).mpr hnf)
  simpa [JSON.canonical] using (canonicalList_iff es).mp hc

theorem runAll_from_array (nts : JSString → JSString) (ps : List ValidPost) :
    ∀ (xs : List JSON) (fs : FS), (∀ e ∈ xs, e.canonical = true) → readTimeline fs = .arr xs →
      ps ≠ [] →
      runAll nts (ps.map ValidPost.request) fs =
        (ps.map fun _ => Response.json 200 successBody,
          ⟨some (JSON.stringify nts (.arr (xs ++ ps.map ValidPost.entry))), fs.imgs⟩) := by
  induction ps with
  | nil => intro xs fs _ _ h; exact absurd rfl h
  | cons p ps ih =>
    intro xs fs hc hr _
    have hp := postEntries_valid_canonical nts p fs xs hr hc
    have hc2 : ∀ e ∈ xs ++ [p.entry], e.canonical = true := by
      intro e he
      rcases List.mem_append.mp he with h | h
      · exact hc e h
      · rw [List.mem_singleton.mp h]; exact p.entryCanonical
    simp only [List.map_cons, runAll, hp]
    cases ps with
    | nil => simp [runAll]
    | cons q qs =>
      have := ih (xs ++ [p.entry])
        ⟨some (JSON.stringify nts (.arr (xs ++ [p.entry]))), fs.imgs⟩ hc2
        (readTimeline_of_stringify nts _ _ rfl hc2) (by simp)
      rw [this]
      simp

/-- The examples of the documentation of `path.extname`. -/
theorem extname_examples :
    extname (utf16 "index.html") = utf16 ".html" ∧
      extname (utf16 "index.coffee.md") = utf16 ".md" ∧
      extname (utf16 "index.") = utf16 "." ∧
      extname (utf16 "index") = [] ∧
      extname (utf16 ".index") = [] ∧
      extname (utf16 ".index.md") = utf16 ".md" ∧
      extname (utf16 "..") = [] ∧
      extname (utf16 "../../etc/passwd") = [] ∧
      extname (utf16 "a.b/c") = [] ∧
      extname (utf16 "x.png/") = utf16 ".png" := by
  decide

theorem extInv_done (path : JSString) (n : Nat) (st : ExtScan) (h : ExtInv path n st) :
    ExtDone path st := by
  intro sd e hsd he
  obtain ⟨_, hb, hc⟩ := h
  obtain ⟨h1, h2, h3⟩ := hb e he
  obtain ⟨h4, h5, e1, h6, h7⟩ := hc sd hsd
  rw [he] at h6
  cases h6
  exact ⟨h7, h2, h5, fun j hj1 hj2 => h3 j (by omega) hj2⟩

theorem extnameScan_done (path : JSString) :
    ∀ (n : Nat) (st : ExtScan), n ≤ path.length → ExtInv path n st →
      ExtDone path (extnameScan path n st) := by
  intro n
  induction n with
  | zero => intro st _ h; exact extInv_done path 0 st h
  | succ i ih =>
    intro st hn h
    obtain ⟨ha, hb, hc⟩ := h
    unfold extnameScan
    simp only
    by_cases hcode : path.getD i 0 = 47
    · simp only [hcode, if_true]
      by_cases hm : st.matchedSlash = true
      · simp only [hm, Bool.not_true, Bool.false_eq_true, if_false]
        apply ih st (by omega)
        have hnone := ha hm
        refine ⟨ha, ?_, ?_⟩
        · intro e he; rw [hnone] at he; cases he
        · intro sd hsd
          obtain ⟨_, _, e, he, _⟩ := hc sd hsd
          rw [hnone] at he; cases he
      · simp only [hm, Bool.not_eq_true] at hm ⊢
        simp only [hm, Bool.not_false, if_true]
        intro sd e hsd he
        exact extInv_done path (i + 1) st ⟨ha, hb, hc⟩ sd e hsd he
    · simp only [hcode, if_false]
      apply ih _ (by omega)
      obtain ⟨sd0, sp0, e0, ms0, pd0⟩ := st
      simp only at ha hb hc ⊢
      cases e0 with
      | none =>
        have hsd0 : sd0 = none := by
          cases sd0 with
          | none => rfl
          | some sd => obtain ⟨_, _, e, he, _⟩ := hc sd rfl; cases he
        subst hsd0
        by_cases h46 : path.getD i 0 = 46
        · simp only [h46, if_true]
          refine ⟨by simp, ?_, ?_⟩
          · intro e he
            simp only [Option.some.injEq] at he
            subst he
            refine ⟨by omega, by omega, fun j hj1 hj2 => ?_⟩
            have : j = i := by omega
            subst this
            exact hcode
          · intro sd hsd
            simp only [Option.some.injEq] at hsd
            subst hsd
            exact ⟨le_refl _, h46, i + 1, rfl, by omega⟩
        · simp only [h46, if_false, if_true]
          refine ⟨by simp, ?_, ?_⟩
          · intro e he
            simp only [ne_eq, not_true_eq_false, if_false, Option.some.injEq] at he
            subst he
            refine ⟨by omega, by omega, fun j hj1 hj2 => ?_⟩
            have : j = i := by omega
            subst this
            exact hcode
          · intro sd hsd
            simp at hsd
      | some e0 =>
        obtain ⟨h1, h2, h3⟩ := hb e0 rfl
        have hms : ms0 = false := by
          cases ms0 with
          | false => rfl
          | true => have := ha rfl; cases this
        subst hms
        have hb2 : ∀ e, some e0 = some e →
            i < e ∧ e ≤ path.length ∧ ∀ j, i ≤ j → j < e → path.getD j 0 ≠ 47 := by
          intro e he
          cases he
          refine ⟨by omega, h2, fun j hj1 hj2 => ?_⟩
          by_cases hji : j = i
          · subst hji; exact hcode
          · exact h3 j (by omega) hj2
        simp only [reduceCtorEq, if_false]
        by_cases h46 : path.getD i 0 = 46
        · simp only [h46, if_true]
          cases sd0 with
          | none =>
            simp only [if_true]
            refine ⟨by simp, hb2, ?_⟩
            intro sd hsd
            simp only [Option.some.injEq] at hsd
            subst hsd
            exact ⟨le_refl _, h46, e0, rfl, by omega⟩
          | some sd0 =>
            obtain ⟨h4, h5, h6⟩ := hc sd0 rfl
            simp only [reduceCtorEq, if_false]
            split_ifs
            · exact ⟨by simp, hb2, fun sd hsd => by cases hsd; exact ⟨by omega, h5, h6⟩⟩
            · exact ⟨by simp, hb2, fun sd hsd => by cases hsd; exact ⟨by omega, h5, h6⟩⟩
        · simp only [h46, if_false]
          cases sd0 with
          | none =>
            simp only [ne_eq, not_true_eq_false, if_false]
            exact ⟨by simp, hb2, fun sd hsd => by cases hsd⟩
          | some sd0 =>
            obtain ⟨h4, h5, h6⟩ := hc sd0 rfl
            simp only [ne_eq, reduceCtorEq, not_false_eq_true, if_true]
            exact ⟨by simp, hb2, fun sd hsd => by cases hsd; exact ⟨by omega, h5, h6⟩⟩


theorem extname_cases (path : JSString) :
    extname path = [] ∨ ∃ sd e, sd < e ∧ e ≤ path.length ∧ path.getD sd 0 = 46 ∧
      (∀ j, sd ≤ j → j < e → path.getD j 0 ≠ 47) ∧
      extname path = (path.drop sd).take (e - sd) := by
  have hdone := extnameScan_done path path.length ⟨none, 0, none, true, 0⟩ (le_refl _)
    ⟨fun _ => rfl, (fun e he => by cases he), (fun sd hsd => by cases hsd)⟩
  unfold extname
  simp only
  generalize extnameScan path path.length ⟨none, 0, none, true, 0⟩ = st at hdone
  cases hsd : st.startDot with
  | none => left; rfl
  | some sd =>
    cases he : st.endPos with
    | none => left; rfl
    | some e =>
      simp only
      split_ifs
      · left; rfl
      · right
        obtain ⟨h1, h2, h3, h4⟩ := hdone sd e hsd he
        exact ⟨sd, e, h1, h2, h3, h4, rfl⟩

theorem mem_take_drop (path : JSString) (sd k x : Nat) (h : x ∈ (path.drop sd).take k) :
    ∃ j, sd ≤ j ∧ j < sd + k ∧ path.getD j 0 = x := by
  obtain ⟨idx, hidx, hx⟩ := List.mem_iff_getElem.mp h
  have hlen : idx < k ∧ sd + idx < path.length := by
    simp only [List.length_take, List.length_drop] at hidx
    omega
  refine ⟨sd + idx, by omega, by omega, ?_⟩
  rw [← hx]
  simp [List.getD_eq_getElem?_getD, List.getElem?_eq_getElem hlen.2]

/-- The extension is empty or starts with a dot, and it holds no slash. -/
theorem extname_shape (path : JSString) :
    (extname path = [] ∨ ∃ t, extname path = 46 :: t) ∧ 47 ∉ extname path := by
  rcases extname_cases path with h | ⟨sd, e, h1, h2, h3, h4, h5⟩
  · rw [h]; exact ⟨Or.inl rfl, by simp⟩
  · refine ⟨Or.inr ?_, ?_⟩
    · rw [h5]
      have hlt : sd < path.length := by omega
      rw [List.drop_eq_getElem_cons hlt]
      obtain ⟨k, hk⟩ : ∃ k, e - sd = k + 1 := ⟨e - sd - 1, by omega⟩
      rw [hk, List.take_succ_cons]
      have : path[sd] = 46 := by
        rw [← h3]; simp [List.getD_eq_getElem?_getD, List.getElem?_eq_getElem hlt]
      rw [this]
      exact ⟨_, rfl⟩
    · rw [h5]
      intro hmem
      obtain ⟨j, hj1, hj2, hj3⟩ := mem_take_drop path sd (e - sd) 47 hmem
      exact h4 j hj1 (by omega) hj3

/-- The concrete scenario of the specification: the post of `alice` on an absent file is
answered with the success body and leaves the file with this text. -/
theorem alice_on_absent_file :
    postEntries id alice.request ⟨none, []⟩ =
      (.json 200 successBody,
        ⟨some (utf16 ("[\n  \x7b\n    \"username\": \"alice\",\n" ++
          "    \"time\": \"2024-01-01\",\n" ++
          "    \"avatar\": \"assets/imgs/123e4567-e89b-42d3-a456-426614174000.png\",\n" ++
          "    \"image\": \"assets/imgs/9b2c1f0e-7d6a-4c3b-8a19-0f1e2d3c4b5a.jpg\"\n" ++
          "  \x7d\n]")), []⟩) := by
  decide

/-! ## The event loop -/

theorem step_of_running (nts : JSString → JSString) (fs : FS) (k : Running)
    (w : List Request) (s : List Response) (L : Loop)
    (h : Step nts ⟨fs, some k, w, s⟩ L) :
    L = ⟨(advance nts fs k).1, (advance nts fs k).2.1, w, s ++ (advance nts fs k).2.2.toList⟩ := by
  cases h
  rfl

theorem step_of_idle (nts : JSString → JSString) (fs : FS) (w : List Request)
    (s : List Response) (L : Loop) (h : Step nts ⟨fs, none, w, s⟩ L) :
    ∃ before req after, w = before ++ req :: after ∧
      L = ⟨fs, some (.validate req), before ++ after, s⟩ := by
  cases h with
  | dispatch _ before after req _ => exact ⟨before, req, after, rfl, rfl⟩

/-- A running handler takes its next step before anything else happens. -/
theorem steps_of_running (nts : JSString → JSString) (fs : FS) (k : Running)
    (w : List Request) (s : List Response) (L : Loop)
    (h : Steps nts ⟨fs, some k, w, s⟩ L) (hidle : L.running = none) :
    Steps nts
      ⟨(advance nts fs k).1, (advance nts fs k).2.1, w, s ++ (advance nts fs k).2.2.toList⟩ L := by
  rcases Relation.ReflTransGen.cases_head h with h | ⟨mid, hstep, hrest⟩
  · rw [← h] at hidle; cases hidle
  · rw [step_of_running nts fs k w s mid hstep] at hrest
    exact hrest

/-- Once dispatched, a handler runs to its end before anything else happens: the steps of the
handler amount to `postEntries`. -/
theorem steps_of_validate (nts : JSString → JSString) (fs : FS) (req : Request)
    (w : List Request) (s : List Response) (L : Loop)
    (h : Steps nts ⟨fs, some (.validate req), w, s⟩ L) (hidle : L.running = none) :
    Steps nts ⟨(postEntries nts req fs).2, none, w, s ++ [(postEntries nts req fs).1]⟩ L := by
  have h1 := steps_of_running nts fs _ w s L h hidle
  unfold postEntries
  simp only [advance] at h1
  cases hb : req.body with
  | none => simpa [hb] using h1
  | some body =>
    simp only [hb] at h1 ⊢
    cases hu : truthy body.username <;> cases ht : truthy body.time <;>
      cases ha : firstFile req.files Files.avatar <;>
      cases hi : firstFile req.files Files.image <;>
      simp only [hu, ht, ha, hi] at h1 ⊢ <;>
      try (simpa using h1)
    have h2 := steps_of_running nts fs _ w _ L h1 hidle
    simp only [advance] at h2
    have h3 := steps_of_running nts fs _ w _ L h2 hidle
    cases hr : readTimeline fs <;> simp only [hr, advance] at h3 ⊢ <;>
      try (simpa using h3)
    have h4 := steps_of_running nts fs _ w _ L h3 hidle
    simpa [advance] using h4


/-- A dispatched handler can run to its end, with the effect of `postEntries`. -/
theorem steps_handler (nts : JSString → JSString) (fs : FS) (req : Request)
    (w : List Request) (s : List Response) :
    Steps nts ⟨fs, some (.validate req), w, s⟩
      ⟨(postEntries nts req fs).2, none, w, s ++ [(postEntries nts req fs).1]⟩ := by
  have run : ∀ (fs : FS) (k : Running) (s : List Response) (L : Loop),
      Steps nts ⟨(advance nts fs k).1, (advance nts fs k).2.1, w,
        s ++ (advance nts fs k).2.2.toList⟩ L → Steps nts ⟨fs, some k, w, s⟩ L :=
    fun fs k s L h => Relation.ReflTransGen.head (Step.step fs k w s) h
  apply run
  unfold postEntries
  simp only [advance]
  cases hb : req.body with
  | none => exact Relation.ReflTransGen.refl
  | some body =>
    simp only
    cases hu : truthy body.username <;> cases ht : truthy body.time <;>
      cases ha : firstFile req.files Files.avatar <;>
      cases hi : firstFile req.files Files.image <;>
      simp only [] <;>
      try (exact Relation.ReflTransGen.refl)
    apply run
    simp only [advance]
    apply run
    cases hr : readTimeline fs <;> simp only [advance, Option.toList, List.append_nil] <;>
      try (exact Relation.ReflTransGen.refl)
    apply run
    simp only [advance, Option.toList, List.append_nil]
    exact Relation.ReflTransGen.refl

theorem steps_idle_empty (nts : JSString → JSString) (fs : FS) (s : List Response) (L : Loop)
    (h : Steps nts ⟨fs, none, [], s⟩ L) : L = ⟨fs, none, [], s⟩ := by
  rcases Relation.ReflTransGen.cases_head h with h | ⟨mid, hstep, _⟩
  · exact h.symm
  · obtain ⟨before, req, after, hw, _⟩ := step_of_idle nts fs [] s mid hstep
    cases before <;> cases hw

theorem steps_idle_one (nts : JSString → JSString) (fs : FS) (r : Request)
    (s : List Response) (L : Loop) (h : Steps nts ⟨fs, none, [r], s⟩ L)
    (hidle : L.running = none) (hw : L.waiting = []) :
    L = ⟨(postEntries nts r fs).2, none, [], s ++ [(postEntries nts r fs).1]⟩ := by
  rcases Relation.ReflTransGen.cases_head h with h | ⟨mid, hstep, hrest⟩
  · rw [← h] at hw; cases hw
  · obtain ⟨before, req, after, hreq, hmid⟩ := step_of_idle nts fs [r] s mid hstep
    subst hmid
    cases before with
    | nil =>
      simp only [List.nil_append, List.cons.injEq] at hreq
      obtain ⟨rfl, rfl⟩ := hreq
      exact steps_idle_empty nts _ _ L (steps_of_validate nts fs r [] s L hrest hidle)
    | cons b bs =>
      simp only [List.cons_append, List.cons.injEq] at hreq
      obtain ⟨_, hreq⟩ := hreq
      cases bs <;> cases hreq

/-- Two waiting requests: whatever the execution, once both handlers have run the server is
where handling one and then the other leaves it. -/
theorem steps_idle_two (nts : JSString → JSString) (fs : FS) (r1 r2 : Request) (L : Loop)
    (h : Steps nts ⟨fs, none, [r1, r2], []⟩ L)
    (hidle : L.running = none) (hw : L.waiting = []) :
    L = ⟨(postEntries nts r2 (postEntries nts r1 fs).2).2, none, [],
        [(postEntries nts r1 fs).1, (postEntries nts r2 (postEntries nts r1 fs).2).1]⟩ ∨
    L = ⟨(postEntries nts r1 (postEntries nts r2 fs).2).2, none, [],
        [(postEntries nts r2 fs).1, (postEntries nts r1 (postEntries nts r2 fs).2).1]⟩ := by
  rcases Relation.ReflTransGen.cases_head h with h | ⟨mid, hstep, hrest⟩
  · rw [← h] at hw; cases hw
  · obtain ⟨before, req, after, hreq, hmid⟩ := step_of_idle nts fs [r1, r2] [] mid hstep
    subst hmid
    cases before with
    | nil =>
      simp only [List.nil_append, List.cons.injEq] at hreq
      obtain ⟨rfl, rfl⟩ := hreq
      left
      have := steps_idle_one nts _ r2 _ L
        (steps_of_validate nts fs r1 [r2] [] L hrest hidle) hidle hw
      simpa using this
    | cons b bs =>
      simp only [List.cons_append, List.cons.injEq] at hreq
      obtain ⟨rfl, hreq⟩ := hreq
      cases bs with
      | nil =>
        simp only [List.nil_append, List.cons.injEq] at hreq
        obtain ⟨rfl, rfl⟩ := hreq
        right
        have := steps_idle_one nts _ r1 _ L
          (steps_of_validate nts fs r2 [r1] [] L hrest hidle) hidle hw
        simpa using this
      | cons c cs =>
        simp only [List.cons_append, List.cons.injEq] at hreq
        obtain ⟨_, hreq⟩ := hreq
        cases cs <;> cases hreq

/-! ## Reachable file systems -/

theorem FullEntry.isCanonical (e : JSON) (h : FullEntry e) : e.canonical = true := by
  obtain ⟨u, t, a, i, rfl, _⟩ := h
  exact entry_canonical (.str u) (.str t) a i rfl rfl

/-- A full entry holds no number. -/
theorem FullEntry.holdsNoNumber (e : JSON) (h : FullEntry e) : e.numberFree = true := by
  obtain ⟨u, t, a, i, rfl, _⟩ := h
  rfl

/-- A full entry is a present entry whose `username` and `time` are strings. -/
theorem FullEntry.present (e : JSON) (h : FullEntry e) : PresentEntry e := by
  obtain ⟨u, t, a, i, rfl, hu, ht, ha, hi⟩ := h
  exact ⟨.text u, .text t, a, i, rfl, fun e => hu (FieldValue.text.inj e),
    fun e => ht (FieldValue.text.inj e), ha, hi⟩

theorem PresentEntry.staysCanonical (e : JSON) (h : PresentEntry e) : e.canonical = true := by
  obtain ⟨u, t, a, i, rfl, _⟩ := h
  exact entry_canonical _ _ a i u.toJSON_canonical t.toJSON_canonical

theorem truthy_some (x : Option FieldValue) (u : FieldValue) (h : truthy x = some u) :
    u ≠ .text [] := by
  unfold truthy at h
  split at h
  · cases h
  · cases h
  · rename_i hne
    cases h
    intro he
    exact hne he

theorem truthy_some_text (x : Option FieldValue) (u : JSString)
    (h : truthy x = some (.text u)) : u ≠ [] := by
  intro he
  subst he
  exact truthy_some x _ h rfl

theorem assetPath_ne_nil (f : UploadedFile) : assetPath f ≠ [] := by
  have : utf16 "assets/imgs/" = 97 :: (utf16 "ssets/imgs/") := by decide
  simp [assetPath, this]

/-- The timeline file of a reachable file system, when present, is the text of an array of
present entries. -/
theorem reachable_inv (nts : JSString → JSString) (fs : FS) (h : Reachable nts fs) :
    fs.timeline = none ∨
      ∃ xs, fs.timeline = some (JSON.stringify nts (.arr xs)) ∧ ∀ e ∈ xs, PresentEntry e := by
  induction h with
  | init imgs => exact Or.inl rfl
  | upload imgs fs _ ih => exact ih
  | handle req fs _ ih =>
    have hread : ∃ xs, readTimeline fs = .arr xs ∧ ∀ e ∈ xs, PresentEntry e := by
      rcases ih with h | ⟨xs, h, hx⟩
      · exact ⟨[], by simp [readTimeline, h], by simp⟩
      · exact ⟨xs, readTimeline_of_stringify nts fs xs h
          (fun e he => (hx e he).staysCanonical), hx⟩
    obtain ⟨xs, hr, hx⟩ := hread
    unfold postEntries
    cases hb : req.body with
    | none => exact ih
    | some body =>
      simp only
      cases hu : truthy body.username <;> cases ht : truthy body.time <;>
        cases ha : firstFile req.files Files.avatar <;>
        cases hi : firstFile req.files Files.image <;>
        simp only [] <;>
        try (exact ih)
      rename_i u t a i
      have hfull : ∀ e ∈ xs ++ [entry u.toJSON t.toJSON (assetPath a) (assetPath i)],
          PresentEntry e := by
        intro e he
        rcases List.mem_append.mp he with h | h
        · exact hx e h
        · rw [List.mem_singleton.mp h]
          exact ⟨u, t, assetPath a, assetPath i, rfl, truthy_some _ u hu, truthy_some _ t ht,
            assetPath_ne_nil a, assetPath_ne_nil i⟩
      have hcan : (JSON.arr (xs ++ [entry u.toJSON t.toJSON (assetPath a)
          (assetPath i)])).canonical = true := by
        simpa [JSON.canonical] using
          canonicalList_of_forall _ (fun e he => (hfull e he).staysCanonical)
      simp only [hr]
      right
      exact ⟨_, by rw [toWellFormed_stringify nts _ hcan], hfull⟩

/-- Whenever the handler answers with the success body, what it pushed is a present entry. -/
theorem postEntries_success (nts : JSString → JSString) (req : Request) (fs : FS)
    (h : (postEntries nts req fs).1 = .json 200 successBody) :
    ∃ xs e, readTimeline fs = .arr xs ∧ PresentEntry e ∧
      (postEntries nts req fs).2.timeline =
        some (toWellFormed (JSON.stringify nts (.arr (xs ++ [e])))) := by
  unfold postEntries at h ⊢
  cases hb : req.body with
  | none => simp [hb] at h
  | some body =>
    simp only [hb] at h ⊢
    cases hu : truthy body.username <;> cases ht : truthy body.time <;>
      cases ha : firstFile req.files Files.avatar <;>
      cases hi : firstFile req.files Files.image <;>
      simp only [hu, ht, ha, hi] at h ⊢ <;>
      try (exact absurd h (by decide))
    rename_i u t a i
    cases hr : readTimeline fs <;> simp only [hr] at h ⊢ <;>
      try (exact absurd h (by decide))
    rename_i xs
    exact ⟨xs, _, rfl, ⟨u, t, assetPath a, assetPath i, rfl, truthy_some _ u hu,
      truthy_some _ t ht, assetPath_ne_nil a, assetPath_ne_nil i⟩, rfl⟩

/-- When the text fields of the request are strings, what the handler pushes on success is a
full entry: four non-empty strings. -/
theorem postEntries_success_text (nts : JSString → JSString) (username time : JSString)
    (files : Option Files) (fs : FS)
    (h : (postEntries nts ⟨some ⟨some (.text username), some (.text time)⟩, files⟩ fs).1 =
      .json 200 successBody) :
    ∃ xs e, readTimeline fs = .arr xs ∧ FullEntry e ∧
      (postEntries nts ⟨some ⟨some (.text username), some (.text time)⟩, files⟩ fs).2.timeline =
        some (toWellFormed (JSON.stringify nts (.arr (xs ++ [e])))) := by
  unfold postEntries at h ⊢
  simp only at h ⊢
  cases hu : truthy (some (FieldValue.text username)) <;>
    cases ht : truthy (some (FieldValue.text time)) <;>
    cases ha : firstFile files Files.avatar <;>
    cases hi : firstFile files Files.image <;>
    simp only [hu, ht, ha, hi] at h ⊢ <;>
    try (exact absurd h (by decide))
  rename_i u t a i
  have hu1 : u = .text username := by
    cases username with
    | nil => simp [truthy] at hu
    | cons c r => simp only [truthy, Option.some.injEq] at hu; exact hu.symm
  have ht1 : t = .text time := by
    cases time with
    | nil => simp [truthy] at ht
    | cons c r => simp only [truthy, Option.some.injEq] at ht; exact ht.symm
  subst hu1 ht1
  cases hr : readTimeline fs <;> simp only [hr] at h ⊢ <;>
    try (exact absurd h (by decide))
  rename_i xs
  exact ⟨xs, _, rfl, ⟨username, time, assetPath a, assetPath i, rfl, truthy_some_text _ _ hu,
    truthy_some_text _ _ ht, assetPath_ne_nil a, assetPath_ne_nil i⟩, rfl⟩

/-! ## The upload middleware -/

theorem mem_names_writeImage (imgs : List (JSString × List Nat)) (n : JSString)
    (d : List Nat) (x : JSString) :
    x ∈ (writeImage imgs n d).map Prod.fst ↔ x = n ∨ x ∈ imgs.map Prod.fst := by
  simp only [writeImage, List.map_cons, List.mem_cons, List.mem_map, List.mem_filter,
    decide_eq_true_eq, Prod.exists, exists_and_right, exists_eq_right]
  constructor
  · rintro (h | ⟨h, _⟩)
    · exact Or.inl h
    · exact Or.inr h
  · rintro (h | h)
    · exact Or.inl h
    · by_cases hx : x = n
      · exact Or.inl hx
      · exact Or.inr ⟨h, hx⟩

/-- The files in the image directory while a request is uploaded: those stored for this request
and those that were there. -/
theorem uploadPart_names (rnd : Nat → JSString) (base : List JSString) (u u1 : Upload)
    (p : FilePart) (h : uploadPart rnd u p = some u1)
    (hu : ∀ x, x ∈ u.imgs.map Prod.fst ↔ x ∈ u.stored ∨ x ∈ base) :
    (∀ x, x ∈ u1.imgs.map Prod.fst ↔ x ∈ u1.stored ∨ x ∈ base) ∧
      u1.stored.length = u.stored.length + (if p.originalname = [] then 0 else 1) := by
  unfold uploadPart at h
  by_cases hn : p.originalname = []
  · simp only [hn, if_true, Option.some.injEq] at h
    subst h
    exact ⟨hu, by simp [hn]⟩
  · simp only [hn, if_false] at h
    split_ifs at h with h1 h2
    · cases h
      refine ⟨fun x => ?_, by simp [hn]⟩
      simp only [mem_names_writeImage, hu x, List.mem_cons, or_assoc]
    · cases h
      refine ⟨fun x => ?_, by simp [hn]⟩
      simp only [mem_names_writeImage, hu x, List.mem_cons, or_assoc]

theorem uploadFields_names (rnd : Nat → JSString) (base : List JSString) (ps : List FilePart) :
    ∀ (u u1 : Upload), uploadFields rnd ps u = .inr u1 →
      (∀ x, x ∈ u.imgs.map Prod.fst ↔ x ∈ u.stored ∨ x ∈ base) →
      (∀ x, x ∈ u1.imgs.map Prod.fst ↔ x ∈ u1.stored ∨ x ∈ base) ∧
        u1.stored.length =
          u.stored.length + (ps.filter fun p => decide (p.originalname ≠ [])).length := by
  induction ps with
  | nil =>
    intro u u1 h hu
    simp only [uploadFields, Sum.inr.injEq] at h
    subst h
    exact ⟨hu, by simp⟩
  | cons p ps ih =>
    intro u u1 h hu
    unfold uploadFields at h
    cases hp : uploadPart rnd u p with
    | none => simp [hp] at h
    | some u2 =>
      simp only [hp] at h
      obtain ⟨h1, h2⟩ := uploadPart_names rnd base u u2 p hp hu
      obtain ⟨h3, h4⟩ := ih u2 u1 h h1
      refine ⟨h3, ?_⟩
      rw [h4, h2]
      by_cases hn : p.originalname = []
      · simp [hn]
      · simp [hn]; omega

/-- The handler changes the file system only when it answers with the success body. -/
theorem postEntries_unchanged (nts : JSString → JSString) (req : Request) (fs : FS)
    (h : (postEntries nts req fs).1 ≠ .json 200 successBody) : (postEntries nts req fs).2 = fs := by
  unfold postEntries at h ⊢
  cases hb : req.body with
  | none => rfl
  | some body =>
    simp only [hb] at h ⊢
    cases hu : truthy body.username <;> cases ht : truthy body.time <;>
      cases ha : firstFile req.files Files.avatar <;>
      cases hi : firstFile req.files Files.image <;>
      simp only [hu, ht, ha, hi] at h ⊢
    cases hr : readTimeline fs <;> simp only [hr] at h ⊢
    exact absurd rfl h

/-- The route changes the timeline file only when it answers with the success body: neither the
upload middleware nor a failing handler touches it. -/
theorem post_timeline_unchanged (rnd : Nat → JSString) (nts : JSString → JSString)
    (r : HttpRequest) (sv : Server) (h : (post rnd nts r sv).1 ≠ .json 200 successBody) :
    (post rnd nts r sv).2.fs.timeline = sv.fs.timeline := by
  cases r with
  | other => rfl
  | multipart username time parts =>
    unfold post at h ⊢
    simp only at h ⊢
    cases hu : uploadFields rnd parts ⟨⟨none, none⟩, sv.fs.imgs, sv.issued, []⟩ with
    | inl e => rfl
    | inr u =>
      simp only [hu] at h ⊢
      rw [postEntries_unchanged nts _ _ h]

theorem not_mem_of_isUUID (id : JSString) (h : isUUID id = true) : 47 ∉ id := by
  intro hmem
  obtain ⟨idx, hidx, hx⟩ := List.mem_iff_getElem.mp hmem
  simp only [isUUID, Bool.and_eq_true, decide_eq_true_eq, List.all_eq_true, List.mem_range] at h
  obtain ⟨hlen, hall⟩ := h
  have := hall idx (by omega)
  have hget : id.getD idx 0 = 47 := by
    simp [List.getD_eq_getElem?_getD, List.getElem?_eq_getElem hidx, hx]
  rw [hget] at this
  split_ifs at this
  · simp at this
  · simp [isHexChar, isDigit] at this

/-! ## The claims -/

/-- C1 (the code departs from it). A request that is not multipart reaches the handler with
`req.body` undefined: all four inputs are absent, yet the handler throws at line 63 instead of
answering 400 with the error body `Missing fields`, and so does the whole route. -/
theorem undefined_body_is_not_answered_400 :
    InputMissing ⟨none, none⟩ ∧
      (∀ (nts : JSString → JSString) (fs : FS) (files : Option Files),
        postEntries nts ⟨none, files⟩ fs = (.uncaught, fs)) ∧
      (∀ (rnd : Nat → JSString) (nts : JSString → JSString) (sv : Server),
        post rnd nts .other sv = (.uncaught, sv)) ∧
      Response.uncaught ≠ .json 400 missingFields := by
  refine ⟨by decide, fun _ _ _ => rfl, fun _ _ _ => rfl, by decide⟩

/-- C2. A valid post made while the timeline file holds an array `es` of entries (values that
hold no number; every timeline entry is one) is answered with the success body, and the file afterwards
parses to the `es.length + 1` elements `es ++ [entry]`, the last being the object with the
`username` and `time` of the request, `avatar` the text `assets/imgs/` followed by the stored
avatar file name and `image` the text `assets/imgs/` followed by the stored image file name. -/
theorem valid_post_appends_entry (nts : JSString → JSString) (p : ValidPost) (fs : FS)
    (text : JSString) (es : List JSON) (hfile : fs.timeline = some text)
    (hparse : JSON.parse text = some (.arr es)) (hes : ∀ e ∈ es, e.numberFree = true) :
    (postEntries nts p.request fs).1 = .json 200 successBody ∧
      (∃ text1, (postEntries nts p.request fs).2.timeline = some text1 ∧
        JSON.parse text1 = some (.arr (es ++ [p.entry]))) ∧
      (es ++ [p.entry]).length = es.length + 1 ∧
      p.entry = .obj [(utf16 "username", .str p.username), (utf16 "time", .str p.time),
        (utf16 "avatar", .str (utf16 "assets/imgs/" ++ p.avatar.filename)),
        (utf16 "image", .str (utf16 "assets/imgs/" ++ p.image.filename))] := by
  have hr : readTimeline fs = .arr es := by simp [readTimeline, hfile, hparse]
  have hc := readTimeline_canonical fs es hr hes
  rw [postEntries_valid_canonical nts p fs es hr hc]
  exact ⟨rfl, ⟨_, rfl, parse_stringify_push nts es p hc⟩, by simp, rfl⟩

/-- C2, on the file `bobFile` and the post of `alice`. -/
theorem valid_post_appends_entry_witness :
    (postEntries id alice.request ⟨some bobFile, []⟩).1 = .json 200 successBody ∧
      (∃ text1, (postEntries id alice.request ⟨some bobFile, []⟩).2.timeline = some text1 ∧
        JSON.parse text1 = some (.arr ([bob.entry] ++ [alice.entry]))) ∧
      ([bob.entry] ++ [alice.entry]).length = [bob.entry].length + 1 ∧
      alice.entry = .obj [(utf16 "username", .str alice.username),
        (utf16 "time", .str alice.time),
        (utf16 "avatar", .str (utf16 "assets/imgs/" ++ alice.avatar.filename)),
        (utf16 "image", .str (utf16 "assets/imgs/" ++ alice.image.filename))] :=
  valid_post_appends_entry id alice ⟨some bobFile, []⟩ bobFile [bob.entry] rfl (by decide)
    (by decide)

/-- C3 as stated fails: with the file holding `null`, an empty object, `5` or a string (valid
JSON, not an array) a valid post ends in an uncaught exception and the file stays as it was. -/
theorem valid_post_on_non_array_throws :
    JSON.parse (utf16 "null") = some .null ∧
      postEntries id alice.request ⟨some (utf16 "null"), []⟩ =
        (.uncaught, ⟨some (utf16 "null"), []⟩) ∧
      postEntries id alice.request ⟨some (utf16 "\x7b\x7d"), []⟩ =
        (.uncaught, ⟨some (utf16 "\x7b\x7d"), []⟩) ∧
      postEntries id alice.request ⟨some (utf16 "5"), []⟩ =
        (.uncaught, ⟨some (utf16 "5"), []⟩) ∧
      postEntries id alice.request ⟨some (utf16 "\"x\""), []⟩ =
        (.uncaught, ⟨some (utf16 "\"x\""), []⟩) := by
  decide

/-- C3, amended. For every valid post whose timeline file is absent, is not valid JSON, or holds
a JSON array, the answer is the success body and the file is overwritten with the text of the
array read (empty when the file was absent or invalid) with the new entry pushed last, written
as UTF-8; the file then parses back to this array when the elements read hold no number. -/
theorem valid_post_on_absent_invalid_or_array (nts : JSString → JSString) (p : ValidPost)
    (fs : FS)
    (h : fs.timeline = none ∨ ∃ text, fs.timeline = some text ∧
      (JSON.parse text = none ∨ ∃ es, JSON.parse text = some (.arr es))) :
    ∃ es, readTimeline fs = .arr es ∧
      postEntries nts p.request fs =
        (.json 200 successBody,
          ⟨some (toWellFormed (JSON.stringify nts (.arr (es ++ [p.entry])))), fs.imgs⟩) ∧
      ((∀ e ∈ es, e.numberFree = true) →
        JSON.parse (toWellFormed (JSON.stringify nts (.arr (es ++ [p.entry])))) =
          some (.arr (es ++ [p.entry]))) ∧
      (fs.timeline = none → es = []) ∧
      (∀ text, fs.timeline = some text → JSON.parse text = none → es = []) ∧
      (∀ text es1, fs.timeline = some text → JSON.parse text = some (.arr es1) → es = es1) := by
  have key : ∀ es, readTimeline fs = .arr es →
      postEntries nts p.request fs =
        (.json 200 successBody,
          ⟨some (toWellFormed (JSON.stringify nts (.arr (es ++ [p.entry])))), fs.imgs⟩) ∧
      ((∀ e ∈ es, e.numberFree = true) →
        JSON.parse (toWellFormed (JSON.stringify nts (.arr (es ++ [p.entry])))) =
          some (.arr (es ++ [p.entry]))) :=
    fun es hr => ⟨postEntries_valid nts p fs es hr, fun hnf => by
      rw [toWellFormed_stringify nts _
        (canonical_push es p (readTimeline_canonical fs es hr hnf))]
      exact parse_stringify_push nts es p (readTimeline_canonical fs es hr hnf)⟩
  rcases h with h | ⟨text, h, hp | ⟨es, hp⟩⟩
  · have hr : readTimeline fs = .arr [] := by simp [readTimeline, h]
    refine ⟨[], hr, (key [] hr).1, (key [] hr).2, fun _ => rfl, fun _ _ _ => rfl, ?_⟩
    intro t es1 ht
    rw [h] at ht
    cases ht
  · have hr : readTimeline fs = .arr [] := by simp [readTimeline, h, hp]
    refine ⟨[], hr, (key [] hr).1, (key [] hr).2, fun _ => rfl, fun _ _ _ => rfl, ?_⟩
    intro t es1 ht hp1
    rw [h] at ht
    cases ht
    rw [hp] at hp1
    cases hp1
  · have hr : readTimeline fs = .arr es := by simp [readTimeline, h, hp]
    refine ⟨es, hr, (key es hr).1, (key es hr).2, ?_, ?_, ?_⟩
    · intro h0; rw [h] at h0; cases h0
    · intro t ht hp1
      rw [h] at ht
      cases ht
      rw [hp] at hp1
      cases hp1
    · intro t es1 ht hp1
      rw [h] at ht
      cases ht
      rw [hp] at hp1
      cases hp1
      rfl

/-- C3 amended, on the file `bobFile` and the post of `alice`. -/
theorem valid_post_on_absent_invalid_or_array_witness :
    ∃ es, readTimeline ⟨some bobFile, []⟩ = .arr es ∧
      postEntries id alice.request ⟨some bobFile, []⟩ =
        (.json 200 successBody,
          ⟨some (toWellFormed (JSON.stringify id (.arr (es ++ [alice.entry])))), []⟩) ∧
      ((∀ e ∈ es, e.numberFree = true) →
        JSON.parse (toWellFormed (JSON.stringify id (.arr (es ++ [alice.entry])))) =
          some (.arr (es ++ [alice.entry]))) ∧
      ((some bobFile : Option JSString) = none → es = []) ∧
      (∀ text, some bobFile = some text → JSON.parse text = none → es = []) ∧
      (∀ text es1, some bobFile = some text → JSON.parse text = some (.arr es1) → es = es1) :=
  valid_post_on_absent_invalid_or_array id alice ⟨some bobFile, []⟩
    (Or.inr ⟨bobFile, rfl, Or.inr ⟨[bob.entry], by decide⟩⟩)

/-- C4 as stated fails: a request with an avatar file and no `time` is answered 400, and the
file the upload middleware stored for it is in the image directory afterwards. -/
theorem failed_validation_keeps_uploaded_file :
    (post (fun _ => sampleUUID) id
        (.multipart (some (.text (utf16 "alice"))) none
          [⟨utf16 "avatar", utf16 "a.png", [137, 80]⟩])
        ⟨⟨none, []⟩, 0⟩).1 = .json 400 missingFields ∧
      (post (fun _ => sampleUUID) id
        (.multipart (some (.text (utf16 "alice"))) none
          [⟨utf16 "avatar", utf16 "a.png", [137, 80]⟩])
        ⟨⟨none, []⟩, 0⟩).2.fs.imageNames = [sampleUUID ++ utf16 ".png"] ∧
      (post (fun _ => sampleUUID) id
        (.multipart (some (.text (utf16 "alice"))) none
          [⟨utf16 "avatar", utf16 "a.png", [137, 80]⟩])
        ⟨⟨none, []⟩, 0⟩).2.fs.imageNames ≠ (FS.mk none []).imageNames := by
  decide

/-- C4, amended. For every multipart post that passes the upload middleware and fails
validation, the answer is 400 and the handler leaves the image directory as the middleware left
it: a file name is there afterwards exactly when it was there before or is one of the names
stored for this request, one per file part that carries a file name; without file parts the
directory is as before. -/
theorem failed_validation_keeps_uploads (rnd : Nat → JSString) (nts : JSString → JSString)
    (username time : Option FieldValue) (parts : List FilePart) (sv : Server) (u : Upload)
    (hup : uploadFields rnd parts ⟨⟨none, none⟩, sv.fs.imgs, sv.issued, []⟩ = .inr u)
    (hmiss : InputMissing ⟨some ⟨username, time⟩, some u.files⟩) :
    post rnd nts (.multipart username time parts) sv =
        (.json 400 missingFields, ⟨⟨sv.fs.timeline, u.imgs⟩, u.issued⟩) ∧
      (∀ x, x ∈ u.imgs.map Prod.fst ↔ x ∈ u.stored ∨ x ∈ sv.fs.imageNames) ∧
      u.stored.length = (parts.filter fun p => decide (p.originalname ≠ [])).length ∧
      (parts = [] → u.imgs = sv.fs.imgs) := by
  obtain ⟨h1, h2⟩ := uploadFields_names rnd sv.fs.imageNames parts _ u hup
    (fun x => by simp [FS.imageNames])
  refine ⟨?_, h1, by simpa using h2, ?_⟩
  · simp only [post, hup]
    rw [postEntries_missing nts _ _ ⟨username, time⟩ rfl hmiss]
  · intro hp
    subst hp
    simp only [uploadFields, Sum.inr.injEq] at hup
    subst hup
    rfl

/-- C4 amended, on the request with an avatar file and no `time`. -/
theorem failed_validation_keeps_uploads_witness :
    post (fun _ => sampleUUID) id
        (.multipart (some (.text (utf16 "alice"))) none
          [⟨utf16 "avatar", utf16 "a.png", [137, 80]⟩])
        ⟨⟨none, []⟩, 0⟩ =
        (.json 400 missingFields,
          ⟨⟨none, [(sampleUUID ++ utf16 ".png", [137, 80])]⟩, 1⟩) ∧
      (∀ x, x ∈ [(sampleUUID ++ utf16 ".png", [137, 80])].map Prod.fst ↔
        x ∈ [sampleUUID ++ utf16 ".png"] ∨ x ∈ (FS.mk none []).imageNames) ∧
      [sampleUUID ++ utf16 ".png"].length =
        ([(⟨utf16 "avatar", utf16 "a.png", [137, 80]⟩ : FilePart)].filter
          fun p => decide (p.originalname ≠ [])).length ∧
      ([(⟨utf16 "avatar", utf16 "a.png", [137, 80]⟩ : FilePart)] = [] →
        [(sampleUUID ++ utf16 ".png", [137, 80])] = (FS.mk none []).imgs) :=
  failed_validation_keeps_uploads (fun _ => sampleUUID) id (some (.text (utf16 "alice"))) none
    [⟨utf16 "avatar", utf16 "a.png", [137, 80]⟩] ⟨⟨none, []⟩, 0⟩
    ⟨⟨some [⟨utf16 "avatar", utf16 "a.png", sampleUUID ++ utf16 ".png"⟩], none⟩,
      [(sampleUUID ++ utf16 ".png", [137, 80])], 1, [sampleUUID ++ utf16 ".png"]⟩
    (by decide) (by decide)

/-- C5. A post that lacks one of the four required inputs leaves the file system, and so the
timeline file (its existence and its content), exactly as it was. -/
theorem failed_validation_leaves_timeline (nts : JSString → JSString) (req : Request) (fs : FS)
    (h : InputMissing req) :
    (postEntries nts req fs).2 = fs ∧ (postEntries nts req fs).2.timeline = fs.timeline := by
  have : (postEntries nts req fs).2 = fs := by
    cases hb : req.body with
    | none => simp [postEntries, hb]
    | some body => rw [postEntries_missing nts req fs body hb h]
  exact ⟨this, by rw [this]⟩

/-- C5, on a request without `time` and the file `bobFile`. -/
theorem failed_validation_leaves_timeline_witness :
    (postEntries id noTime ⟨some bobFile, []⟩).2 = ⟨some bobFile, []⟩ ∧
      (postEntries id noTime ⟨some bobFile, []⟩).2.timeline = some bobFile :=
  failed_validation_leaves_timeline id noTime ⟨some bobFile, []⟩ (by decide)

/-- C6. From an absent timeline file, any `N` valid posts handled one after another are all
answered the success body; reading the file afterwards gives exactly the `N` entries built from
the requests, in order (the file is absent for `N = 0` and holds their text otherwise), and
`JSON.parse` undoes `JSON.stringify(·, null, 2)` on that timeline. -/
theorem sequential_posts_round_trip (nts : JSString → JSString) (ps : List ValidPost)
    (imgs : List (JSString × List Nat)) :
    (runAll nts (ps.map ValidPost.request) ⟨none, imgs⟩).1 =
        ps.map (fun _ => Response.json 200 successBody) ∧
      readTimeline (runAll nts (ps.map ValidPost.request) ⟨none, imgs⟩).2 =
        .arr (ps.map ValidPost.entry) ∧
      (runAll nts (ps.map ValidPost.request) ⟨none, imgs⟩).2.timeline =
        (if ps.isEmpty then none
         else some (JSON.stringify nts (.arr (ps.map ValidPost.entry)))) ∧
      JSON.parse (JSON.stringify nts (.arr (ps.map ValidPost.entry))) =
        some (.arr (ps.map ValidPost.entry)) ∧
      (ps.map ValidPost.entry).length = ps.length := by
  have hc : ∀ e ∈ ps.map ValidPost.entry, e.canonical = true := by
    intro e he
    obtain ⟨p, _, rfl⟩ := List.mem_map.mp he
    exact p.entryCanonical
  have hparse : JSON.parse (JSON.stringify nts (.arr (ps.map ValidPost.entry))) =
      some (.arr (ps.map ValidPost.entry)) :=
    parse_stringify nts _ (by simpa [JSON.canonical] using canonicalList_of_forall _ hc)
  cases ps with
  | nil => exact ⟨rfl, rfl, rfl, hparse, rfl⟩
  | cons p ps =>
    have h := runAll_from_array nts (p :: ps) [] ⟨none, imgs⟩ (by simp) rfl (by simp)
    rw [h]
    refine ⟨rfl, ?_, by simp, hparse, by simp⟩
    exact readTimeline_of_stringify nts _ _ (by simp) hc

/-- C7. A valid post made while the timeline file is absent or is not valid JSON is answered
the success body, and the file afterwards parses to the array of exactly one entry, the new
one. -/
theorem valid_post_recovers (nts : JSString → JSString) (p : ValidPost) (fs : FS)
    (h : fs.timeline = none ∨ ∃ text, fs.timeline = some text ∧ JSON.parse text = none) :
    (postEntries nts p.request fs).1 = .json 200 successBody ∧
      ∃ text1, (postEntries nts p.request fs).2.timeline = some text1 ∧
        JSON.parse text1 = some (.arr [p.entry]) := by
  have hr : readTimeline fs = .arr [] := by
    rcases h with h | ⟨text, h, hp⟩
    · simp [readTimeline, h]
    · simp [readTimeline, h, hp]
  rw [postEntries_valid_canonical nts p fs [] hr (by simp)]
  exact ⟨rfl, _, rfl, parse_stringify_push nts [] p (by simp)⟩

/-- C7, on a truncated file. -/
theorem valid_post_recovers_witness :
    (postEntries id alice.request ⟨some (utf16 "[\x7b\"username\": \"bo"), []⟩).1 =
        .json 200 successBody ∧
      ∃ text1,
        (postEntries id alice.request ⟨some (utf16 "[\x7b\"username\": \"bo"), []⟩).2.timeline =
          some text1 ∧
        JSON.parse text1 = some (.arr [alice.entry]) :=
  valid_post_recovers id alice ⟨some (utf16 "[\x7b\"username\": \"bo"), []⟩
    (Or.inr ⟨_, rfl, by decide⟩)

/-- C8. The stored name of an uploaded file is the generated identifier followed by
`path.extname(originalname)`; that suffix is empty or starts with `.` and holds no `/`; the
stored name holds no `/`, so the file lies directly in the image directory, under that name;
and the original name enters the stored name through its extension only. -/
theorem stored_name_has_no_directory (rnd : Nat → JSString) (u u1 : Upload) (p : FilePart)
    (hid : isUUID (rnd u.issued) = true) (hname : p.originalname ≠ [])
    (hup : uploadPart rnd u p = some u1) :
    storageFilename (rnd u.issued) p.originalname = rnd u.issued ++ extname p.originalname ∧
      (extname p.originalname = [] ∨ ∃ t, extname p.originalname = 46 :: t) ∧
      47 ∉ extname p.originalname ∧
      47 ∉ storageFilename (rnd u.issued) p.originalname ∧
      u1.imgs = writeImage u.imgs (storageFilename (rnd u.issued) p.originalname) p.data ∧
      (∀ other : JSString, extname other = extname p.originalname →
        storageFilename (rnd u.issued) other =
          storageFilename (rnd u.issued) p.originalname) := by
  obtain ⟨h1, h2⟩ := extname_shape p.originalname
  refine ⟨rfl, h1, h2, ?_, ?_, ?_⟩
  · simp only [storageFilename, List.mem_append, not_or]
    exact ⟨not_mem_of_isUUID _ hid, h2⟩
  · unfold uploadPart at hup
    simp only [hname, if_false] at hup
    split_ifs at hup <;> cases hup <;> rfl
  · intro other ho
    simp only [storageFilename, ho]

/-- C8, on a file part named `../../etc/x.tar.gz`. -/
theorem stored_name_has_no_directory_witness :
    storageFilename sampleUUID (utf16 "../../etc/x.tar.gz") =
        sampleUUID ++ extname (utf16 "../../etc/x.tar.gz") ∧
      (extname (utf16 "../../etc/x.tar.gz") = [] ∨
        ∃ t, extname (utf16 "../../etc/x.tar.gz") = 46 :: t) ∧
      47 ∉ extname (utf16 "../../etc/x.tar.gz") ∧
      47 ∉ storageFilename sampleUUID (utf16 "../../etc/x.tar.gz") ∧
      [(sampleUUID ++ utf16 ".gz", [1, 2, 3])] =
        writeImage [] (storageFilename sampleUUID (utf16 "../../etc/x.tar.gz")) [1, 2, 3] ∧
      (∀ other : JSString, extname other = extname (utf16 "../../etc/x.tar.gz") →
        storageFilename sampleUUID other =
          storageFilename sampleUUID (utf16 "../../etc/x.tar.gz")) :=
  stored_name_has_no_directory (fun _ => sampleUUID) ⟨⟨none, none⟩, [], 0, []⟩
    ⟨⟨none, some [⟨utf16 "image", utf16 "../../etc/x.tar.gz", sampleUUID ++ utf16 ".gz"⟩]⟩,
      [(sampleUUID ++ utf16 ".gz", [1, 2, 3])], 1, [sampleUUID ++ utf16 ".gz"]⟩
    ⟨utf16 "image", utf16 "../../etc/x.tar.gz", [1, 2, 3]⟩ (by decide) (by decide) (by decide)

/-- C9 as stated fails: the post whose text parts are `username[]` and `time[a]`, both with an
empty value, reaches the handler with the array of the empty string as `username` and the object
whose `a` is the empty string as `time`. Both pass the checks of line 64, the answer is the
success body, and the file written from an absent timeline file parses to an array whose one
entry has neither a non-empty string as `username` nor one as `time`. -/
theorem reachable_entry_without_text :
    Reachable id (postEntries id emptyNames ⟨none, []⟩).2 ∧
      (postEntries id emptyNames ⟨none, []⟩).1 = .json 200 successBody ∧
      (∃ text, (postEntries id emptyNames ⟨none, []⟩).2.timeline = some text ∧
        JSON.parse text = some (.arr [.obj [(utf16 "username", .arr [.str []]),
          (utf16 "time", .obj [(utf16 "a", .str [])]),
          (utf16 "avatar", .str (utf16 "assets/imgs/" ++ alice.avatar.filename)),
          (utf16 "image", .str (utf16 "assets/imgs/" ++ alice.image.filename))]])) ∧
      ¬ FullEntry (.obj [(utf16 "username", .arr [.str []]),
        (utf16 "time", .obj [(utf16 "a", .str [])]),
        (utf16 "avatar", .str (utf16 "assets/imgs/" ++ alice.avatar.filename)),
        (utf16 "image", .str (utf16 "assets/imgs/" ++ alice.image.filename))]) := by
  refine ⟨Reachable.handle _ _ (Reachable.init []), by decide, ⟨_, rfl, by decide⟩, ?_⟩
  rintro ⟨u, t, a, i, he, -⟩
  injection he with he
  injection he with he _
  injection he with _ he
  cases he

/-- C9, amended. In every file system reachable from an absent timeline file by posts of any
kind, the timeline file, when present, parses to an array in which every entry has the four
fields `username`, `time`, `avatar` and `image`: `avatar` and `image` are non-empty strings, and
`username` and `time` are what `req.body` held for them, each a value other than the empty
string (a non-empty string, or an array or object). Whatever the request and the file system,
when the handler answers with the success body the entry it pushed is such an entry; and when
`username` and `time` of the request are strings, it is an entry of four non-empty strings. -/
theorem reachable_entries_are_present (nts : JSString → JSString) (fs : FS)
    (h : Reachable nts fs) (text : JSString) (hfile : fs.timeline = some text) :
    (∃ xs, JSON.parse text = some (.arr xs) ∧ ∀ e ∈ xs, PresentEntry e) ∧
      (∀ (req : Request) (fs0 : FS), (postEntries nts req fs0).1 = .json 200 successBody →
        ∃ xs e, readTimeline fs0 = .arr xs ∧ PresentEntry e ∧
          (postEntries nts req fs0).2.timeline =
            some (toWellFormed (JSON.stringify nts (.arr (xs ++ [e]))))) ∧
      ∀ (username time : JSString) (files : Option Files) (fs0 : FS),
        (postEntries nts ⟨some ⟨some (.text username), some (.text time)⟩, files⟩ fs0).1 =
            .json 200 successBody →
          ∃ xs e, readTimeline fs0 = .arr xs ∧ FullEntry e ∧
            (postEntries nts ⟨some ⟨some (.text username), some (.text time)⟩, files⟩
                fs0).2.timeline =
              some (toWellFormed (JSON.stringify nts (.arr (xs ++ [e])))) := by
  refine ⟨?_, fun req fs0 => postEntries_success nts req fs0,
    fun username time files fs0 => postEntries_success_text nts username time files fs0⟩
  rcases reachable_inv nts fs h with h0 | ⟨xs, hx, hfull⟩
  · rw [h0] at hfile; cases hfile
  · rw [hx] at hfile
    cases hfile
    exact ⟨xs, parse_stringify nts _ (by
      simpa [JSON.canonical] using
        canonicalList_of_forall xs (fun e he => (hfull e he).staysCanonical)), hfull⟩

/-- C9 amended, after a failed post, the post of `alice` and the post with the text parts
`username[]` and `time[a]`. -/
theorem reachable_entries_are_present_witness :
    (∃ xs, JSON.parse (JSON.stringify id (.arr [alice.entry,
          entry (.arr [.str []]) (.obj [(utf16 "a", .str [])])
            (utf16 "assets/imgs/" ++ alice.avatar.filename)
            (utf16 "assets/imgs/" ++ alice.image.filename)])) = some (.arr xs) ∧
        ∀ e ∈ xs, PresentEntry e) ∧
      (∀ (req : Request) (fs0 : FS), (postEntries id req fs0).1 = .json 200 successBody →
        ∃ xs e, readTimeline fs0 = .arr xs ∧ PresentEntry e ∧
          (postEntries id req fs0).2.timeline =
            some (toWellFormed (JSON.stringify id (.arr (xs ++ [e]))))) ∧
      ∀ (username time : JSString) (files : Option Files) (fs0 : FS),
        (postEntries id ⟨some ⟨some (.text username), some (.text time)⟩, files⟩ fs0).1 =
            .json 200 successBody →
          ∃ xs e, readTimeline fs0 = .arr xs ∧ FullEntry e ∧
            (postEntries id ⟨some ⟨some (.text username), some (.text time)⟩, files⟩
                fs0).2.timeline =
              some (toWellFormed (JSON.stringify id (.arr (xs ++ [e])))) :=
  reachable_entries_are_present id
    (postEntries id emptyNames
      (postEntries id alice.request (postEntries id noTime ⟨none, []⟩).2).2).2
    (Reachable.handle _ _ (Reachable.handle _ _ (Reachable.handle _ _ (Reachable.init []))))
    _ (by decide)

/-- C10 as stated fails: the handler body is synchronous, so within the server process there is
no execution of two valid uploads after which the file holds the prior array (of entries, values
that hold no number) with only one of the two new entries. -/
theorem no_lost_update_in_one_process :
    ¬ ∃ (nts : JSString → JSString) (p q : ValidPost) (fs : FS) (es : List JSON) (L : Loop),
      readTimeline fs = .arr es ∧ (∀ e ∈ es, e.numberFree = true) ∧
      Steps nts ⟨fs, none, [p.request, q.request], []⟩ L ∧
      L.running = none ∧ L.waiting = [] ∧
      (readTimeline L.fs = .arr (es ++ [p.entry]) ∨
        readTimeline L.fs = .arr (es ++ [q.entry])) := by
  rintro ⟨nts, p, q, fs, es, L, hr, hnf, hsteps, hidle, hw, hlost⟩
  have hc := readTimeline_canonical fs es hr hnf
  have hcp : ∀ e ∈ es ++ [p.entry], e.canonical = true := by
    intro e he
    rcases List.mem_append.mp he with h | h
    · exact hc e h
    · rw [List.mem_singleton.mp h]; exact p.entryCanonical
  have hcq : ∀ e ∈ es ++ [q.entry], e.canonical = true := by
    intro e he
    rcases List.mem_append.mp he with h | h
    · exact hc e h
    · rw [List.mem_singleton.mp h]; exact q.entryCanonical
  have hlen : ∀ xs : List JSON, readTimeline L.fs = .arr xs → xs.length = es.length + 2 := by
    intro xs hxs
    rcases steps_idle_two nts fs p.request q.request L hsteps hidle hw with h | h
    · rw [h, postEntries_valid_canonical nts p fs es hr hc] at hxs
      simp only at hxs
      rw [postEntries_valid_canonical nts q _ (es ++ [p.entry])
        (readTimeline_of_stringify nts _ _ rfl hcp) hcp] at hxs
      simp only at hxs
      have hcpq : ∀ e ∈ es ++ [p.entry] ++ [q.entry], e.canonical = true := by
        intro e he
        rcases List.mem_append.mp he with h | h
        · exact hcp e h
        · rw [List.mem_singleton.mp h]; exact q.entryCanonical
      rw [readTimeline_of_stringify nts _ _ rfl hcpq] at hxs
      cases hxs
      simp
    · rw [h, postEntries_valid_canonical nts q fs es hr hc] at hxs
      simp only at hxs
      rw [postEntries_valid_canonical nts p _ (es ++ [q.entry])
        (readTimeline_of_stringify nts _ _ rfl hcq) hcq] at hxs
      simp only at hxs
      have hcqp : ∀ e ∈ es ++ [q.entry] ++ [p.entry], e.canonical = true := by
        intro e he
        rcases List.mem_append.mp he with h | h
        · exact hcq e h
        · rw [List.mem_singleton.mp h]; exact p.entryCanonical
      rw [readTimeline_of_stringify nts _ _ rfl hcqp] at hxs
      cases hxs
      simp
  rcases hlost with h | h
  · have := hlen _ h
    simp at this
  · have := hlen _ h
    simp at this

/-- C10, amended. The read-modify-write of the handler takes no lock, but its steps
(`readFileSync`, `push`, `writeFileSync`) run synchronously: in every execution of two valid
uploads on a timeline that reads as an array of entries (values that hold no number), once both
handlers have run both are
answered the success body and the file holds the prior entries followed by both new entries, in
the order in which the handlers ran. -/
theorem two_uploads_are_both_kept (nts : JSString → JSString) (p q : ValidPost) (fs : FS)
    (es : List JSON) (L : Loop) (hr : readTimeline fs = .arr es)
    (hnf : ∀ e ∈ es, e.numberFree = true)
    (hsteps : Steps nts ⟨fs, none, [p.request, q.request], []⟩ L)
    (hidle : L.running = none) (hw : L.waiting = []) :
    (readTimeline L.fs = .arr (es ++ [p.entry, q.entry]) ∨
        readTimeline L.fs = .arr (es ++ [q.entry, p.entry])) ∧
      L.sent = [.json 200 successBody, .json 200 successBody] := by
  have hc := readTimeline_canonical fs es hr hnf
  have hcp : ∀ e ∈ es ++ [p.entry], e.canonical = true := by
    intro e he
    rcases List.mem_append.mp he with h | h
    · exact hc e h
    · rw [List.mem_singleton.mp h]; exact p.entryCanonical
  have hcq : ∀ e ∈ es ++ [q.entry], e.canonical = true := by
    intro e he
    rcases List.mem_append.mp he with h | h
    · exact hc e h
    · rw [List.mem_singleton.mp h]; exact q.entryCanonical
  rcases steps_idle_two nts fs p.request q.request L hsteps hidle hw with h | h
  · rw [h, postEntries_valid_canonical nts p fs es hr hc]
    simp only
    rw [postEntries_valid_canonical nts q _ (es ++ [p.entry])
      (readTimeline_of_stringify nts _ _ rfl hcp) hcp]
    refine ⟨Or.inl ?_, rfl⟩
    have hcpq : ∀ e ∈ es ++ [p.entry] ++ [q.entry], e.canonical = true := by
      intro e he
      rcases List.mem_append.mp he with h | h
      · exact hcp e h
      · rw [List.mem_singleton.mp h]; exact q.entryCanonical
    rw [readTimeline_of_stringify nts _ _ rfl hcpq]
    simp
  · rw [h, postEntries_valid_canonical nts q fs es hr hc]
    simp only
    rw [postEntries_valid_canonical nts p _ (es ++ [q.entry])
      (readTimeline_of_stringify nts _ _ rfl hcq) hcq]
    refine ⟨Or.inr ?_, rfl⟩
    have hcqp : ∀ e ∈ es ++ [q.entry] ++ [p.entry], e.canonical = true := by
      intro e he
      rcases List.mem_append.mp he with h | h
      · exact hcq e h
      · rw [List.mem_singleton.mp h]; exact p.entryCanonical
    rw [readTimeline_of_stringify nts _ _ rfl hcqp]
    simp

/-- C10 amended, on the execution that runs the handler of `alice` and then that of `bob`,
from an absent file. -/
theorem two_uploads_are_both_kept_witness :
    (readTimeline (postEntries id bob.request (postEntries id alice.request ⟨none, []⟩).2).2 =
          .arr ([] ++ [alice.entry, bob.entry]) ∨
        readTimeline (postEntries id bob.request (postEntries id alice.request ⟨none, []⟩).2).2 =
          .arr ([] ++ [bob.entry, alice.entry])) ∧
      [] ++ [(postEntries id alice.request ⟨none, []⟩).1] ++
          [(postEntries id bob.request (postEntries id alice.request ⟨none, []⟩).2).1] =
        [.json 200 successBody, .json 200 successBody] :=
  two_uploads_are_both_kept id alice bob ⟨none, []⟩ []
    ⟨(postEntries id bob.request (postEntries id alice.request ⟨none, []⟩).2).2, none, [],
      [] ++ [(postEntries id alice.request ⟨none, []⟩).1] ++
        [(postEntries id bob.request (postEntries id alice.request ⟨none, []⟩).2).1]⟩
    rfl (by simp)
    (Relation.ReflTransGen.head (Step.dispatch ⟨none, []⟩ [] [bob.request] alice.request [])
      (Relation.ReflTransGen.trans (steps_handler id ⟨none, []⟩ alice.request [bob.request] [])
        (Relation.ReflTransGen.head
          (Step.dispatch (postEntries id alice.request ⟨none, []⟩).2 [] [] bob.request
            ([] ++ [(postEntries id alice.request ⟨none, []⟩).1]))
          (steps_handler id (postEntries id alice.request ⟨none, []⟩).2 bob.request [] _))))
    rfl rfl

end Timeline
